import Mathlib

/-!
Miner data replication loop (`miner/miner_data.go`)

A shallow embedding of `MinerData` and of its three phases `checkChainData`,
`retrieveChainData` and `dealChainData`, followed by theorems about them.

Conventions of the embedding

* The node API (`api.FullNode`) is an oracle: every operation takes, besides its
  arguments, the number of API calls the replicator has issued before it, so that
  an answer may change from one call to the next.  `StaticNode` is the special
  case of an API whose answers depend on the arguments only.
* Every API call is appended to the ghost field `MinerData.calls`.
* `abi.ChainEpoch` and Go `int` are 64 bit signed integers: they are integers
  here and every increment goes through `wrap64`.
* The three `lru.ARCCache` containers are association lists in insertion order;
  the capacity bound (1,000,000) and eviction are not part of the embedding.
* A function that can fail on a nil type assertion, a nil dereference or an index
  out of range returns `Result.panic`.
-/

namespace Miner

/-! ## Basic types -/

/-- An `address.Address`, by an identifying number. -/
abbrev Address := Nat

/-- A `cid.Cid`, by an identifying number; `Cid.String()` is injective, so the
cache keys `PieceCID.String()` are the identifiers themselves. -/
abbrev Cid := Nat

/-- The undefined content address `cid.Undef`. -/
def CidUndef : Cid := 0

/-- The undefined address `address.Undef`. -/
def AddressUndef : Address := 0

abbrev DealID := Nat

abbrev SectorNumber := Nat

abbrev MethodNum := Nat

/-- A `types.TipSetKey`: the block identifiers of a tipset. -/
abbrev TipSetKey := List Cid

/-- An `error` value. -/
abbrev Err := String

/-- The empty tipset key `types.EmptyTSK`. -/
def EmptyTSK : TipSetKey := []

/-- Two's complement reduction of an integer to the range of `int64`. -/
def wrap64 (x : Int) : Int := (x + 2 ^ 63) % 2 ^ 64 - 2 ^ 63

/-- The largest `int64`. -/
def maxInt64 : Int := 2 ^ 63 - 1

/-- The smallest `int64`. -/
def minInt64 : Int := -(2 ^ 63)

/-- `builtin2.MethodsMiner.ProveCommitSector` (specs-actors v2). -/
def MethodsMiner_ProveCommitSector : MethodNum := 7

/-- `RetrieveParallelNum` (miner_data.go:31). -/
def RetrieveParallelNum : Nat := 16

/-- `DealParallelNum` (miner_data.go:33). -/
def DealParallelNum : Nat := 16

/-- `RetrieveTryCountMax` (miner_data.go:35). -/
def RetrieveTryCountMax : Nat := 50

/-- The deal states of `storagemarket` the replicator distinguishes; every other
state is `Other code`. -/
inductive StorageDealStatus
  | StorageDealProposalNotFound
  | StorageDealProposalRejected
  | StorageDealFailing
  | StorageDealError
  | StorageDealActive
  | Other (code : Nat)
  deriving DecidableEq, Repr

open StorageDealStatus

/-- The status of a retrieval query response. -/
inductive QueryStatus
  | QuerySuccess
  | Other (code : Nat)
  deriving DecidableEq, Repr

/-- A `market.DealProposal`; only the fields the replicator reads. -/
structure DealProposal where
  PieceCID : Cid
  Provider : Address
  deriving DecidableEq, Repr

/-- A `market.DealState`. -/
structure DealState where
  SectorStartEpoch : Int
  LastUpdatedEpoch : Int
  SlashEpoch : Int
  deriving DecidableEq, Repr

/-- An `api.MarketDeal`. -/
structure MarketDeal where
  Proposal : DealProposal
  State : DealState
  deriving DecidableEq, Repr

/-- A `market.PublishStorageDataRef`. -/
structure PublishStorageDataRef where
  RootCID : Cid
  Expert : String
  deriving DecidableEq, Repr

/-- The zero value of `market.PublishStorageDataRef`. -/
def PublishStorageDataRef.zero : PublishStorageDataRef := { RootCID := CidUndef, Expert := "" }

/-- `DealData` (miner_data.go:38). -/
structure DealData where
  dealID : DealID
  deal : DealProposal
  dataRef : PublishStorageDataRef
  state : DealState
  tryCount : Int
  deriving DecidableEq, Repr

/-- `PieceData` (miner_data.go:46). -/
structure PieceData where
  pieceID : Cid
  dealDatas : List DealData
  deriving DecidableEq, Repr

/-- A `types.TipSet`; it has at least one block, `FirstCid` is `Cids()[0]`. -/
structure TipSet where
  Height : Int
  FirstCid : Cid
  OtherCids : List Cid
  Parents : TipSetKey
  deriving DecidableEq, Repr

/-- An `api.Message`: the fields of `msg.Message` the indexer reads. -/
structure Message where
  To : Address
  Method : MethodNum
  Params : List Nat
  deriving DecidableEq, Repr

/-- The `miner2.ProveCommitSectorParams`. -/
structure ProveCommitSectorParams where
  SectorNumber : SectorNumber
  deriving DecidableEq, Repr

/-- The `Info` of a `miner.SectorPreCommitOnChainInfo`. -/
structure SectorPreCommitInfo where
  DealIDs : List DealID
  deriving DecidableEq, Repr

/-- A `miner.SectorPreCommitOnChainInfo`. -/
structure SectorPreCommitOnChainInfo where
  Info : SectorPreCommitInfo
  deriving DecidableEq, Repr

/-- A `miner.SectorOnChainInfo`. -/
structure SectorOnChainInfo where
  DealIDs : List DealID
  deriving DecidableEq, Repr

/-- An `api.DealInfo`. -/
structure DealInfo where
  PieceCID : Cid
  State : StorageDealStatus
  deriving DecidableEq, Repr

/-- The response of `ClientQuery`. -/
structure QueryResp where
  Status : QueryStatus
  deriving DecidableEq, Repr

/-- An `api.QueryOffer`. -/
structure QueryOffer where
  Err : String
  deriving DecidableEq, Repr

/-- A `miner.MinerInfo`; `PeerId` is a pointer that may be nil. -/
structure MinerInfo where
  PeerId : Option String
  deriving DecidableEq, Repr

/-- The transfer types of `storagemarket`. -/
inductive TransferType
  | TTGraphsync
  | TTManual
  deriving DecidableEq, Repr

/-- A `storagemarket.DataRef`. -/
structure DataRef where
  TransferType : TransferType
  Root : Cid
  Expert : String
  deriving DecidableEq, Repr

/-- The `api.StartDealParams`. -/
structure StartDealParams where
  Data : DataRef
  Wallet : Address
  Miner : Address
  FastRetrieval : Bool
  deriving DecidableEq, Repr

/-- The node API calls the replicator issues. -/
inductive Call
  | ChainHead
  | ClientListDeals
  | ChainGetTipSetByHeight (h : Int) (tsk : TipSetKey)
  | ChainGetParentMessages (c : Cid)
  | StateSectorPreCommitInfo (dst : Address) (sn : SectorNumber) (tsk : TipSetKey)
  | StateSectorGetInfo (dst : Address) (sn : SectorNumber) (tsk : TipSetKey)
  | StateMarketStorageDeal (did : DealID) (tsk : TipSetKey)
  | ClientHasLocal (root : Cid)
  | ClientQuery (root : Cid) (provider : Address)
  | ClientGetDealInfo (c : Cid)
  | ClientMinerQueryOffer (addr : Address) (root : Cid)
  | StateMinerInfo (addr : Address) (tsk : TipSetKey)
  | ClientStartDeal (params : StartDealParams)
  deriving DecidableEq, Repr

/-- A run-time failure of the Go program. -/
inductive Panic
  | nilTypeAssertion
  | indexOutOfRange
  | nilDereference
  | closeOfNilChannel
  | closeOfClosedChannel
  deriving DecidableEq, Repr

/-- What a phase of the replicator returns: `nil`, an error, or a run-time failure. -/
inductive Result
  | ok
  | error (e : Err)
  | panic (p : Panic)
  deriving DecidableEq, Repr

/-- The node API with everything else the replicator observes from outside: the
first argument of an operation is the number of API calls issued before it.
`stopping` tells whether the field `m.stopping` is set at that moment, `randIntn`
is the generator behind `rand.Intn` and `UnmarshalCBOR` the decoder of
`ProveCommitSectorParams`. -/
structure FullNode where
  ChainHead : Nat → Except Err TipSet
  ClientListDeals : Nat → Except Err (List DealInfo)
  ChainGetTipSetByHeight : Nat → Int → TipSetKey → Except Err TipSet
  ChainGetParentMessages : Nat → Cid → Except Err (List Message)
  StateSectorPreCommitInfo :
    Nat → Address → SectorNumber → TipSetKey → Except Err SectorPreCommitOnChainInfo
  StateSectorGetInfo : Nat → Address → SectorNumber → TipSetKey → Except Err SectorOnChainInfo
  StateMarketStorageDeal : Nat → DealID → TipSetKey → Except Err MarketDeal
  ClientHasLocal : Nat → Cid → Except Err Bool
  ClientQuery : Nat → Cid → Address → Except Err QueryResp
  ClientGetDealInfo : Nat → Cid → Except Err DealInfo
  ClientMinerQueryOffer : Nat → Address → Cid → Except Err QueryOffer
  StateMinerInfo : Nat → Address → TipSetKey → Except Err MinerInfo
  ClientStartDeal : Nat → StartDealParams → Except Err Cid
  UnmarshalCBOR : List Nat → Option ProveCommitSectorParams
  stopping : Nat → Bool
  randIntn : Nat → Nat

/-! ## The bounded containers -/

/-- An `lru.ARCCache` with keys of type `Cid`, as its list of entries. The cache of
the program is created with a capacity (`ARCCapacity`) and evicts an entry when a new
key is stored in a full cache; the list keeps every entry, so it is the cache of the
program as long as it holds at most `ARCCapacity` entries. -/
structure ARCCache (V : Type) where
  entries : List (Cid × V)
  deriving DecidableEq, Repr

namespace ARCCache

variable {V : Type}

/-- The empty cache of `lru.NewARC`. -/
def empty : ARCCache V := { entries := [] }

/-- Look a key up in a list of entries. -/
def lookup (k : Cid) : List (Cid × V) → Option V
  | [] => none
  | (k', v) :: rest => if k' = k then some v else lookup k rest

/-- The value stored under a key, as `Get` returns it. -/
def Get (c : ARCCache V) (k : Cid) : Option V := lookup k c.entries

/-- Whether a key is present. -/
def Contains (c : ARCCache V) (k : Cid) : Bool := (c.Get k).isSome

/-- Replace the value of every entry under a key. -/
def replace (k : Cid) (v : V) : List (Cid × V) → List (Cid × V)
  | [] => []
  | (k', v') :: rest => (k', if k' = k then v else v') :: replace k v rest

/-- Store a value under a key: an entry that exists is overwritten, otherwise
a new entry is added. No entry is evicted: statements that need the entries stored
before to be kept carry the bound `Len ≤ ARCCapacity` on the cache that results. -/
def Add (c : ARCCache V) (k : Cid) (v : V) : ARCCache V :=
  if c.Contains k then { entries := replace k v c.entries }
  else { entries := c.entries ++ [(k, v)] }

/-- Change the value under a key in place, as a write through the stored pointer does. -/
def overwrite (c : ARCCache V) (k : Cid) (v : V) : ARCCache V :=
  { entries := replace k v c.entries }

/-- Delete the entry under a key. -/
def Remove (c : ARCCache V) (k : Cid) : ARCCache V :=
  { entries := c.entries.filter (fun e => decide (e.1 ≠ k)) }

/-- The keys of the cache, in the order of insertion; the order in which the cache of
the program lists them depends on its recency lists, and no statement depends on it. -/
def Keys (c : ARCCache V) : List Cid := c.entries.map (fun e => e.1)

/-- The number of entries. -/
def Len (c : ARCCache V) : Nat := c.entries.length

end ARCCache

/-- The capacity the three caches are created with (`lru.NewARC(1000000)`,
miner_data.go:68-78). -/
def ARCCapacity : Nat := 1000000

/-! ## The replicator state -/

/-- `MinerData` (miner_data.go:51): the sequential state of the replicator and the
log of the API calls it has issued. -/
structure MinerData where
  address : Address
  checkHeight : Int
  dataRefs : ARCCache PieceData
  retrievals : ARCCache QueryResp
  deals : ARCCache Cid
  calls : List Call
  deriving DecidableEq, Repr

/-- `newMinerData` (miner_data.go:67). -/
def newMinerData (addr : Address) : MinerData :=
  { address := addr
    checkHeight := 10
    dataRefs := ARCCache.empty
    retrievals := ARCCache.empty
    deals := ARCCache.empty
    calls := [] }

/-- Record an API call. -/
def MinerData.log (m : MinerData) (c : Call) : MinerData := { m with calls := m.calls ++ [c] }

/-- The moment of the next API call. -/
def MinerData.now (m : MinerData) : Nat := m.calls.length

/-! ## Chain indexer -/

/-- `isMinerDealed` (miner_data.go:278). -/
def isMinerDealed (m : MinerData) (_root : Cid) (provider : Address) (PieceCID : Cid)
    (localDeals : List DealInfo) : Bool × Option Err :=
  if provider = m.address then (true, none)
  else if localDeals.any (fun lDeal =>
      decide (lDeal.PieceCID = PieceCID) &&
      decide (lDeal.State ≠ StorageDealProposalNotFound) &&
      decide (lDeal.State ≠ StorageDealProposalRejected) &&
      decide (lDeal.State ≠ StorageDealFailing) &&
      decide (lDeal.State ≠ StorageDealError)) then (true, none)
  else (false, none)

/-- The body of the loop over the deal ids of one message (miner_data.go:230-271);
`some e` stands for `return e`. -/
def indexDeal (w : FullNode) (localDeals : List DealInfo) (ptsk : TipSetKey)
    (m : MinerData) (did : DealID) : MinerData × Option Err :=
  let m1 := m.log (Call.StateMarketStorageDeal did ptsk)
  match w.StateMarketStorageDeal m.now did ptsk with
  | .error e => (m1, some e)
  | .ok deal =>
    if (isMinerDealed m1 CidUndef deal.Proposal.Provider deal.Proposal.PieceCID localDeals).1 then
      (m1, none)
    else
      let dealData : DealData :=
        { deal := deal.Proposal
          dealID := did
          state := deal.State
          dataRef := PublishStorageDataRef.zero
          tryCount := 0 }
      let datas : PieceData :=
        match m1.dataRefs.Get deal.Proposal.PieceCID with
        | some d => d
        | none => { pieceID := deal.Proposal.PieceCID, dealDatas := [] }
      if datas.dealDatas.any (fun d => decide (d.dealID = did)) then (m1, none)
      else
        ({ m1 with
            dataRefs := m1.dataRefs.Add dealData.deal.PieceCID
              { datas with dealDatas := datas.dealDatas ++ [dealData] } }, none)

/-- The loop over the deal ids of one message (miner_data.go:230). -/
def indexDeals (w : FullNode) (localDeals : List DealInfo) (ptsk : TipSetKey) :
    MinerData → List DealID → MinerData × Option Err
  | m, [] => (m, none)
  | m, did :: rest =>
    match indexDeal w localDeals ptsk m did with
    | (m1, some e) => (m1, some e)
    | (m1, none) => indexDeals w localDeals ptsk m1 rest

/-- The body of the loop over the parent messages (miner_data.go:204-272). -/
def indexMessage (w : FullNode) (localDeals : List DealInfo) (ptsk : TipSetKey)
    (m : MinerData) (msg : Message) : MinerData × Option Err :=
  if msg.Method ≠ MethodsMiner_ProveCommitSector then (m, none)
  else
    match w.UnmarshalCBOR msg.Params with
    | none => (m, none)
    | some params =>
      let m1 := m.log (Call.StateSectorPreCommitInfo msg.To params.SectorNumber ptsk)
      match w.StateSectorPreCommitInfo m.now msg.To params.SectorNumber ptsk with
      | .error _ =>
        let m2 := m1.log (Call.StateSectorGetInfo msg.To params.SectorNumber ptsk)
        match w.StateSectorGetInfo m1.now msg.To params.SectorNumber ptsk with
        | .error e => (m2, some e)
        | .ok sci => indexDeals w localDeals ptsk m2 sci.DealIDs
      | .ok pci => indexDeals w localDeals ptsk m1 pci.Info.DealIDs

/-- The loop over the parent messages of a tipset (miner_data.go:204). -/
def indexMessages (w : FullNode) (localDeals : List DealInfo) (ptsk : TipSetKey) :
    MinerData → List Message → MinerData × Option Err
  | m, [] => (m, none)
  | m, msg :: rest =>
    match indexMessage w localDeals ptsk m msg with
    | (m1, some e) => (m1, some e)
    | (m1, none) => indexMessages w localDeals ptsk m1 rest

/-- How one pass through the body of the scan loop ends. -/
inductive LoopCtl
  | next
  | stop
  | fail (e : Err)
  deriving DecidableEq, Repr

/-- The parent messages as the indexer uses them (miner_data.go:203-204): the error
of `ChainGetParentMessages` is assigned and never read, and the loop then ranges over
the returned slice, which is nil when the call failed. -/
def parentMessages (w : FullNode) (t : Nat) (c : Cid) : List Message :=
  match w.ChainGetParentMessages t c with
  | .ok ms => ms
  | .error _ => []

/-- The part of the body of the scan loop after the null-round test
(miner_data.go:202-273), for the tipset fetched. -/
def indexTipset (w : FullNode) (localDeals : List DealInfo) (m1 : MinerData)
    (tipset : TipSet) : MinerData × LoopCtl :=
  let ptsk := tipset.Parents
  let m2 := m1.log (Call.ChainGetParentMessages tipset.FirstCid)
  match indexMessages w localDeals ptsk m2 (parentMessages w m1.now tipset.FirstCid) with
  | (m3, some e) => (m3, LoopCtl.fail e)
  | (m3, none) => ({ m3 with checkHeight := wrap64 (tipset.Height + 1) }, LoopCtl.next)

/-- The body of the scan loop (miner_data.go:190-273), entered with
`m.checkHeight < head.Height()`: `stop` is the `break` on a stop request, `fail e`
is `return e`, `next` is the end of the body or the `continue` of the skip branch. -/
def scanHeight (w : FullNode) (localDeals : List DealInfo) (m : MinerData) :
    MinerData × LoopCtl :=
  if w.stopping m.now then (m, LoopCtl.stop)
  else
    let m1 := m.log (Call.ChainGetTipSetByHeight m.checkHeight EmptyTSK)
    match w.ChainGetTipSetByHeight m.now m.checkHeight EmptyTSK with
    | .error e => (m1, LoopCtl.fail e)
    | .ok tipset =>
      if tipset.Height < m1.checkHeight then
        ({ m1 with checkHeight := wrap64 (m1.checkHeight + 1) }, LoopCtl.next)
      else indexTipset w localDeals m1 tipset

/-- The scan loop (miner_data.go:189-275) with a bound on the number of passes;
`none` when the bound is used up before the loop ends. -/
def scanLoop (w : FullNode) (head : TipSet) (localDeals : List DealInfo) :
    Nat → MinerData → Option (MinerData × Result)
  | 0, m => if m.checkHeight < head.Height then none else some (m, Result.ok)
  | fuel + 1, m =>
    if m.checkHeight < head.Height then
      match scanHeight w localDeals m with
      | (m1, LoopCtl.stop) => some (m1, Result.ok)
      | (m1, LoopCtl.fail e) => some (m1, Result.error e)
      | (m1, LoopCtl.next) => scanLoop w head localDeals fuel m1
    else some (m, Result.ok)

/-- `checkChainData` (miner_data.go:179). -/
def checkChainData (w : FullNode) (fuel : Nat) (m : MinerData) : Option (MinerData × Result) :=
  let m1 := m.log Call.ChainHead
  match w.ChainHead m.now with
  | .error e => some (m1, Result.error e)
  | .ok head =>
    let m2 := m1.log Call.ClientListDeals
    match w.ClientListDeals m1.now with
    | .error e => some (m2, Result.error e)
    | .ok localDeals => scanLoop w head localDeals fuel m2

/-! ## Retrieval scheduler -/

/-- How one pass through the body of a scheduler loop ends: `next` is the end of
the body or `continue`, `brk` is `break`, `ret r` leaves the function with `r`. -/
inductive Ctl
  | next
  | brk
  | ret (r : Result)
  deriving DecidableEq, Repr

/-- The records with `dealID > 0` and `state.SectorStartEpoch > 0`, each with its
position in the list of the piece (miner_data.go:321-326); the positions start at `i`. -/
def candidates : Nat → List DealData → List (Nat × DealData)
  | _, [] => []
  | i, d :: rest =>
    if 0 < d.dealID ∧ 0 < d.state.SectorStartEpoch then (i, d) :: candidates (i + 1) rest
    else candidates (i + 1) rest

/-- The statement `dealData.tryCount++` on the record at a position (miner_data.go:348). -/
def bumpTry : Nat → List DealData → List DealData
  | _, [] => []
  | 0, d :: rest => { d with tryCount := wrap64 (d.tryCount + 1) } :: rest
  | i + 1, d :: rest => d :: bumpTry i rest

/-- The body of the Retrieval Set sweep (miner_data.go:298-310). -/
def sweepRetrieval (w : FullNode) (m : MinerData) (rk : Cid) : MinerData × Option Result :=
  match m.dataRefs.Get rk with
  | none => (m, some (Result.panic Panic.nilTypeAssertion))
  | some data =>
    match data.dealDatas with
    | [] => (m, some (Result.panic Panic.indexOutOfRange))
    | dealData :: _ =>
      let m1 := m.log (Call.ClientHasLocal dealData.dataRef.RootCID)
      match w.ClientHasLocal m.now dealData.dataRef.RootCID with
      | .error e => (m1, some (Result.error e))
      | .ok has =>
        if has then ({ m1 with retrievals := m1.retrievals.Remove rk }, none) else (m1, none)

/-- The Retrieval Set sweep (miner_data.go:297-310); `some r` leaves the function. -/
def sweepRetrievals (w : FullNode) : MinerData → List Cid → MinerData × Option Result
  | m, [] => (m, none)
  | m, rk :: rest =>
    match sweepRetrieval w m rk with
    | (m1, some r) => (m1, some r)
    | (m1, none) => sweepRetrievals w m1 rest

/-- The body of the candidate scan of the retrieval scheduler (miner_data.go:317-372). -/
def retrieveCandidate (w : FullNode) (m : MinerData) (rk : Cid) : MinerData × Ctl :=
  match m.dataRefs.Get rk with
  | none => (m, Ctl.ret (Result.panic Panic.nilTypeAssertion))
  | some datas =>
    let dealDatas := candidates 0 datas.dealDatas
    if dealDatas.length = 0 then (m, Ctl.next)
    else
      match dealDatas[w.randIntn m.now % dealDatas.length]? with
      | none => (m, Ctl.ret (Result.panic Panic.indexOutOfRange))
      | some (idx, dealData) =>
        let m1 := m.log (Call.ClientHasLocal dealData.dataRef.RootCID)
        match w.ClientHasLocal m.now dealData.dataRef.RootCID with
        | .error e => (m1, Ctl.ret (Result.error e))
        | .ok has =>
          if has then ({ m1 with retrievals := m1.retrievals.Remove rk }, Ctl.next)
          else if m1.retrievals.Contains dealData.deal.PieceCID then (m1, Ctl.next)
          else
            let m2 := m1.log (Call.ClientQuery dealData.dataRef.RootCID dealData.deal.Provider)
            match w.ClientQuery m1.now dealData.dataRef.RootCID dealData.deal.Provider with
            | .error _ =>
              ({ m2 with
                  dataRefs := m2.dataRefs.overwrite rk
                    { datas with dealDatas := bumpTry idx datas.dealDatas } }, Ctl.next)
            | .ok resp =>
              let m3 : MinerData :=
                if resp.Status = QueryStatus.QuerySuccess then
                  { m2 with retrievals := m2.retrievals.Remove rk }
                else { m2 with retrievals := m2.retrievals.Add rk resp }
              if m3.retrievals.Len > RetrieveParallelNum then (m3, Ctl.brk) else (m3, Ctl.next)

/-- The candidate scan of the retrieval scheduler (miner_data.go:316-373). -/
def retrieveCandidates (w : FullNode) : MinerData → List Cid → MinerData × Result
  | m, [] => (m, Result.ok)
  | m, rk :: rest =>
    match retrieveCandidate w m rk with
    | (m1, Ctl.next) => retrieveCandidates w m1 rest
    | (m1, Ctl.brk) => (m1, Result.ok)
    | (m1, Ctl.ret r) => (m1, r)

/-- `retrieveChainData` (miner_data.go:296). -/
def retrieveChainData (w : FullNode) (m : MinerData) : MinerData × Result :=
  match sweepRetrievals w m m.retrievals.Keys with
  | (m1, some r) => (m1, r)
  | (m1, none) =>
    if m1.retrievals.Len > RetrieveParallelNum then (m1, Result.ok)
    else retrieveCandidates w m1 m1.dataRefs.Keys

/-! ## Deal scheduler -/

/-- The body of the Deal Set sweep (miner_data.go:378-394). -/
def sweepDeal (w : FullNode) (m : MinerData) (rk : Cid) : MinerData × Option Result :=
  match m.deals.Get rk with
  | none => (m, some (Result.panic Panic.nilTypeAssertion))
  | some dealID =>
    let m1 := m.log (Call.ClientGetDealInfo dealID)
    match w.ClientGetDealInfo m.now dealID with
    | .error e => (m1, some (Result.error e))
    | .ok lDeal =>
      if lDeal.State = StorageDealActive then
        ({ m1 with dataRefs := m1.dataRefs.Remove rk, deals := m1.deals.Remove rk }, none)
      else if lDeal.State = StorageDealProposalNotFound ∧
          lDeal.State = StorageDealProposalRejected ∧
          lDeal.State = StorageDealFailing ∧
          lDeal.State = StorageDealError then
        ({ m1 with deals := m1.deals.Remove rk }, none)
      else (m1, none)

/-- The Deal Set sweep (miner_data.go:377-394); `some r` leaves the function. -/
def sweepDeals (w : FullNode) : MinerData → List Cid → MinerData × Option Result
  | m, [] => (m, none)
  | m, rk :: rest =>
    match sweepDeal w m rk with
    | (m1, some r) => (m1, some r)
    | (m1, none) => sweepDeals w m1 rest

/-- The body of the candidate scan of the deal scheduler (miner_data.go:401-478). -/
def dealCandidate (w : FullNode) (m : MinerData) (rk : Cid) : MinerData × Ctl :=
  match m.dataRefs.Get rk with
  | none => (m, Ctl.ret (Result.panic Panic.nilTypeAssertion))
  | some data =>
    match data.dealDatas with
    | [] => (m, Ctl.ret (Result.panic Panic.indexOutOfRange))
    | dealData :: _ =>
      let m1 := m.log (Call.ClientHasLocal dealData.dataRef.RootCID)
      match w.ClientHasLocal m.now dealData.dataRef.RootCID with
      | .error e => (m1, Ctl.ret (Result.error e))
      | .ok has =>
        if !has then (m1, Ctl.next)
        else if m1.deals.Contains rk then (m1, Ctl.next)
        else if m1.deals.Contains rk then (m1, Ctl.next)
        else
          let m2 := m1.log (Call.ClientMinerQueryOffer m1.address dealData.dataRef.RootCID)
          match w.ClientMinerQueryOffer m1.now m1.address dealData.dataRef.RootCID with
          | .error e => (m2, Ctl.ret (Result.error e))
          | .ok offer =>
            if offer.Err = "" then ({ m2 with dataRefs := m2.dataRefs.Remove rk }, Ctl.next)
            else
              let m3 := m2.log (Call.StateMinerInfo m2.address EmptyTSK)
              match w.StateMinerInfo m2.now m2.address EmptyTSK with
              | .error e => (m3, Ctl.ret (Result.error e))
              | .ok mi =>
                match mi.PeerId with
                | none => (m3, Ctl.ret (Result.panic Panic.nilDereference))
                | some peerId =>
                  if peerId = "SETME" then
                    (m3, Ctl.ret (Result.error "the miner hasn't initialized yet"))
                  else
                    let stData : DataRef :=
                      { TransferType := TransferType.TTGraphsync
                        Root := dealData.dataRef.RootCID
                        Expert := dealData.dataRef.Expert }
                    let params : StartDealParams :=
                      { Data := stData
                        Wallet := AddressUndef
                        Miner := m3.address
                        FastRetrieval := true }
                    let m4 := m3.log (Call.ClientStartDeal params)
                    match w.ClientStartDeal m3.now params with
                    | .error _ => (m4, Ctl.next)
                    | .ok dealID =>
                      let m5 : MinerData := { m4 with deals := m4.deals.Add rk dealID }
                      if m5.deals.Len > DealParallelNum then (m5, Ctl.brk) else (m5, Ctl.next)

/-- The candidate scan of the deal scheduler (miner_data.go:400-480). -/
def dealCandidates (w : FullNode) : MinerData → List Cid → MinerData × Result
  | m, [] => (m, Result.ok)
  | m, rk :: rest =>
    match dealCandidate w m rk with
    | (m1, Ctl.next) => dealCandidates w m1 rest
    | (m1, Ctl.brk) => (m1, Result.ok)
    | (m1, Ctl.ret r) => (m1, r)

/-- `dealChainData` (miner_data.go:376). -/
def dealChainData (w : FullNode) (m : MinerData) : MinerData × Result :=
  match sweepDeals w m m.deals.Keys with
  | (m1, some r) => (m1, r)
  | (m1, none) =>
    if m1.deals.Len > DealParallelNum then (m1, Result.ok)
    else dealCandidates w m1 m1.dataRefs.Keys

/-! ## Node APIs whose answers do not change -/

/-- A node API whose answers depend on the arguments of the call only. -/
structure StaticNode where
  ChainHead : Except Err TipSet
  ClientListDeals : Except Err (List DealInfo)
  ChainGetTipSetByHeight : Int → TipSetKey → Except Err TipSet
  ChainGetParentMessages : Cid → Except Err (List Message)
  StateSectorPreCommitInfo :
    Address → SectorNumber → TipSetKey → Except Err SectorPreCommitOnChainInfo
  StateSectorGetInfo : Address → SectorNumber → TipSetKey → Except Err SectorOnChainInfo
  StateMarketStorageDeal : DealID → TipSetKey → Except Err MarketDeal
  ClientHasLocal : Cid → Except Err Bool
  ClientQuery : Cid → Address → Except Err QueryResp
  ClientGetDealInfo : Cid → Except Err DealInfo
  ClientMinerQueryOffer : Address → Cid → Except Err QueryOffer
  StateMinerInfo : Address → TipSetKey → Except Err MinerInfo
  ClientStartDeal : StartDealParams → Except Err Cid
  UnmarshalCBOR : List Nat → Option ProveCommitSectorParams

/-- The oracle of a static node API, with the stop requests and the random
numbers the replicator observes. -/
def StaticNode.toFullNode (sn : StaticNode) (stopping : Nat → Bool) (randIntn : Nat → Nat) :
    FullNode :=
  { ChainHead := fun _ => sn.ChainHead
    ClientListDeals := fun _ => sn.ClientListDeals
    ChainGetTipSetByHeight := fun _ => sn.ChainGetTipSetByHeight
    ChainGetParentMessages := fun _ => sn.ChainGetParentMessages
    StateSectorPreCommitInfo := fun _ => sn.StateSectorPreCommitInfo
    StateSectorGetInfo := fun _ => sn.StateSectorGetInfo
    StateMarketStorageDeal := fun _ => sn.StateMarketStorageDeal
    ClientHasLocal := fun _ => sn.ClientHasLocal
    ClientQuery := fun _ => sn.ClientQuery
    ClientGetDealInfo := fun _ => sn.ClientGetDealInfo
    ClientMinerQueryOffer := fun _ => sn.ClientMinerQueryOffer
    StateMinerInfo := fun _ => sn.StateMinerInfo
    ClientStartDeal := fun _ => sn.ClientStartDeal
    UnmarshalCBOR := sn.UnmarshalCBOR
    stopping := stopping
    randIntn := randIntn }

/-- No stop request is ever pending. -/
def neverStopping : Nat → Bool := fun _ => false

/-- A generator that always yields zero. -/
def zeroRand : Nat → Nat := fun _ => 0

/-! ## Concrete chains -/

/-- A node API that answers every call with an error. -/
def silentNode : StaticNode :=
  { ChainHead := .error "unavailable"
    ClientListDeals := .error "unavailable"
    ChainGetTipSetByHeight := fun _ _ => .error "unavailable"
    ChainGetParentMessages := fun _ => .error "unavailable"
    StateSectorPreCommitInfo := fun _ _ _ => .error "unavailable"
    StateSectorGetInfo := fun _ _ _ => .error "unavailable"
    StateMarketStorageDeal := fun _ _ => .error "unavailable"
    ClientHasLocal := fun _ => .error "unavailable"
    ClientQuery := fun _ _ => .error "unavailable"
    ClientGetDealInfo := fun _ => .error "unavailable"
    ClientMinerQueryOffer := fun _ _ => .error "unavailable"
    StateMinerInfo := fun _ _ => .error "unavailable"
    ClientStartDeal := fun _ => .error "unavailable"
    UnmarshalCBOR := fun _ => none }

/-- A tipset of one block: block `100 + h` with parent block `99 + h`, reporting `height`. -/
def blockAt (h : Int) (height : Int) : TipSet :=
  { Height := height, FirstCid := (100 + h).toNat, OtherCids := [], Parents := [(99 + h).toNat] }

/-- A `ProveCommitSector` message to miner 5 for the sector `n`. -/
def proveCommit (n : Nat) : Message :=
  { To := 5, Method := MethodsMiner_ProveCommitSector, Params := [n] }

/-- A chain with head at `headHeight` on which the tipset at each height `h` reports
`report h`, the parent messages of the block at height 10 are one
`ProveCommitSector` for sector 1 of miner 5, whose pre-commit holds deal 42 on
piece 7, and no local deal exists. -/
def chainNode (headHeight : Int) (report : Int → Int) : StaticNode :=
  { silentNode with
    ChainHead := .ok (blockAt headHeight headHeight)
    ClientListDeals := .ok []
    ChainGetTipSetByHeight := fun h _ => .ok (blockAt h (report h))
    ChainGetParentMessages := fun c => if c = 110 then .ok [proveCommit 1] else .ok []
    StateSectorPreCommitInfo := fun _ _ _ => .ok { Info := { DealIDs := [42] } }
    StateMarketStorageDeal := fun _ _ =>
      .ok { Proposal := { PieceCID := 7, Provider := 5 }
            State := { SectorStartEpoch := 1, LastUpdatedEpoch := 0, SlashEpoch := 0 } }
    UnmarshalCBOR := fun bs => match bs with
      | [n] => some { SectorNumber := n }
      | _ => none }

/-- The node of `chainNode` seen by a replicator that is never asked to stop. -/
def chainWorld (headHeight : Int) (report : Int → Int) : FullNode :=
  (chainNode headHeight report).toFullNode neverStopping zeroRand

/-- A chain on which the parent messages of the block at height 10 cannot be read and,
when `tipsetFails` is set, the tipset at height 11 cannot be fetched. -/
def brokenMessagesWorld (headHeight : Int) (tipsetFails : Bool) : FullNode :=
  ({ chainNode headHeight id with
      ChainGetTipSetByHeight := fun h _ =>
        if tipsetFails && decide (h = 11) then .error "no tipset" else .ok (blockAt h h)
      ChainGetParentMessages := fun c => if c = 110 then .error "no messages" else .ok [] }
    ).toFullNode neverStopping zeroRand

/-- A record of deal 42 on piece 7 stored with miner 5. -/
def sampleRecord : DealData :=
  { dealID := 42
    deal := { PieceCID := 7, Provider := 5 }
    dataRef := PublishStorageDataRef.zero
    state := { SectorStartEpoch := 1, LastUpdatedEpoch := 0, SlashEpoch := 0 }
    tryCount := 0 }

/-- A replicator of miner 1 that knows piece 7 and has published the storage deal
with message id 70 for it. -/
def dealingState : MinerData :=
  { newMinerData 1 with
    dataRefs := { entries := [(7, { pieceID := 7, dealDatas := [sampleRecord] })] }
    deals := { entries := [(7, 70)] } }

/-- A node on which every storage deal of the client is in state `st` and no content
is local. -/
def dealInfoWorld (st : StorageDealStatus) : FullNode :=
  ({ silentNode with
      ClientGetDealInfo := fun _ => .ok { PieceCID := 7, State := st }
      ClientHasLocal := fun _ => .ok false }).toFullNode neverStopping zeroRand

/-! ## Notions used in the statements -/

/-- The calls the indexer issues while it goes through the parent messages of a tipset. -/
def Call.isIndexCall : Call → Bool
  | Call.StateSectorPreCommitInfo _ _ _ => true
  | Call.StateSectorGetInfo _ _ _ => true
  | Call.StateMarketStorageDeal _ _ => true
  | _ => false

/-- The state `m1` comes from `m` by changes to the Piece Inventory and by calls the
indexer issues for the messages of a tipset; everything else is as in `m`. -/
structure IndexFrame (m m1 : MinerData) : Prop where
  address : m1.address = m.address
  checkHeight : m1.checkHeight = m.checkHeight
  retrievals : m1.retrievals = m.retrievals
  deals : m1.deals = m.deals
  calls : ∃ ext, m1.calls = m.calls ++ ext ∧ ∀ c ∈ ext, c.isIndexCall = true

/-- Run `checkChainData` once for every entry of a list of pass bounds, each call
starting in the state the previous one left; `none` when a bound is used up. -/
def checkRuns (w : FullNode) : List Nat → MinerData → Option MinerData
  | [], m => some m
  | fuel :: rest, m =>
    match checkChainData w fuel m with
    | none => none
    | some (m1, _) => checkRuns w rest m1

/-- A node whose head stands at height 12 and whose tipset at every height `h`
reports the height `min h 12`. -/
def boundedWorld : FullNode := chainWorld 12 (fun h => min h 12)

/-- A node whose tipset at height 10 reports the largest `int64` epoch and on which
no other tipset can be fetched; the head stands at height 12. -/
def overflowWorld : FullNode :=
  ({ chainNode 12 id with
      ChainGetTipSetByHeight := fun h _ =>
        if h = 10 then .ok (blockAt 10 maxInt64) else .error "no tipset" }
    ).toFullNode neverStopping zeroRand

/-- The state in which `checkChainData` leaves a fresh replicator of miner 1 on
`boundedWorld`. -/
def boundedFinal : MinerData :=
  ((checkChainData boundedWorld 5 (newMinerData 1)).getD (newMinerData 1, Result.ok)).1

/-- A chain with head at 13 whose tipset for the requested height 10 reports height 11. -/
def laterWorld : FullNode := chainWorld 13 (fun h => if h = 10 then 11 else h)

/-- A chain with head at 12 on which every tipset reports height 9. -/
def earlierWorld : FullNode := chainWorld 12 (fun _ => 9)

/-- A chain on which the pre-commit of every sector is gone and its sector info
holds the deals 42 and 43. -/
def fallbackWorld : FullNode :=
  ({ chainNode 12 id with
      StateSectorPreCommitInfo := fun _ _ _ => .error "precommit info is not exists"
      StateSectorGetInfo := fun _ _ _ => .ok { DealIDs := [42, 43] } }
    ).toFullNode neverStopping zeroRand

/-- The invariant of a `PieceEntry`: its list of records is not empty and no two
records have the same deal id. -/
def PieceOK (p : PieceData) : Prop :=
  p.dealDatas ≠ [] ∧ (p.dealDatas.map (fun d => d.dealID)).Nodup

instance (p : PieceData) : Decidable (PieceOK p) := by
  unfold PieceOK
  infer_instance

/-- Every entry stored in the Piece Inventory satisfies `PieceOK`. -/
def InventoryOK (c : ARCCache PieceData) : Prop := ∀ e ∈ c.entries, PieceOK e.2

instance (c : ARCCache PieceData) : Decidable (InventoryOK c) := by
  unfold InventoryOK
  infer_instance

/-- Whether the Piece Inventory holds, under the key of a piece, an entry with a
record of a deal; it is the search of miner_data.go:258-264 on the stored entry. -/
def HasRecord (c : ARCCache PieceData) (piece : Cid) (did : DealID) : Bool :=
  match c.Get piece with
  | some p => p.dealDatas.any (fun d => decide (d.dealID = did))
  | none => false

/-- The deal ids the indexer resolves for a `ProveCommitSector` message on a static
node (miner_data.go:214-228): those of the pre-commit when its query succeeds, those
of the sector info otherwise. -/
def StaticNode.resolveDealIDs (sn : StaticNode) (msg : Message)
    (params : ProveCommitSectorParams) (ptsk : TipSetKey) : Except Err (List DealID) :=
  match sn.StateSectorPreCommitInfo msg.To params.SectorNumber ptsk with
  | .ok pci => .ok pci.Info.DealIDs
  | .error _ =>
    match sn.StateSectorGetInfo msg.To params.SectorNumber ptsk with
    | .ok sci => .ok sci.DealIDs
    | .error e => .error e

/-- The parent messages of a block as a static node returns them to the indexer. -/
def StaticNode.parentMessages (sn : StaticNode) (c : Cid) : List Message :=
  match sn.ChainGetParentMessages c with
  | .ok ms => ms
  | .error _ => []

/-- Nothing is left to index for a deal id: if its market deal can be read and is not
self-dealt for the miner `addr`, the inventory `c` holds its record. -/
def DealSettled (sn : StaticNode) (ld : List DealInfo) (addr : Address)
    (c : ARCCache PieceData) (ptsk : TipSetKey) (did : DealID) : Prop :=
  ∀ deal, sn.StateMarketStorageDeal did ptsk = .ok deal →
    (isMinerDealed (newMinerData addr) CidUndef deal.Proposal.Provider
      deal.Proposal.PieceCID ld).1 = false →
    HasRecord c deal.Proposal.PieceCID did = true

/-- Nothing is left to index for a message: every deal id resolved for it is settled. -/
def MessageSettled (sn : StaticNode) (ld : List DealInfo) (addr : Address)
    (c : ARCCache PieceData) (ptsk : TipSetKey) (msg : Message) : Prop :=
  msg.Method = MethodsMiner_ProveCommitSector →
    ∀ params, sn.UnmarshalCBOR msg.Params = some params →
      ∀ dids, sn.resolveDealIDs msg params ptsk = .ok dids →
        ∀ did ∈ dids, DealSettled sn ld addr c ptsk did

/-- Nothing is left to index at a height: every parent message the node returns for
the tipset fetched at this height is settled (a tipset that reports a lower height
has no message to index). -/
def HeightSettled (sn : StaticNode) (ld : List DealInfo) (addr : Address)
    (c : ARCCache PieceData) (h : Int) : Prop :=
  ∀ ts, sn.ChainGetTipSetByHeight h EmptyTSK = .ok ts → ¬ ts.Height < h →
    ∀ msg ∈ sn.parentMessages ts.FirstCid, MessageSettled sn ld addr c ts.Parents msg

/-- Every record of the inventory `c` is a record of `c1`. -/
def Grows (c c1 : ARCCache PieceData) : Prop :=
  ∀ piece did, HasRecord c piece did = true → HasRecord c1 piece did = true

/-- A chain with head at 12 on which the parent messages of the blocks at heights 10
and 11 are `ProveCommitSector` messages for the sectors 1 and 2 of miner 5; the
pre-commit of sector `n` holds deal `41 + n`, and every deal is on piece 7. -/
def twoDealNode : StaticNode :=
  { chainNode 12 id with
    ChainGetParentMessages := fun c =>
      if c = 110 then .ok [proveCommit 1] else if c = 111 then .ok [proveCommit 2] else .ok []
    StateSectorPreCommitInfo := fun _ n _ => .ok { Info := { DealIDs := [41 + n] } } }

/-- The chain of `twoDealNode` seen by a replicator that is never asked to stop. -/
def twoDealWorld : FullNode := twoDealNode.toFullNode neverStopping zeroRand

/-- The chain of `twoDealNode` seen by a replicator with a stop request pending at
the moment of its seventh API call. -/
def interruptedWorld : FullNode := twoDealNode.toFullNode (fun t => decide (t = 6)) zeroRand

/-- The state after one scan of `twoDealWorld` by a fresh replicator of miner 1. -/
def twoDealScanned : MinerData :=
  ((checkChainData twoDealWorld 5 (newMinerData 1)).getD (newMinerData 1, Result.ok)).1

/-- The state after the scan of `twoDealWorld` is run again from height 10. -/
def twoDealRescanned : MinerData :=
  ((checkChainData twoDealWorld 5 { twoDealScanned with checkHeight := 10 }).getD
    (newMinerData 1, Result.ok)).1

/-- The state after one scan of `interruptedWorld` by a fresh replicator of miner 1. -/
def interruptedScanned : MinerData :=
  ((checkChainData interruptedWorld 5 (newMinerData 1)).getD (newMinerData 1, Result.ok)).1

/-- A node on which the read of the parent messages fails at the moment of the fourth
API call and succeeds at every other moment; the chain is the one of `chainNode`. -/
def flakyWorld : FullNode :=
  { chainWorld 11 id with
    ChainGetParentMessages := fun t c =>
      if t = 3 then .error "timeout" else if c = 110 then .ok [proveCommit 1] else .ok [] }

/-! ## Lifecycle -/

/-- A Go channel of `struct{}` values: all that matters is whether it is closed. -/
structure Chan where
  closed : Bool
  deriving DecidableEq, Repr

/-- The replicator with its lifecycle signals: `stop` and `stopping` are `nil`
(`none`) or a channel; `drivers` counts the `syncData` goroutines launched so far. -/
structure Replicator where
  data : MinerData
  stop : Option Chan
  stopping : Option Chan
  drivers : Nat
  deriving DecidableEq, Repr

/-- `Start` (miner_data.go:90), under the lock of the replicator. -/
def Replicator.Start (r : Replicator) : Replicator × Result :=
  if r.stop ≠ none then (r, Result.error "miner data already started")
  else ({ r with stop := some { closed := false }, drivers := r.drivers + 1 }, Result.ok)

/-- A replicator of miner 1 that has never been started. -/
def idleReplicator : Replicator :=
  { data := newMinerData 1, stop := none, stopping := none, drivers := 0 }

/-! ## Outcomes of the scheduler loop bodies -/

/-- The parameters of the storage deal the deal scheduler publishes for a record
(miner_data.go:453-465). -/
def startDealParams (addr : Address) (d : DealData) : StartDealParams :=
  { Data :=
      { TransferType := TransferType.TTGraphsync
        Root := d.dataRef.RootCID
        Expert := d.dataRef.Expert }
    Wallet := AddressUndef
    Miner := addr
    FastRetrieval := true }

/-- The ways one pass of the candidate scan of the deal scheduler can go for the key
`rk` in the state `m`, each with the answers of the node that lead to it and the
state and outcome it ends in. -/
inductive DealOutcome (w : FullNode) (m : MinerData) (rk : Cid) : MinerData × Ctl → Prop
  | missing (hg : m.dataRefs.Get rk = none) :
    DealOutcome w m rk (m, Ctl.ret (Result.panic Panic.nilTypeAssertion))
  | noRecord (data : PieceData) (hg : m.dataRefs.Get rk = some data)
      (hd : data.dealDatas = []) :
    DealOutcome w m rk (m, Ctl.ret (Result.panic Panic.indexOutOfRange))
  | probeFailed (data : PieceData) (d : DealData) (rest : List DealData) (e : Err)
      (hg : m.dataRefs.Get rk = some data) (hd : data.dealDatas = d :: rest)
      (hl : w.ClientHasLocal m.now d.dataRef.RootCID = .error e) :
    DealOutcome w m rk
      (m.log (Call.ClientHasLocal d.dataRef.RootCID), Ctl.ret (Result.error e))
  | notLocal (data : PieceData) (d : DealData) (rest : List DealData)
      (hg : m.dataRefs.Get rk = some data) (hd : data.dealDatas = d :: rest)
      (hl : w.ClientHasLocal m.now d.dataRef.RootCID = .ok false) :
    DealOutcome w m rk (m.log (Call.ClientHasLocal d.dataRef.RootCID), Ctl.next)
  | dealing (data : PieceData) (d : DealData) (rest : List DealData)
      (hg : m.dataRefs.Get rk = some data) (hd : data.dealDatas = d :: rest)
      (hl : w.ClientHasLocal m.now d.dataRef.RootCID = .ok true)
      (hc : m.deals.Contains rk = true) :
    DealOutcome w m rk (m.log (Call.ClientHasLocal d.dataRef.RootCID), Ctl.next)
  | offerFailed (data : PieceData) (d : DealData) (rest : List DealData) (e : Err)
      (hg : m.dataRefs.Get rk = some data) (hd : data.dealDatas = d :: rest)
      (hl : w.ClientHasLocal m.now d.dataRef.RootCID = .ok true)
      (hc : m.deals.Contains rk = false)
      (ho : w.ClientMinerQueryOffer (m.now + 1) m.address d.dataRef.RootCID = .error e) :
    DealOutcome w m rk
      ((m.log (Call.ClientHasLocal d.dataRef.RootCID)).log
        (Call.ClientMinerQueryOffer m.address d.dataRef.RootCID), Ctl.ret (Result.error e))
  | served (data : PieceData) (d : DealData) (rest : List DealData) (offer : QueryOffer)
      (hg : m.dataRefs.Get rk = some data) (hd : data.dealDatas = d :: rest)
      (hl : w.ClientHasLocal m.now d.dataRef.RootCID = .ok true)
      (hc : m.deals.Contains rk = false)
      (ho : w.ClientMinerQueryOffer (m.now + 1) m.address d.dataRef.RootCID = .ok offer)
      (he : offer.Err = "") :
    DealOutcome w m rk
      ({ (m.log (Call.ClientHasLocal d.dataRef.RootCID)).log
            (Call.ClientMinerQueryOffer m.address d.dataRef.RootCID) with
          dataRefs := m.dataRefs.Remove rk }, Ctl.next)
  | infoFailed (data : PieceData) (d : DealData) (rest : List DealData) (offer : QueryOffer)
      (e : Err)
      (hg : m.dataRefs.Get rk = some data) (hd : data.dealDatas = d :: rest)
      (hl : w.ClientHasLocal m.now d.dataRef.RootCID = .ok true)
      (hc : m.deals.Contains rk = false)
      (ho : w.ClientMinerQueryOffer (m.now + 1) m.address d.dataRef.RootCID = .ok offer)
      (he : offer.Err ≠ "")
      (hi : w.StateMinerInfo (m.now + 2) m.address EmptyTSK = .error e) :
    DealOutcome w m rk
      (((m.log (Call.ClientHasLocal d.dataRef.RootCID)).log
          (Call.ClientMinerQueryOffer m.address d.dataRef.RootCID)).log
        (Call.StateMinerInfo m.address EmptyTSK), Ctl.ret (Result.error e))
  | noPeer (data : PieceData) (d : DealData) (rest : List DealData) (offer : QueryOffer)
      (mi : MinerInfo)
      (hg : m.dataRefs.Get rk = some data) (hd : data.dealDatas = d :: rest)
      (hl : w.ClientHasLocal m.now d.dataRef.RootCID = .ok true)
      (hc : m.deals.Contains rk = false)
      (ho : w.ClientMinerQueryOffer (m.now + 1) m.address d.dataRef.RootCID = .ok offer)
      (he : offer.Err ≠ "")
      (hi : w.StateMinerInfo (m.now + 2) m.address EmptyTSK = .ok mi)
      (hp : mi.PeerId = none) :
    DealOutcome w m rk
      (((m.log (Call.ClientHasLocal d.dataRef.RootCID)).log
          (Call.ClientMinerQueryOffer m.address d.dataRef.RootCID)).log
        (Call.StateMinerInfo m.address EmptyTSK), Ctl.ret (Result.panic Panic.nilDereference))
  | uninitialized (data : PieceData) (d : DealData) (rest : List DealData)
      (offer : QueryOffer) (mi : MinerInfo)
      (hg : m.dataRefs.Get rk = some data) (hd : data.dealDatas = d :: rest)
      (hl : w.ClientHasLocal m.now d.dataRef.RootCID = .ok true)
      (hc : m.deals.Contains rk = false)
      (ho : w.ClientMinerQueryOffer (m.now + 1) m.address d.dataRef.RootCID = .ok offer)
      (he : offer.Err ≠ "")
      (hi : w.StateMinerInfo (m.now + 2) m.address EmptyTSK = .ok mi)
      (hp : mi.PeerId = some "SETME") :
    DealOutcome w m rk
      (((m.log (Call.ClientHasLocal d.dataRef.RootCID)).log
          (Call.ClientMinerQueryOffer m.address d.dataRef.RootCID)).log
        (Call.StateMinerInfo m.address EmptyTSK),
        Ctl.ret (Result.error "the miner hasn't initialized yet"))
  | startFailed (data : PieceData) (d : DealData) (rest : List DealData)
      (offer : QueryOffer) (mi : MinerInfo) (peerId : String) (e : Err)
      (hg : m.dataRefs.Get rk = some data) (hd : data.dealDatas = d :: rest)
      (hl : w.ClientHasLocal m.now d.dataRef.RootCID = .ok true)
      (hc : m.deals.Contains rk = false)
      (ho : w.ClientMinerQueryOffer (m.now + 1) m.address d.dataRef.RootCID = .ok offer)
      (he : offer.Err ≠ "")
      (hi : w.StateMinerInfo (m.now + 2) m.address EmptyTSK = .ok mi)
      (hp : mi.PeerId = some peerId) (hs : peerId ≠ "SETME")
      (hr : w.ClientStartDeal (m.now + 3) (startDealParams m.address d) = .error e) :
    DealOutcome w m rk
      ((((m.log (Call.ClientHasLocal d.dataRef.RootCID)).log
            (Call.ClientMinerQueryOffer m.address d.dataRef.RootCID)).log
          (Call.StateMinerInfo m.address EmptyTSK)).log
        (Call.ClientStartDeal (startDealParams m.address d)), Ctl.next)
  | started (data : PieceData) (d : DealData) (rest : List DealData)
      (offer : QueryOffer) (mi : MinerInfo) (peerId : String) (dealID : Cid)
      (hg : m.dataRefs.Get rk = some data) (hd : data.dealDatas = d :: rest)
      (hl : w.ClientHasLocal m.now d.dataRef.RootCID = .ok true)
      (hc : m.deals.Contains rk = false)
      (ho : w.ClientMinerQueryOffer (m.now + 1) m.address d.dataRef.RootCID = .ok offer)
      (he : offer.Err ≠ "")
      (hi : w.StateMinerInfo (m.now + 2) m.address EmptyTSK = .ok mi)
      (hp : mi.PeerId = some peerId) (hs : peerId ≠ "SETME")
      (hr : w.ClientStartDeal (m.now + 3) (startDealParams m.address d) = .ok dealID) :
    DealOutcome w m rk
      ({ (((m.log (Call.ClientHasLocal d.dataRef.RootCID)).log
              (Call.ClientMinerQueryOffer m.address d.dataRef.RootCID)).log
            (Call.StateMinerInfo m.address EmptyTSK)).log
          (Call.ClientStartDeal (startDealParams m.address d)) with
          deals := m.deals.Add rk dealID },
        if (m.deals.Add rk dealID).Len > DealParallelNum then Ctl.brk else Ctl.next)

/-- A chain like `chainNode` on which the pre-commit query fails with a transport
error, the sector info of every sector holds deal 42, and the head is at 11. -/
def refusedWorld : FullNode :=
  ({ chainNode 11 id with
      StateSectorPreCommitInfo := fun _ _ _ => .error "connection refused"
      StateSectorGetInfo := fun _ _ _ => .ok { DealIDs := [42] } }
    ).toFullNode neverStopping zeroRand

/-- A replicator of miner 1 that knows piece 7 through `sampleRecord`. -/
def knowingState : MinerData :=
  { newMinerData 1 with
    dataRefs := { entries := [(7, { pieceID := 7, dealDatas := [sampleRecord] })] } }

/-- A node on which no content is local and every retrieval query is answered with
the status `st`. -/
def queryWorld (st : QueryStatus) : FullNode :=
  ({ silentNode with
      ClientHasLocal := fun _ => .ok false
      ClientQuery := fun _ _ => .ok { Status := st } }).toFullNode neverStopping zeroRand

/-- A node on which every content is local, the local miner offers nothing, its peer
id is `peer`, every storage deal that is started gets the message id 70 and every
deal of the client is in the state `st`. -/
def publishingNode (peer : String) (st : StorageDealStatus) : StaticNode :=
  { silentNode with
    ClientHasLocal := fun _ => .ok true
    ClientMinerQueryOffer := fun _ _ => .ok { Err := "not found" }
    StateMinerInfo := fun _ _ => .ok { PeerId := some peer }
    ClientStartDeal := fun _ => .ok 70
    ClientGetDealInfo := fun _ => .ok { PieceCID := 7, State := st } }

/-- The node of `publishingNode` as the replicator sees it. -/
def publishingWorld (peer : String) (st : StorageDealStatus) : FullNode :=
  (publishingNode peer st).toFullNode neverStopping zeroRand

/-- The record the retrieval scheduler chooses among the eligible records of an
entry at the moment `t`, with its position in the entry (miner_data.go:321-330);
`none` when no record is eligible. -/
def chosenRecord (w : FullNode) (t : Nat) (datas : PieceData) : Option (Nat × DealData) :=
  (candidates 0 datas.dealDatas)[w.randIntn t % (candidates 0 datas.dealDatas).length]?

/-- The ways one pass of the candidate scan of the retrieval scheduler can go for the
key `rk` in the state `m`, each with the answers of the node that lead to it and the
state and outcome it ends in. -/
inductive RetrieveOutcome (w : FullNode) (m : MinerData) (rk : Cid) : MinerData × Ctl → Prop
  | missing (hg : m.dataRefs.Get rk = none) :
    RetrieveOutcome w m rk (m, Ctl.ret (Result.panic Panic.nilTypeAssertion))
  | noCandidate (datas : PieceData) (hg : m.dataRefs.Get rk = some datas)
      (hn : (candidates 0 datas.dealDatas).length = 0) :
    RetrieveOutcome w m rk (m, Ctl.next)
  | noPick (datas : PieceData) (hg : m.dataRefs.Get rk = some datas)
      (hn : (candidates 0 datas.dealDatas).length ≠ 0)
      (hp : chosenRecord w m.now datas = none) :
    RetrieveOutcome w m rk (m, Ctl.ret (Result.panic Panic.indexOutOfRange))
  | probeFailed (datas : PieceData) (idx : Nat) (dealData : DealData) (e : Err)
      (hg : m.dataRefs.Get rk = some datas)
      (hp : chosenRecord w m.now datas = some (idx, dealData))
      (hl : w.ClientHasLocal m.now dealData.dataRef.RootCID = .error e) :
    RetrieveOutcome w m rk
      (m.log (Call.ClientHasLocal dealData.dataRef.RootCID), Ctl.ret (Result.error e))
  | isLocal (datas : PieceData) (idx : Nat) (dealData : DealData)
      (hg : m.dataRefs.Get rk = some datas)
      (hp : chosenRecord w m.now datas = some (idx, dealData))
      (hl : w.ClientHasLocal m.now dealData.dataRef.RootCID = .ok true) :
    RetrieveOutcome w m rk
      ({ m.log (Call.ClientHasLocal dealData.dataRef.RootCID) with
          retrievals := m.retrievals.Remove rk }, Ctl.next)
  | retrieving (datas : PieceData) (idx : Nat) (dealData : DealData)
      (hg : m.dataRefs.Get rk = some datas)
      (hp : chosenRecord w m.now datas = some (idx, dealData))
      (hl : w.ClientHasLocal m.now dealData.dataRef.RootCID = .ok false)
      (hc : m.retrievals.Contains dealData.deal.PieceCID = true) :
    RetrieveOutcome w m rk (m.log (Call.ClientHasLocal dealData.dataRef.RootCID), Ctl.next)
  | queryFailed (datas : PieceData) (idx : Nat) (dealData : DealData) (e : Err)
      (hg : m.dataRefs.Get rk = some datas)
      (hp : chosenRecord w m.now datas = some (idx, dealData))
      (hl : w.ClientHasLocal m.now dealData.dataRef.RootCID = .ok false)
      (hc : m.retrievals.Contains dealData.deal.PieceCID = false)
      (hq : w.ClientQuery (m.now + 1) dealData.dataRef.RootCID dealData.deal.Provider =
        .error e) :
    RetrieveOutcome w m rk
      ({ (m.log (Call.ClientHasLocal dealData.dataRef.RootCID)).log
            (Call.ClientQuery dealData.dataRef.RootCID dealData.deal.Provider) with
          dataRefs := m.dataRefs.overwrite rk
            { datas with dealDatas := bumpTry idx datas.dealDatas } }, Ctl.next)
  | succeeded (datas : PieceData) (idx : Nat) (dealData : DealData) (resp : QueryResp)
      (hg : m.dataRefs.Get rk = some datas)
      (hp : chosenRecord w m.now datas = some (idx, dealData))
      (hl : w.ClientHasLocal m.now dealData.dataRef.RootCID = .ok false)
      (hc : m.retrievals.Contains dealData.deal.PieceCID = false)
      (hq : w.ClientQuery (m.now + 1) dealData.dataRef.RootCID dealData.deal.Provider =
        .ok resp)
      (hs : resp.Status = QueryStatus.QuerySuccess) :
    RetrieveOutcome w m rk
      ({ (m.log (Call.ClientHasLocal dealData.dataRef.RootCID)).log
            (Call.ClientQuery dealData.dataRef.RootCID dealData.deal.Provider) with
          retrievals := m.retrievals.Remove rk },
        if (m.retrievals.Remove rk).Len > RetrieveParallelNum then Ctl.brk else Ctl.next)
  | offered (datas : PieceData) (idx : Nat) (dealData : DealData) (resp : QueryResp)
      (hg : m.dataRefs.Get rk = some datas)
      (hp : chosenRecord w m.now datas = some (idx, dealData))
      (hl : w.ClientHasLocal m.now dealData.dataRef.RootCID = .ok false)
      (hc : m.retrievals.Contains dealData.deal.PieceCID = false)
      (hq : w.ClientQuery (m.now + 1) dealData.dataRef.RootCID dealData.deal.Provider =
        .ok resp)
      (hs : resp.Status ≠ QueryStatus.QuerySuccess) :
    RetrieveOutcome w m rk
      ({ (m.log (Call.ClientHasLocal dealData.dataRef.RootCID)).log
            (Call.ClientQuery dealData.dataRef.RootCID dealData.deal.Provider) with
          retrievals := m.retrievals.Add rk resp },
        if (m.retrievals.Add rk resp).Len > RetrieveParallelNum then Ctl.brk else Ctl.next)

/-- A replicator of miner 1 that knows piece 7 and has sixteen retrievals pending,
for the pieces 101 to 116. -/
def busyState : MinerData :=
  { knowingState with
    retrievals :=
      { entries := (List.range 16).map (fun i => (101 + i, { Status := QueryStatus.Other 1 })) } }

/-- The error of the call `c` issued at the moment `t`, if `c` is a local-store probe
that fails. -/
def probeError (w : FullNode) (t : Nat) : Call → List Err
  | Call.ClientHasLocal root =>
    match w.ClientHasLocal t root with
    | .error e => [e]
    | .ok _ => []
  | _ => []

/-- The errors of the failed local-store probes among the calls `cs`, the first of
which is issued at the moment `t`. -/
def probeErrors (w : FullNode) : Nat → List Call → List Err
  | _, [] => []
  | t, c :: rest => probeError w t c ++ probeErrors w (t + 1) rest

/-- From `m` to `m1` the call log is extended, and the failed local-store probes among
the new calls have the errors `errs`. -/
def Emits (w : FullNode) (m m1 : MinerData) (errs : List Err) : Prop :=
  ∃ ext, m1.calls = m.calls ++ ext ∧ probeErrors w m.now ext = errs

/-- The error of a result, as a list. -/
def Result.errors : Result → List Err
  | Result.error e => [e]
  | _ => []

/-- The node of `silentNode` as the replicator sees it. -/
def silentWorld : FullNode := silentNode.toFullNode neverStopping zeroRand

/-- Every entry of `c1` is an entry of `c`, with the same value: from `c` to `c1`
entries are lost at most, none is added or changed. -/
def Shrinks {V : Type} (c c1 : ARCCache V) : Prop :=
  ∀ k v, c1.Get k = some v → c.Get k = some v

/-- From `m` to `m1` the deal scheduler publishes nothing: the local miner and the
Retrieval Set are the same, the Deal Set and the Piece Inventory lose entries at most,
and every `ClientStartDeal` among the new calls has parameters in `failing`. -/
def NoDeal (failing : StartDealParams → Prop) (m m1 : MinerData) : Prop :=
  m1.address = m.address ∧ m1.retrievals = m.retrievals ∧
    Shrinks m.deals m1.deals ∧ Shrinks m.dataRefs m1.dataRefs ∧
    ∃ ext, m1.calls = m.calls ++ ext ∧ ∀ p, Call.ClientStartDeal p ∈ ext → failing p

/-- A replicator of miner 1 that knows the pieces 7 and 8 and has published the
storage deal with message id 70 for piece 7. -/
def pairState : MinerData :=
  { newMinerData 1 with
    dataRefs :=
      { entries :=
          [(7, { pieceID := 7, dealDatas := [sampleRecord] }),
            (8, { pieceID := 8,
                  dealDatas := [{ sampleRecord with deal := { PieceCID := 8, Provider := 5 } }] })] }
    deals := { entries := [(7, 70)] } }

/-- The pass of the candidate scan of the deal scheduler for the key `rk` in the state
`m` gets as far as calling `ClientStartDeal`, for the record `d`. -/
def Reaches (w : FullNode) (m : MinerData) (rk : Cid) (d : DealData) : Prop :=
  ∃ data rest offer mi peerId,
    m.dataRefs.Get rk = some data ∧ data.dealDatas = d :: rest ∧
    w.ClientHasLocal m.now d.dataRef.RootCID = .ok true ∧
    m.deals.Contains rk = false ∧
    w.ClientMinerQueryOffer (m.now + 1) m.address d.dataRef.RootCID = .ok offer ∧
    offer.Err ≠ "" ∧
    w.StateMinerInfo (m.now + 2) m.address EmptyTSK = .ok mi ∧
    mi.PeerId = some peerId ∧ peerId ≠ "SETME"

/-- On the node `sn`, a pass of the candidate scan of the deal scheduler of the miner
`addr` for the entry `data`, when its piece is not in the Deal Set, publishes a storage
deal: the content of the first record is local, the miner has no offer for it, the
miner is initialised and `ClientStartDeal` succeeds. -/
def StaticNode.publishes (sn : StaticNode) (addr : Address) (data : PieceData) : Prop :=
  ∃ d rest offer mi peerId dealID,
    data.dealDatas = d :: rest ∧
    sn.ClientHasLocal d.dataRef.RootCID = .ok true ∧
    sn.ClientMinerQueryOffer addr d.dataRef.RootCID = .ok offer ∧
    offer.Err ≠ "" ∧
    sn.StateMinerInfo addr EmptyTSK = .ok mi ∧
    mi.PeerId = some peerId ∧ peerId ≠ "SETME" ∧
    sn.ClientStartDeal (startDealParams addr d) = .ok dealID

/-- The piece `rk` calls for no deal in the state `m` on the node `sn`: it is not in
the Piece Inventory, or it is in the Deal Set, or a pass for it publishes nothing. -/
def Settled (sn : StaticNode) (m : MinerData) (rk : Cid) : Prop :=
  ∀ data, m.dataRefs.Get rk = some data →
    m.deals.Contains rk = true ∨ ¬ sn.publishes m.address data

/-- From `m` to `m1` the local miner is the same, the Piece Inventory loses entries at
most and the Deal Set loses no key. -/
def DealFrame (m m1 : MinerData) : Prop :=
  m1.address = m.address ∧ Shrinks m.dataRefs m1.dataRefs ∧
    ∀ k, m.deals.Contains k = true → m1.deals.Contains k = true

/-- A replicator of miner 1 that knows the eighteen pieces 1 to 18 and has published
no storage deal. -/
def crowdedState : MinerData :=
  { newMinerData 1 with
    dataRefs :=
      { entries := (List.range 18).map (fun i =>
          (i + 1, { pieceID := i + 1,
                    dealDatas := [{ sampleRecord with
                      deal := { PieceCID := i + 1, Provider := 5 } }] })) } }

/-- Every record of the inventory `c` is at the same place in `c1`, the same but for
its `tryCount`, which is no smaller. -/
def TryKept (c c1 : ARCCache PieceData) : Prop :=
  ∀ (k : Cid) (p : PieceData) (i : Nat) (d : DealData),
    c.Get k = some p → p.dealDatas[i]? = some d →
    ∃ p1 t, c1.Get k = some p1 ∧ p1.dealDatas[i]? = some { d with tryCount := t } ∧
      d.tryCount ≤ t

/-- Every record of the inventory `c` is at the same place in `c1`, unchanged. -/
def Kept (c c1 : ARCCache PieceData) : Prop :=
  ∀ (k : Cid) (p : PieceData) (i : Nat) (d : DealData),
    c.Get k = some p → p.dealDatas[i]? = some d →
    ∃ p1, c1.Get k = some p1 ∧ p1.dealDatas[i]? = some d

/-- Every `tryCount` of the inventory `c` is an `int64`. -/
def TryInt64 (c : ARCCache PieceData) : Prop :=
  ∀ (k : Cid) (p : PieceData) (i : Nat) (d : DealData),
    c.Get k = some p → p.dealDatas[i]? = some d →
    minInt64 ≤ d.tryCount ∧ d.tryCount ≤ maxInt64

/-- The pass of the candidate scan of the retrieval scheduler for the key `rk` in the
state `m` makes the increment of the failed query on a record whose `tryCount` is the
largest `int64`. -/
def PassWraps (w : FullNode) (m : MinerData) (rk : Cid) : Prop :=
  ∃ datas idx dealData e,
    m.dataRefs.Get rk = some datas ∧
    chosenRecord w m.now datas = some (idx, dealData) ∧
    w.ClientHasLocal m.now dealData.dataRef.RootCID = .ok false ∧
    m.retrievals.Contains dealData.deal.PieceCID = false ∧
    w.ClientQuery (m.now + 1) dealData.dataRef.RootCID dealData.deal.Provider = .error e ∧
    dealData.tryCount = maxInt64

/-- Some pass of the candidate scan over `keys` from the state `m` makes the increment
on a record whose `tryCount` is the largest `int64`. -/
def ScanWraps (w : FullNode) : MinerData → List Cid → Prop
  | _, [] => False
  | m, rk :: rest =>
    PassWraps w m rk ∨
      ((retrieveCandidate w m rk).2 = Ctl.next ∧ ScanWraps w (retrieveCandidate w m rk).1 rest)

/-- Some pass of the run of `retrieveChainData` from the state `m` makes the increment
on a record whose `tryCount` is the largest `int64`. -/
def RunWraps (w : FullNode) (m : MinerData) : Prop :=
  (sweepRetrievals w m m.retrievals.Keys).2 = none ∧
    ¬ (sweepRetrievals w m m.retrievals.Keys).1.retrievals.Len > RetrieveParallelNum ∧
    ScanWraps w (sweepRetrievals w m m.retrievals.Keys).1
      (sweepRetrievals w m m.retrievals.Keys).1.dataRefs.Keys

/-- The chain of `chainNode` with head at 11 on a node on which no content is local and
no provider answers a retrieval query. -/
def strandedWorld : FullNode :=
  ({ chainNode 11 id with ClientHasLocal := fun _ => .ok false }).toFullNode
    neverStopping zeroRand

/-- The state `m` is one of miner 1 with an empty Retrieval Set whose Piece Inventory
holds piece 7 with the one record of deal 42, with the `tryCount` `t`. -/
def Stranded (t : Int) (m : MinerData) : Prop :=
  m.address = 1 ∧ m.retrievals = ARCCache.empty ∧
    m.dataRefs =
      { entries := [(7, { pieceID := 7, dealDatas := [{ sampleRecord with tryCount := t }] })] }

/-- A node on which no content is local and no provider answers a retrieval query. -/
def unreachableWorld : FullNode :=
  ({ silentNode with ClientHasLocal := fun _ => .ok false }).toFullNode neverStopping zeroRand

/-- A replicator of miner 1 that knows piece 7 through a record whose `tryCount` is the
largest `int64`. -/
def maxedState : MinerData :=
  { newMinerData 1 with
    dataRefs :=
      { entries :=
          [(7, { pieceID := 7,
                 dealDatas := [{ sampleRecord with tryCount := 9223372036854775807 }] })] } }

/-- A node on which every content is local and the local miner has an offer for every
content. -/
def servingWorld : FullNode :=
  ({ silentNode with
      ClientHasLocal := fun _ => .ok true
      ClientMinerQueryOffer := fun _ _ => .ok { Err := "" } }).toFullNode neverStopping zeroRand

/-- The branch of the driver taken when `stop` is closed (miner_data.go:123-128): it
clears both signals and closes the `stopping` channel it read, which wakes the `Stop`
that waits on it. -/
def Replicator.halt (r : Replicator) : Replicator :=
  { r with stop := none, stopping := none }

/-- `Stop` (miner_data.go:101), under the lock of the replicator. `ctxErr` is how the
final `select` ends: `some e` when the context is done first, with `ctx.Err() = e`,
and `none` when the driver closes the `stopping` channel first, which it does at the
end of `halt`. -/
def Replicator.Stop (r : Replicator) (ctxErr : Option Err) : Replicator × Result :=
  let r1 : Replicator := { r with stopping := some { closed := false } }
  match r1.stop with
  | none => (r1, Result.panic Panic.closeOfNilChannel)
  | some ch =>
    if ch.closed then (r1, Result.panic Panic.closeOfClosedChannel)
    else
      let r2 : Replicator := { r1 with stop := some { closed := true } }
      match ctxErr with
      | some e => (r2, Result.error e)
      | none => (r2.halt, Result.ok)

/-! ## Backup of the metadata store -/

/-- `strings.HasPrefix`: the string `s` begins with the string `pre`. -/
def HasPrefix (s pre : String) : Bool := pre.data.isPrefixOf s.data

/-- What `backup` (node/impl/backup.go:15) reads and calls: the environment, whether
the metadata store is a backup datastore, `homedir.Expand`, `filepath.Abs`,
`os.OpenFile`, the backup of the datastore and the closing of the file. -/
structure BackupEnv where
  LookupEnv : String → Option String
  isBackupDatastore : Bool
  Expand : String → Except Err String
  Abs : String → Except Err String
  OpenFile : String → Option Err
  Backup : Option Err
  Close : Option Err

/-- `backup` (node/impl/backup.go:15): the paths given to `os.OpenFile`, and the error
returned, `none` for `nil`. -/
def backup (env : BackupEnv) (fpath : String) : List String × Option Err :=
  match env.LookupEnv "EPIK_BACKUP_BASE_PATH" with
  | none => ([], some "EPIK_BACKUP_BASE_PATH env var not set")
  | some bb =>
    if !env.isBackupDatastore then ([], some "expected a backup datastore")
    else
      match env.Expand bb with
      | .error e => ([], some ("expanding base path: " ++ e))
      | .ok bb1 =>
        match env.Abs bb1 with
        | .error e => ([], some ("getting absolute base path: " ++ e))
        | .ok bb2 =>
          match env.Expand fpath with
          | .error e => ([], some ("expanding file path: " ++ e))
          | .ok fpath1 =>
            match env.Abs fpath1 with
            | .error e => ([], some ("getting absolute file path: " ++ e))
            | .ok fpath2 =>
              if !HasPrefix fpath2 bb2 then
                ([], some ("backup file name (" ++ fpath2 ++ ") must be inside base path ("
                  ++ bb2 ++ ")"))
              else
                match env.OpenFile fpath2 with
                | some e => ([fpath2], some ("open " ++ fpath2 ++ ": " ++ e))
                | none =>
                  match env.Backup with
                  | some e => ([fpath2], some ("backup error: " ++ e))
                  | none =>
                    match env.Close with
                    | some e => ([fpath2], some ("closing backup file: " ++ e))
                    | none => ([fpath2], none)

/-- The components of a path: the non-empty parts between the separators; `cur` is the
component being read, in reverse. -/
def splitPath : List Char → List Char → List (List Char)
  | cur, [] => if cur = [] then [] else [cur.reverse]
  | cur, c :: rest =>
    if c = '/' then
      if cur = [] then splitPath [] rest else cur.reverse :: splitPath [] rest
    else splitPath (c :: cur) rest

/-- The path `fpath` is the directory `bb` or a path-component descendant of it. -/
def Inside (bb fpath : String) : Bool :=
  (splitPath [] bb.data).isPrefixOf (splitPath [] fpath.data)

/-- A backup datastore with the base path `/base`, already expanded and absolute paths,
and a file system on which every operation succeeds. -/
def baseEnv : BackupEnv :=
  { LookupEnv := fun v => if v = "EPIK_BACKUP_BASE_PATH" then some "/base" else none
    isBackupDatastore := true
    Expand := fun p => .ok p
    Abs := fun p => .ok p
    OpenFile := fun _ => none
    Backup := none
    Close := none }

/-- A chain with head at 12 on which the tipset at every height reports the largest
`int64` epoch and no block has parent messages. -/
def spinNode : StaticNode :=
  { chainNode 12 (fun _ => maxInt64) with ChainGetParentMessages := fun _ => .ok [] }

/-- The node of `spinNode` seen by a replicator that is never asked to stop. -/
def spinWorld : FullNode := spinNode.toFullNode neverStopping zeroRand

/-- The states of the replicator of a node: the initial state of a miner, and every
state in which a call of `checkChainData`, `retrieveChainData` or `dealChainData` leaves
a state of the replicator. -/
inductive Reachable (w : FullNode) : MinerData → Prop
  | init (addr : Address) : Reachable w (newMinerData addr)
  | check (m : MinerData) (fuel : Nat) (m1 : MinerData) (r : Result)
      (hm : Reachable w m) (hrun : checkChainData w fuel m = some (m1, r)) : Reachable w m1
  | retrieve (m : MinerData) (hm : Reachable w m) : Reachable w (retrieveChainData w m).1
  | deal (m : MinerData) (hm : Reachable w m) : Reachable w (dealChainData w m).1

/-- The chain of `chainNode` with head at 11, on a node that answers every retrieval
query with an offer, on which the local miner has an offer for every content, and on
which every content is local from the moment of the ninth API call on. -/
def fetchedWorld : FullNode :=
  { chainWorld 11 id with
    ClientHasLocal := fun t _ => .ok (decide (8 ≤ t))
    ClientQuery := fun _ _ _ => .ok { Status := QueryStatus.Other 1 }
    ClientMinerQueryOffer := fun _ _ _ => .ok { Err := "" } }

/-- The state after one scan of `fetchedWorld` by a fresh replicator of miner 1. -/
def fetchedIndexed : MinerData :=
  ((checkChainData fetchedWorld 5 (newMinerData 1)).getD (newMinerData 1, Result.ok)).1

/-- The state after the retrieval scheduler has then run once. -/
def fetchedQueried : MinerData := (retrieveChainData fetchedWorld fetchedIndexed).1

/-- The state after the deal scheduler has then run once. -/
def fetchedServed : MinerData := (dealChainData fetchedWorld fetchedQueried).1

/-- Every record of the inventory `c` has the zero-valued data reference. -/
def ZeroRefs (c : ARCCache PieceData) : Prop :=
  ∀ (k : Cid) (p : PieceData) (d : DealData),
    c.Get k = some p → d ∈ p.dealDatas → d.dataRef = PublishStorageDataRef.zero

/-- The call carries the undefined root if it carries a root at all: a local-store
probe, a retrieval query and a local-offer query have the root `CidUndef`, and a
storage-deal publication has the root `CidUndef` and the empty expert. -/
def Call.undefRoot : Call → Prop
  | Call.ClientHasLocal root => root = CidUndef
  | Call.ClientQuery root _ => root = CidUndef
  | Call.ClientMinerQueryOffer _ root => root = CidUndef
  | Call.ClientStartDeal params => params.Data.Root = CidUndef ∧ params.Data.Expert = ""
  | _ => True

/-- From `m` to `m1` the data references stay zero-valued and every new call carries
the undefined root. -/
def Rootless (m m1 : MinerData) : Prop :=
  ZeroRefs m1.dataRefs ∧ ∃ ext, m1.calls = m.calls ++ ext ∧ ∀ c ∈ ext, c.undefRoot

/-- The chain of `chainNode` with head at 11, on a node on which every content is
local and the local miner has an offer for every content. -/
def servedChainNode : StaticNode :=
  { chainNode 11 id with
    ClientHasLocal := fun _ => .ok true
    ClientMinerQueryOffer := fun _ _ => .ok { Err := "" } }

/-- The node of `servedChainNode` seen by a replicator that is never asked to stop. -/
def servedChainWorld : FullNode := servedChainNode.toFullNode neverStopping zeroRand

/-- The state after one scan of `servedChainWorld` by a fresh replicator of miner 1. -/
def servedScanned : MinerData :=
  ((checkChainData servedChainWorld 5 (newMinerData 1)).getD (newMinerData 1, Result.ok)).1

/-- The state after the retrieval scheduler has then run once. -/
def servedQueried : MinerData := (retrieveChainData servedChainWorld servedScanned).1

/-- The state after the deal scheduler has then run once: the state at the end of the
first round of the driver loop (`checkChainData`, `retrieveChainData`,
`dealChainData`). -/
def servedDealt : MinerData := (dealChainData servedChainWorld servedQueried).1

/-! ## Theorems -/

/-! ### Arithmetic of epochs -/

theorem minInt64_val : minInt64 = -9223372036854775808 := by
  unfold minInt64
  norm_num

theorem maxInt64_val : maxInt64 = 9223372036854775807 := by
  unfold maxInt64
  norm_num

theorem wrap64_eq {x : Int} (h1 : minInt64 ≤ x) (h2 : x ≤ maxInt64) : wrap64 x = x := by
  have hlo := minInt64_val
  have hhi := maxInt64_val
  unfold wrap64
  omega

theorem wrap64_ge (x : Int) : minInt64 ≤ wrap64 x := by
  have hlo := minInt64_val
  unfold wrap64
  omega

/-! ### Frame of the indexer -/

theorem indexFrame_refl (m : MinerData) : IndexFrame m m :=
  ⟨rfl, rfl, rfl, rfl, [], by simp, by simp⟩

theorem indexFrame_trans {a b c : MinerData} (h1 : IndexFrame a b) (h2 : IndexFrame b c) :
    IndexFrame a c := by
  obtain ⟨e1, he1, hc1⟩ := h1.calls
  obtain ⟨e2, he2, hc2⟩ := h2.calls
  refine ⟨h2.address.trans h1.address, h2.checkHeight.trans h1.checkHeight,
    h2.retrievals.trans h1.retrievals, h2.deals.trans h1.deals, e1 ++ e2, ?_, ?_⟩
  · rw [he2, he1, List.append_assoc]
  · intro c hc
    rcases List.mem_append.mp hc with h | h
    · exact hc1 c h
    · exact hc2 c h

theorem indexFrame_log (m : MinerData) (c : Call) (hc : c.isIndexCall = true) :
    IndexFrame m (m.log c) :=
  ⟨rfl, rfl, rfl, rfl, [c], rfl, by simpa using hc⟩

theorem indexFrame_setDataRefs {m m1 : MinerData} (h : IndexFrame m m1)
    (d : ARCCache PieceData) : IndexFrame m { m1 with dataRefs := d } :=
  ⟨h.address, h.checkHeight, h.retrievals, h.deals, h.calls⟩

theorem indexDeal_frame (w : FullNode) (ld : List DealInfo) (ptsk : TipSetKey)
    (m : MinerData) (did : DealID) : IndexFrame m (indexDeal w ld ptsk m did).1 := by
  have hlog := indexFrame_log m (Call.StateMarketStorageDeal did ptsk) rfl
  unfold indexDeal
  cases w.StateMarketStorageDeal m.now did ptsk with
  | error e => exact hlog
  | ok deal =>
    dsimp only
    split
    · exact hlog
    · split
      · exact hlog
      · exact indexFrame_setDataRefs hlog _

theorem indexDeals_frame (w : FullNode) (ld : List DealInfo) (ptsk : TipSetKey)
    (dids : List DealID) (m : MinerData) : IndexFrame m (indexDeals w ld ptsk m dids).1 := by
  induction dids generalizing m with
  | nil => exact indexFrame_refl m
  | cons did rest ih =>
    have h1 := indexDeal_frame w ld ptsk m did
    unfold indexDeals
    rcases hstep : indexDeal w ld ptsk m did with ⟨m1, _ | e⟩
    · rw [hstep] at h1
      exact indexFrame_trans h1 (ih m1)
    · rw [hstep] at h1
      exact h1

theorem indexMessage_frame (w : FullNode) (ld : List DealInfo) (ptsk : TipSetKey)
    (m : MinerData) (msg : Message) : IndexFrame m (indexMessage w ld ptsk m msg).1 := by
  unfold indexMessage
  split
  · exact indexFrame_refl m
  · cases w.UnmarshalCBOR msg.Params with
    | none => exact indexFrame_refl m
    | some params =>
      have h1 := indexFrame_log m (Call.StateSectorPreCommitInfo msg.To params.SectorNumber ptsk) rfl
      dsimp only
      cases w.StateSectorPreCommitInfo m.now msg.To params.SectorNumber ptsk with
      | ok pci => exact indexFrame_trans h1 (indexDeals_frame w ld ptsk _ _)
      | error _ =>
        have h2 := indexFrame_trans h1 (indexFrame_log _
          (Call.StateSectorGetInfo msg.To params.SectorNumber ptsk) rfl)
        dsimp only
        cases w.StateSectorGetInfo (m.log
            (Call.StateSectorPreCommitInfo msg.To params.SectorNumber ptsk)).now
            msg.To params.SectorNumber ptsk with
        | error e => exact h2
        | ok sci => exact indexFrame_trans h2 (indexDeals_frame w ld ptsk _ _)

theorem indexMessages_frame (w : FullNode) (ld : List DealInfo) (ptsk : TipSetKey)
    (msgs : List Message) (m : MinerData) :
    IndexFrame m (indexMessages w ld ptsk m msgs).1 := by
  induction msgs generalizing m with
  | nil => exact indexFrame_refl m
  | cons msg rest ih =>
    have h1 := indexMessage_frame w ld ptsk m msg
    unfold indexMessages
    rcases hstep : indexMessage w ld ptsk m msg with ⟨m1, _ | e⟩
    · rw [hstep] at h1
      exact indexFrame_trans h1 (ih m1)
    · rw [hstep] at h1
      exact h1

/-! ### The scan loop and the cursor -/

theorem indexTipset_frame (w : FullNode) (ld : List DealInfo) (m1 : MinerData) (ts : TipSet) :
    IndexFrame (m1.log (Call.ChainGetParentMessages ts.FirstCid))
      (indexMessages w ld ts.Parents (m1.log (Call.ChainGetParentMessages ts.FirstCid))
        (parentMessages w m1.now ts.FirstCid)).1 :=
  indexMessages_frame w ld ts.Parents _ _

theorem indexTipset_cursor (w : FullNode) (ld : List DealInfo) (m1 : MinerData) (ts : TipSet) :
    ((indexTipset w ld m1 ts).2 = LoopCtl.next ∧
        (indexTipset w ld m1 ts).1.checkHeight = wrap64 (ts.Height + 1)) ∨
      ((indexTipset w ld m1 ts).2 ≠ LoopCtl.next ∧
        (indexTipset w ld m1 ts).2 ≠ LoopCtl.stop ∧
        (indexTipset w ld m1 ts).1.checkHeight = m1.checkHeight) := by
  have hf := indexTipset_frame w ld m1 ts
  unfold indexTipset
  dsimp only
  rcases hstep : indexMessages w ld ts.Parents (m1.log (Call.ChainGetParentMessages ts.FirstCid))
      (parentMessages w m1.now ts.FirstCid) with ⟨m3, _ | e⟩
  · left
    exact ⟨rfl, rfl⟩
  · right
    rw [hstep] at hf
    refine ⟨by simp, by simp, ?_⟩
    exact hf.checkHeight

/-- One pass of the scan loop: after `next` the cursor is the wrapped successor of
the cursor or of the height the tipset reports, which is not below the cursor; after
`stop` or `fail` the cursor is the one before. -/
theorem scanHeight_cursor (w : FullNode) (ld : List DealInfo) (m : MinerData) :
    ((scanHeight w ld m).2 = LoopCtl.next ∧
        ((scanHeight w ld m).1.checkHeight = wrap64 (m.checkHeight + 1) ∨
          ∃ ts, w.ChainGetTipSetByHeight m.now m.checkHeight EmptyTSK = .ok ts ∧
            m.checkHeight ≤ ts.Height ∧
            (scanHeight w ld m).1.checkHeight = wrap64 (ts.Height + 1))) ∨
      ((scanHeight w ld m).2 ≠ LoopCtl.next ∧
        (scanHeight w ld m).1.checkHeight = m.checkHeight) := by
  unfold scanHeight
  split
  · right
    exact ⟨by simp, rfl⟩
  · dsimp only
    cases hts : w.ChainGetTipSetByHeight m.now m.checkHeight EmptyTSK with
    | error e =>
      right
      exact ⟨by simp, rfl⟩
    | ok ts =>
      dsimp only
      split
      · left
        exact ⟨rfl, Or.inl rfl⟩
      · rename_i hge
        have hge2 : m.checkHeight ≤ ts.Height := Int.not_lt.mp hge
        rcases indexTipset_cursor w ld (m.log (Call.ChainGetTipSetByHeight m.checkHeight EmptyTSK))
            ts with ⟨h1, h2⟩ | ⟨h1, _, h2⟩
        · left
          exact ⟨h1, Or.inr ⟨ts, rfl, hge2, h2⟩⟩
        · right
          exact ⟨h1, h2⟩

/-- A pass that ends in `next` moves the cursor strictly forward, as long as the
head height is an `int64` and no tipset reports the largest `int64` epoch. -/
theorem scanHeight_next_lt (w : FullNode) (ld : List DealInfo) (m : MinerData) (head : TipSet)
    (hmin : minInt64 ≤ m.checkHeight) (hloop : m.checkHeight < head.Height)
    (hhead : head.Height ≤ maxInt64)
    (hts : ∀ t h k ts, w.ChainGetTipSetByHeight t h k = .ok ts → ts.Height < maxInt64)
    (hnext : (scanHeight w ld m).2 = LoopCtl.next) :
    m.checkHeight < (scanHeight w ld m).1.checkHeight := by
  have hlo := minInt64_val
  have hhi := maxInt64_val
  rcases scanHeight_cursor w ld m with ⟨_, h | ⟨ts, hq, hge, h⟩⟩ | ⟨h, _⟩
  · rw [h, wrap64_eq (by omega) (by omega)]
    omega
  · have := hts _ _ _ _ hq
    rw [h, wrap64_eq (by omega) (by omega)]
    omega
  · exact absurd hnext h

theorem scanLoop_cursor (w : FullNode) (head : TipSet) (ld : List DealInfo)
    (hhead : head.Height ≤ maxInt64)
    (hts : ∀ t h k ts, w.ChainGetTipSetByHeight t h k = .ok ts → ts.Height < maxInt64)
    (fuel : Nat) (m m1 : MinerData) (r : Result) (hmin : minInt64 ≤ m.checkHeight)
    (hrun : scanLoop w head ld fuel m = some (m1, r)) :
    m.checkHeight ≤ m1.checkHeight := by
  have hlo := minInt64_val
  induction fuel generalizing m with
  | zero =>
    unfold scanLoop at hrun
    split at hrun
    · simp at hrun
    · simp at hrun
      rw [hrun.1]
  | succ fuel ih =>
    unfold scanLoop at hrun
    split at hrun
    · rename_i hloop
      have hcur := scanHeight_cursor w ld m
      have hlt := scanHeight_next_lt w ld m head hmin hloop hhead hts
      rcases hstep : scanHeight w ld m with ⟨m2, ctl⟩
      rw [hstep] at hrun hcur hlt
      cases ctl with
      | next =>
        have h1 := hlt rfl
        have h2 := ih m2 (by dsimp only at h1; omega) hrun
        dsimp only at h1
        omega
      | stop =>
        simp at hrun
        rcases hcur with ⟨h, _⟩ | ⟨_, h⟩
        · simp at h
        · rw [← hrun.1]
          exact le_of_eq h.symm
      | fail e =>
        simp at hrun
        rcases hcur with ⟨h, _⟩ | ⟨_, h⟩
        · simp at h
        · rw [← hrun.1]
          exact le_of_eq h.symm
    · simp at hrun
      rw [hrun.1]

theorem scanLoop_returns (w : FullNode) (head : TipSet) (ld : List DealInfo)
    (hhead : head.Height ≤ maxInt64)
    (hts : ∀ t h k ts, w.ChainGetTipSetByHeight t h k = .ok ts → ts.Height < maxInt64)
    (fuel : Nat) (m : MinerData) (hmin : minInt64 ≤ m.checkHeight)
    (hfuel : (head.Height - m.checkHeight).toNat ≤ fuel) :
    (scanLoop w head ld fuel m).isSome = true := by
  have hlo := minInt64_val
  induction fuel generalizing m with
  | zero =>
    unfold scanLoop
    split
    · omega
    · rfl
  | succ fuel ih =>
    unfold scanLoop
    split
    · rename_i hloop
      have hlt := scanHeight_next_lt w ld m head hmin hloop hhead hts
      rcases hstep : scanHeight w ld m with ⟨m2, ctl⟩
      rw [hstep] at hlt
      cases ctl with
      | next =>
        have h1 := hlt rfl
        dsimp only at h1 ⊢
        exact ih m2 (by omega) (by omega)
      | stop => rfl
      | fail e => rfl
    · rfl

theorem checkChainData_cursor (w : FullNode)
    (hhead : ∀ t head, w.ChainHead t = .ok head → head.Height ≤ maxInt64)
    (hts : ∀ t h k ts, w.ChainGetTipSetByHeight t h k = .ok ts → ts.Height < maxInt64)
    (fuel : Nat) (m m1 : MinerData) (r : Result) (hmin : minInt64 ≤ m.checkHeight)
    (hrun : checkChainData w fuel m = some (m1, r)) :
    m.checkHeight ≤ m1.checkHeight := by
  unfold checkChainData at hrun
  dsimp only at hrun
  cases hh : w.ChainHead m.now with
  | error e =>
    rw [hh] at hrun
    simp at hrun
    rw [← hrun.1]
    exact le_refl _
  | ok head =>
    rw [hh] at hrun
    dsimp only at hrun
    cases hl : w.ClientListDeals (m.log Call.ChainHead).now with
    | error e =>
      rw [hl] at hrun
      simp at hrun
      rw [← hrun.1]
      exact le_refl _
    | ok ld =>
      rw [hl] at hrun
      dsimp only at hrun
      exact scanLoop_cursor w head ld (hhead _ _ hh) hts fuel
        ((m.log Call.ChainHead).log Call.ClientListDeals) m1 r hmin hrun

theorem checkChainData_returns (w : FullNode)
    (hhead : ∀ t head, w.ChainHead t = .ok head → head.Height ≤ maxInt64)
    (hts : ∀ t h k ts, w.ChainGetTipSetByHeight t h k = .ok ts → ts.Height < maxInt64)
    (m : MinerData) (hmin : minInt64 ≤ m.checkHeight) :
    ∃ fuel, (checkChainData w fuel m).isSome = true := by
  cases hh : w.ChainHead m.now with
  | error e =>
    refine ⟨0, ?_⟩
    unfold checkChainData
    rw [hh]
    rfl
  | ok head =>
    refine ⟨(head.Height - m.checkHeight).toNat, ?_⟩
    unfold checkChainData
    rw [hh]
    dsimp only
    cases hl : w.ClientListDeals (m.log Call.ChainHead).now with
    | error e => rfl
    | ok ld =>
      exact scanLoop_returns w head ld (hhead _ _ hh) hts _
        ((m.log Call.ChainHead).log Call.ClientListDeals) hmin (le_refl _)

theorem checkRuns_cursor (w : FullNode)
    (hhead : ∀ t head, w.ChainHead t = .ok head → head.Height ≤ maxInt64)
    (hts : ∀ t h k ts, w.ChainGetTipSetByHeight t h k = .ok ts → ts.Height < maxInt64)
    (fuels : List Nat) (m m1 : MinerData) (hmin : minInt64 ≤ m.checkHeight)
    (hrun : checkRuns w fuels m = some m1) : m.checkHeight ≤ m1.checkHeight := by
  induction fuels generalizing m with
  | nil =>
    simp [checkRuns] at hrun
    rw [hrun]
  | cons fuel rest ih =>
    unfold checkRuns at hrun
    cases hstep : checkChainData w fuel m with
    | none =>
      rw [hstep] at hrun
      simp at hrun
    | some p =>
      obtain ⟨m2, r⟩ := p
      rw [hstep] at hrun
      dsimp only at hrun
      have h1 := checkChainData_cursor w hhead hts fuel m m2 r hmin hstep
      have h2 := ih m2 (le_trans hmin h1) hrun
      exact le_trans h1 h2

/-- C2 (the claim fails as stated): on a node whose tipset at height 10 reports the
epoch 2^63 - 1, `checkChainData` started with the cursor at 10 returns an error with
the cursor at -2^63, below where it started. -/
theorem checkChainData_cursor_regresses :
    (checkChainData overflowWorld 2 (newMinerData 1)).map (fun p => (p.1.checkHeight, p.2)) =
        some (-9223372036854775808, Result.error "no tipset") ∧
      (-9223372036854775808 : Int) < (newMinerData 1).checkHeight := by
  decide

/-- C2 (amended): when the cursor and the head heights are `int64` values and no tipset
the node returns reports the largest `int64` epoch, `checkChainData` returns for a
large enough bound on the passes, the cursor after a call is greater than or equal to
the cursor before it, whatever the call returns, and the same holds over any sequence
of calls. -/
theorem checkChainData_cursor_monotone (w : FullNode)
    (hhead : ∀ t head, w.ChainHead t = .ok head → head.Height ≤ maxInt64)
    (hts : ∀ t h k ts, w.ChainGetTipSetByHeight t h k = .ok ts → ts.Height < maxInt64)
    (m : MinerData) (hmin : minInt64 ≤ m.checkHeight) :
    (∃ fuel, (checkChainData w fuel m).isSome = true) ∧
      (∀ fuel m1 r, checkChainData w fuel m = some (m1, r) → m.checkHeight ≤ m1.checkHeight) ∧
      (∀ fuels m1, checkRuns w fuels m = some m1 → m.checkHeight ≤ m1.checkHeight) :=
  ⟨checkChainData_returns w hhead hts m hmin,
    fun fuel m1 r h => checkChainData_cursor w hhead hts fuel m m1 r hmin h,
    fun fuels m1 h => checkRuns_cursor w hhead hts fuels m m1 hmin h⟩

theorem boundedWorld_head (t : Nat) (head : TipSet) (h : boundedWorld.ChainHead t = .ok head) :
    head.Height ≤ maxInt64 := by
  cases h
  decide

theorem boundedWorld_tipsets (t : Nat) (h : Int) (k : TipSetKey) (ts : TipSet)
    (hq : boundedWorld.ChainGetTipSetByHeight t h k = .ok ts) : ts.Height < maxInt64 := by
  cases hq
  have hhi := maxInt64_val
  show min h 12 < maxInt64
  omega

theorem checkChainData_cursor_monotone_witness :
    (newMinerData 1).checkHeight ≤ boundedFinal.checkHeight :=
  (checkChainData_cursor_monotone boundedWorld boundedWorld_head boundedWorld_tipsets
    (newMinerData 1) (by decide)).2.1 5 boundedFinal Result.ok (by decide)

/-- C1 (the code departs from the claim): with deal 70 of piece 7 in any of the four
terminal failure states, `dealChainData` returns without removing the entry of
piece 7 from the Deal Set. -/
theorem dealChainData_keeps_failed_deal :
    dealChainData (dealInfoWorld StorageDealFailing) dealingState =
        ({ dealingState with calls := [Call.ClientGetDealInfo 70, Call.ClientHasLocal 0] },
          Result.ok) ∧
      (dealChainData (dealInfoWorld StorageDealProposalNotFound) dealingState).1.deals.Contains 7
        = true ∧
      (dealChainData (dealInfoWorld StorageDealProposalRejected) dealingState).1.deals.Contains 7
        = true ∧
      (dealChainData (dealInfoWorld StorageDealError) dealingState).1.deals.Contains 7 = true := by
  decide

/-- C3 (the claim fails as stated): the tipset returned for the requested height 10
reports height 11, and the pass neither stops at cursor 11 nor leaves the messages
alone: it reads the parent messages, indexes deal 42 under piece 7 and sets the
cursor to 12. -/
theorem scanHeight_higher_tipset_indexed :
    laterWorld.ChainGetTipSetByHeight 0 10 EmptyTSK = .ok (blockAt 10 11) ∧
      (newMinerData 1).checkHeight < (blockAt 10 11).Height ∧
      (scanHeight laterWorld [] (newMinerData 1)).1.checkHeight = 12 ∧
      (scanHeight laterWorld [] (newMinerData 1)).1.checkHeight ≠
        (newMinerData 1).checkHeight + 1 ∧
      (scanHeight laterWorld [] (newMinerData 1)).1.dataRefs.Contains 7 = true ∧
      Call.ChainGetParentMessages 110 ∈ (scanHeight laterWorld [] (newMinerData 1)).1.calls := by
  refine ⟨rfl, ?_⟩
  decide

/-- C3 (amended): in a pass of the scan loop (cursor `h` below the head height, both
`int64` values, no stop request), whenever the tipset returned for `h` reports a height
strictly less than `h`, the pass ends with the cursor at `h + 1`, and it has issued
no call but the tipset fetch and changed nothing else: no parent message is read or
indexed. -/
theorem scanHeight_null_round (w : FullNode) (ld : List DealInfo) (m : MinerData)
    (head ts : TipSet) (hmin : minInt64 ≤ m.checkHeight) (hloop : m.checkHeight < head.Height)
    (hhead : head.Height ≤ maxInt64) (hstop : w.stopping m.now = false)
    (hq : w.ChainGetTipSetByHeight m.now m.checkHeight EmptyTSK = .ok ts)
    (hlt : ts.Height < m.checkHeight) :
    scanHeight w ld m =
      ({ m with
          checkHeight := m.checkHeight + 1
          calls := m.calls ++ [Call.ChainGetTipSetByHeight m.checkHeight EmptyTSK] },
        LoopCtl.next) := by
  have hlo := minInt64_val
  have hhi := maxInt64_val
  have hw : wrap64 (m.checkHeight + 1) = m.checkHeight + 1 :=
    wrap64_eq (by omega) (by omega)
  unfold scanHeight
  rw [hstop, hq]
  simp [MinerData.log, hlt, hw]

theorem scanHeight_null_round_witness :
    scanHeight earlierWorld [] (newMinerData 1) =
      ({ newMinerData 1 with
          checkHeight := 11
          calls := [Call.ChainGetTipSetByHeight 10 EmptyTSK] }, LoopCtl.next) :=
  scanHeight_null_round earlierWorld [] (newMinerData 1) (blockAt 12 12) (blockAt 10 9)
    (by decide) (by decide) (by decide) rfl rfl (by decide)

/-- C4 (the code departs from the claim): the read of the parent messages of the block
at height 10 fails, and `checkChainData` returns `nil` with the cursor moved past
height 10. -/
theorem checkChainData_swallows_message_error :
    (brokenMessagesWorld 11 false).ChainGetParentMessages 3 110 = .error "no messages" ∧
      checkChainData (brokenMessagesWorld 11 false) 5 (newMinerData 1) =
        some ({ newMinerData 1 with
                checkHeight := 11
                calls := [Call.ChainHead, Call.ClientListDeals,
                  Call.ChainGetTipSetByHeight 10 EmptyTSK, Call.ChainGetParentMessages 110] },
              Result.ok) := by
  refine ⟨rfl, ?_⟩
  decide

/-- C5 (the code departs from the claim): the parent messages of the block at height 10
cannot be read and the tipset at height 11 cannot be fetched; `checkChainData` returns
the error of the tipset fetch with the cursor at 11 and an empty inventory, although
the messages of height 10, below the cursor, were never read. -/
theorem checkChainData_error_leaves_unread_height :
    (brokenMessagesWorld 12 true).ChainGetParentMessages 3 110 = .error "no messages" ∧
      checkChainData (brokenMessagesWorld 12 true) 5 (newMinerData 1) =
        some ({ newMinerData 1 with
                checkHeight := 11
                calls := [Call.ChainHead, Call.ClientListDeals,
                  Call.ChainGetTipSetByHeight 10 EmptyTSK, Call.ChainGetParentMessages 110,
                  Call.ChainGetTipSetByHeight 11 EmptyTSK] },
              Result.error "no tipset") := by
  refine ⟨rfl, ?_⟩
  decide

/-! ### Self-dealt pieces and the sector-info fallback -/

theorem log_now (m : MinerData) (c : Call) : (m.log c).now = m.now + 1 := by
  simp [MinerData.log, MinerData.now]

/-- C9: `isMinerDealed` returns true exactly when the provider is the local miner or a
local deal on the same piece is in none of the four terminal failure states; and for a
market deal on which it returns true the indexer only records the query of the deal:
the Piece Inventory is as before. -/
theorem isMinerDealed_spec (w : FullNode) (ld : List DealInfo) (ptsk : TipSetKey)
    (m : MinerData) (did : DealID) (root : Cid) (provider : Address) (piece : Cid) :
    ((isMinerDealed m root provider piece ld).1 = true ↔
        provider = m.address ∨
          ∃ l ∈ ld, l.PieceCID = piece ∧ l.State ≠ StorageDealProposalNotFound ∧
            l.State ≠ StorageDealProposalRejected ∧ l.State ≠ StorageDealFailing ∧
            l.State ≠ StorageDealError) ∧
      (isMinerDealed m root provider piece ld).2 = none ∧
      (∀ deal, w.StateMarketStorageDeal m.now did ptsk = .ok deal →
        (isMinerDealed m CidUndef deal.Proposal.Provider deal.Proposal.PieceCID ld).1 = true →
        indexDeal w ld ptsk m did = (m.log (Call.StateMarketStorageDeal did ptsk), none) ∧
          (indexDeal w ld ptsk m did).1.dataRefs = m.dataRefs) := by
  refine ⟨?_, ?_, ?_⟩
  · unfold isMinerDealed
    by_cases hp : provider = m.address
    · simp [hp]
    · simp only [hp, if_false, false_or]
      split
      · rename_i hany
        simp only [true_iff]
        obtain ⟨l, hl, hc⟩ := List.any_eq_true.mp hany
        simp only [Bool.and_eq_true, decide_eq_true_eq] at hc
        exact ⟨l, hl, hc.1.1.1.1, hc.1.1.1.2, hc.1.1.2, hc.1.2, hc.2⟩
      · rename_i hany
        simp only [Bool.false_eq_true, false_iff]
        rintro ⟨l, hl, h1, h2, h3, h4, h5⟩
        apply hany
        apply List.any_eq_true.mpr
        refine ⟨l, hl, ?_⟩
        simp [h1, h2, h3, h4, h5]
  · unfold isMinerDealed
    split
    · rfl
    · split <;> rfl
  · intro deal hq hself
    have hself1 : (isMinerDealed (m.log (Call.StateMarketStorageDeal did ptsk)) CidUndef
        deal.Proposal.Provider deal.Proposal.PieceCID ld).1 = true := hself
    have : indexDeal w ld ptsk m did = (m.log (Call.StateMarketStorageDeal did ptsk), none) := by
      unfold indexDeal
      rw [hq]
      simp only [hself1, if_true]
    rw [this]
    exact ⟨rfl, rfl⟩

theorem isMinerDealed_spec_witness :
    indexDeal (chainWorld 12 id) [] [109] (newMinerData 5) 42 =
        ((newMinerData 5).log (Call.StateMarketStorageDeal 42 [109]), none) ∧
      (indexDeal (chainWorld 12 id) [] [109] (newMinerData 5) 42).1.dataRefs =
        (newMinerData 5).dataRefs :=
  (isMinerDealed_spec (chainWorld 12 id) [] [109] (newMinerData 5) 42 CidUndef 5 7).2.2
    { Proposal := { PieceCID := 7, Provider := 5 }
      State := { SectorStartEpoch := 1, LastUpdatedEpoch := 0, SlashEpoch := 0 } }
    rfl (by decide)

theorem indexDeal_no_error (w : FullNode) (ld : List DealInfo) (ptsk : TipSetKey)
    (m : MinerData) (did : DealID)
    (hall : ∀ t, ∃ deal, w.StateMarketStorageDeal t did ptsk = .ok deal) :
    (indexDeal w ld ptsk m did).2 = none := by
  obtain ⟨deal, hq⟩ := hall m.now
  unfold indexDeal
  rw [hq]
  dsimp only
  split
  · rfl
  · split <;> rfl

theorem indexDeals_no_error (w : FullNode) (ld : List DealInfo) (ptsk : TipSetKey)
    (dids : List DealID) (m : MinerData)
    (hall : ∀ t, ∀ did ∈ dids, ∃ deal, w.StateMarketStorageDeal t did ptsk = .ok deal) :
    (indexDeals w ld ptsk m dids).2 = none := by
  induction dids generalizing m with
  | nil => rfl
  | cons did rest ih =>
    have h1 := indexDeal_no_error w ld ptsk m did (fun t => hall t did (by simp))
    unfold indexDeals
    rcases hstep : indexDeal w ld ptsk m did with ⟨m1, _ | e⟩
    · exact ih m1 (fun t d hd => hall t d (by simp [hd]))
    · rw [hstep] at h1
      simp at h1

/-- C10: for a `ProveCommitSector` message with decodable parameters whose pre-commit
query fails (the pre-commit is absent) while the sector info query succeeds, the
indexer goes on with the deal ids of the sector info; and when the market deals of
these ids can be read, the message is indexed without error. -/
theorem indexMessage_sector_info_fallback (w : FullNode) (ld : List DealInfo)
    (ptsk : TipSetKey) (m : MinerData) (msg : Message) (params : ProveCommitSectorParams)
    (e : Err) (sci : SectorOnChainInfo)
    (hmethod : msg.Method = MethodsMiner_ProveCommitSector)
    (hparams : w.UnmarshalCBOR msg.Params = some params)
    (hpci : w.StateSectorPreCommitInfo m.now msg.To params.SectorNumber ptsk = .error e)
    (hsci : w.StateSectorGetInfo (m.now + 1) msg.To params.SectorNumber ptsk = .ok sci) :
    indexMessage w ld ptsk m msg =
        indexDeals w ld ptsk
          ((m.log (Call.StateSectorPreCommitInfo msg.To params.SectorNumber ptsk)).log
            (Call.StateSectorGetInfo msg.To params.SectorNumber ptsk)) sci.DealIDs ∧
      ((∀ t, ∀ did ∈ sci.DealIDs, ∃ deal, w.StateMarketStorageDeal t did ptsk = .ok deal) →
        (indexMessage w ld ptsk m msg).2 = none) := by
  have hrun : indexMessage w ld ptsk m msg =
      indexDeals w ld ptsk
        ((m.log (Call.StateSectorPreCommitInfo msg.To params.SectorNumber ptsk)).log
          (Call.StateSectorGetInfo msg.To params.SectorNumber ptsk)) sci.DealIDs := by
    unfold indexMessage
    simp only [hmethod, ne_eq, not_true_eq_false, if_false, hparams, hpci, log_now, hsci]
  refine ⟨hrun, fun hall => ?_⟩
  rw [hrun]
  exact indexDeals_no_error w ld ptsk _ _ hall

theorem indexMessage_sector_info_fallback_witness :
    indexMessage fallbackWorld [] [109] (newMinerData 1) (proveCommit 1) =
      indexDeals fallbackWorld [] [109]
        (((newMinerData 1).log (Call.StateSectorPreCommitInfo 5 1 [109])).log
          (Call.StateSectorGetInfo 5 1 [109])) [42, 43] :=
  (indexMessage_sector_info_fallback fallbackWorld [] [109] (newMinerData 1) (proveCommit 1)
    { SectorNumber := 1 } "precommit info is not exists" { DealIDs := [42, 43] }
    rfl rfl rfl rfl).1

/-! ### The containers -/

theorem lookup_mem {V : Type} (k : Cid) (v : V) (l : List (Cid × V))
    (h : ARCCache.lookup k l = some v) : (k, v) ∈ l := by
  induction l with
  | nil => simp [ARCCache.lookup] at h
  | cons e rest ih =>
    obtain ⟨k1, v1⟩ := e
    unfold ARCCache.lookup at h
    split at h
    · rename_i hk
      simp at h
      simp [hk, h]
    · exact List.mem_cons_of_mem _ (ih h)

theorem mem_replace {V : Type} (k : Cid) (v : V) (l : List (Cid × V)) (e : Cid × V)
    (h : e ∈ ARCCache.replace k v l) : e ∈ l ∨ e = (k, v) := by
  induction l with
  | nil => simp [ARCCache.replace] at h
  | cons e1 rest ih =>
    obtain ⟨k1, v1⟩ := e1
    unfold ARCCache.replace at h
    rcases List.mem_cons.mp h with h1 | h1
    · by_cases hk : k1 = k
      · right
        simpa [hk] using h1
      · left
        simp only [hk, if_false] at h1
        simp [h1]
    · rcases ih h1 with h2 | h2
      · left
        exact List.mem_cons_of_mem _ h2
      · right
        exact h2

theorem mem_Add {V : Type} (c : ARCCache V) (k : Cid) (v : V) (e : Cid × V)
    (h : e ∈ (c.Add k v).entries) : e ∈ c.entries ∨ e = (k, v) := by
  unfold ARCCache.Add at h
  split at h
  · exact mem_replace k v _ e h
  · simpa using h

theorem mem_overwrite {V : Type} (c : ARCCache V) (k : Cid) (v : V) (e : Cid × V)
    (h : e ∈ (c.overwrite k v).entries) : e ∈ c.entries ∨ e = (k, v) :=
  mem_replace k v _ e h

theorem mem_Remove {V : Type} (c : ARCCache V) (k : Cid) (e : Cid × V)
    (h : e ∈ (c.Remove k).entries) : e ∈ c.entries :=
  (List.mem_filter.mp h).1

/-! ### The invariant of the Piece Inventory -/

theorem inventoryOK_get {c : ARCCache PieceData} (h : InventoryOK c) {k : Cid} {p : PieceData}
    (hg : c.Get k = some p) : PieceOK p :=
  h (k, p) (lookup_mem k p _ hg)

theorem inventoryOK_add {c : ARCCache PieceData} (h : InventoryOK c) (k : Cid) {p : PieceData}
    (hp : PieceOK p) : InventoryOK (c.Add k p) := by
  intro e he
  rcases mem_Add c k p e he with h1 | h1
  · exact h e h1
  · rw [h1]
    exact hp

theorem inventoryOK_overwrite {c : ARCCache PieceData} (h : InventoryOK c) (k : Cid)
    {p : PieceData} (hp : PieceOK p) : InventoryOK (c.overwrite k p) := by
  intro e he
  rcases mem_overwrite c k p e he with h1 | h1
  · exact h e h1
  · rw [h1]
    exact hp

theorem inventoryOK_remove {c : ARCCache PieceData} (h : InventoryOK c) (k : Cid) :
    InventoryOK (c.Remove k) :=
  fun e he => h e (mem_Remove c k e he)

theorem pieceOK_append {p : PieceData} {d : DealData}
    (hnew : p.dealDatas.any (fun x => decide (x.dealID = d.dealID)) = false)
    (hnodup : (p.dealDatas.map (fun x => x.dealID)).Nodup) :
    PieceOK { p with dealDatas := p.dealDatas ++ [d] } := by
  refine ⟨by simp, ?_⟩
  show ((p.dealDatas ++ [d]).map (fun x => x.dealID)).Nodup
  rw [List.map_append, List.nodup_append]
  refine ⟨hnodup, by simp, ?_⟩
  intro a ha hb
  simp only [List.map_cons, List.map_nil, List.mem_singleton] at hb
  obtain ⟨x, hx, hxa⟩ := List.mem_map.mp ha
  have : p.dealDatas.any (fun x => decide (x.dealID = d.dealID)) = true :=
    List.any_eq_true.mpr ⟨x, hx, by simp [hxa, hb]⟩
  rw [hnew] at this
  exact absurd this (by simp)

theorem bumpTry_ids (i : Nat) (ds : List DealData) :
    (bumpTry i ds).map (fun d => d.dealID) = ds.map (fun d => d.dealID) := by
  induction ds generalizing i with
  | nil => simp [bumpTry]
  | cons d rest ih =>
    cases i with
    | zero => rfl
    | succ i =>
      show d.dealID :: (bumpTry i rest).map (fun d => d.dealID) = _
      rw [ih i]
      rfl

theorem bumpTry_ne_nil (i : Nat) (ds : List DealData) (h : ds ≠ []) : bumpTry i ds ≠ [] := by
  cases ds with
  | nil => exact absurd rfl h
  | cons d rest =>
    cases i <;> simp [bumpTry]

theorem pieceOK_bump {p : PieceData} (h : PieceOK p) (i : Nat) :
    PieceOK { p with dealDatas := bumpTry i p.dealDatas } := by
  refine ⟨bumpTry_ne_nil i _ h.1, ?_⟩
  show ((bumpTry i p.dealDatas).map (fun d => d.dealID)).Nodup
  rw [bumpTry_ids]
  exact h.2

theorem indexDeal_inventoryOK (w : FullNode) (ld : List DealInfo) (ptsk : TipSetKey)
    (m : MinerData) (did : DealID) (h : InventoryOK m.dataRefs) :
    InventoryOK (indexDeal w ld ptsk m did).1.dataRefs := by
  unfold indexDeal
  cases w.StateMarketStorageDeal m.now did ptsk with
  | error e => exact h
  | ok deal =>
    dsimp only
    split
    · exact h
    · split
      · exact h
      · rename_i hnew
        have hnew1 := Bool.eq_false_iff.mpr hnew
        apply inventoryOK_add h
        cases hg : (m.log (Call.StateMarketStorageDeal did ptsk)).dataRefs.Get
            deal.Proposal.PieceCID with
        | none =>
          rw [hg] at hnew1
          exact pieceOK_append hnew1 (by simp)
        | some p =>
          rw [hg] at hnew1
          exact pieceOK_append hnew1 (inventoryOK_get h hg).2

theorem indexDeals_inventoryOK (w : FullNode) (ld : List DealInfo) (ptsk : TipSetKey)
    (dids : List DealID) (m : MinerData) (h : InventoryOK m.dataRefs) :
    InventoryOK (indexDeals w ld ptsk m dids).1.dataRefs := by
  induction dids generalizing m with
  | nil => exact h
  | cons did rest ih =>
    have h1 := indexDeal_inventoryOK w ld ptsk m did h
    unfold indexDeals
    rcases hstep : indexDeal w ld ptsk m did with ⟨m1, _ | e⟩
    · rw [hstep] at h1
      exact ih m1 h1
    · rw [hstep] at h1
      exact h1

theorem indexMessage_inventoryOK (w : FullNode) (ld : List DealInfo) (ptsk : TipSetKey)
    (m : MinerData) (msg : Message) (h : InventoryOK m.dataRefs) :
    InventoryOK (indexMessage w ld ptsk m msg).1.dataRefs := by
  unfold indexMessage
  split
  · exact h
  · cases w.UnmarshalCBOR msg.Params with
    | none => exact h
    | some params =>
      dsimp only
      cases w.StateSectorPreCommitInfo m.now msg.To params.SectorNumber ptsk with
      | ok pci => exact indexDeals_inventoryOK w ld ptsk _ _ h
      | error _ =>
        dsimp only
        cases w.StateSectorGetInfo (m.log
            (Call.StateSectorPreCommitInfo msg.To params.SectorNumber ptsk)).now
            msg.To params.SectorNumber ptsk with
        | error e => exact h
        | ok sci => exact indexDeals_inventoryOK w ld ptsk _ _ h

theorem indexMessages_inventoryOK (w : FullNode) (ld : List DealInfo) (ptsk : TipSetKey)
    (msgs : List Message) (m : MinerData) (h : InventoryOK m.dataRefs) :
    InventoryOK (indexMessages w ld ptsk m msgs).1.dataRefs := by
  induction msgs generalizing m with
  | nil => exact h
  | cons msg rest ih =>
    have h1 := indexMessage_inventoryOK w ld ptsk m msg h
    unfold indexMessages
    rcases hstep : indexMessage w ld ptsk m msg with ⟨m1, _ | e⟩
    · rw [hstep] at h1
      exact ih m1 h1
    · rw [hstep] at h1
      exact h1

theorem scanHeight_inventoryOK (w : FullNode) (ld : List DealInfo) (m : MinerData)
    (h : InventoryOK m.dataRefs) : InventoryOK (scanHeight w ld m).1.dataRefs := by
  unfold scanHeight
  split
  · exact h
  · dsimp only
    cases w.ChainGetTipSetByHeight m.now m.checkHeight EmptyTSK with
    | error e => exact h
    | ok ts =>
      dsimp only
      split
      · exact h
      · have h1 := indexMessages_inventoryOK w ld ts.Parents
          (parentMessages w (m.log (Call.ChainGetTipSetByHeight m.checkHeight EmptyTSK)).now
            ts.FirstCid)
          ((m.log (Call.ChainGetTipSetByHeight m.checkHeight EmptyTSK)).log
            (Call.ChainGetParentMessages ts.FirstCid)) h
        unfold indexTipset
        dsimp only
        rcases hstep : indexMessages w ld ts.Parents
            ((m.log (Call.ChainGetTipSetByHeight m.checkHeight EmptyTSK)).log
              (Call.ChainGetParentMessages ts.FirstCid))
            (parentMessages w (m.log (Call.ChainGetTipSetByHeight m.checkHeight EmptyTSK)).now
              ts.FirstCid) with ⟨m3, _ | e⟩
        · rw [hstep] at h1
          exact h1
        · rw [hstep] at h1
          exact h1

theorem scanLoop_inventoryOK (w : FullNode) (head : TipSet) (ld : List DealInfo)
    (fuel : Nat) (m m1 : MinerData) (r : Result) (h : InventoryOK m.dataRefs)
    (hrun : scanLoop w head ld fuel m = some (m1, r)) : InventoryOK m1.dataRefs := by
  induction fuel generalizing m with
  | zero =>
    unfold scanLoop at hrun
    split at hrun
    · simp at hrun
    · simp at hrun
      rw [← hrun.1]
      exact h
  | succ fuel ih =>
    unfold scanLoop at hrun
    split at hrun
    · have h1 := scanHeight_inventoryOK w ld m h
      rcases hstep : scanHeight w ld m with ⟨m2, ctl⟩
      rw [hstep] at hrun h1
      cases ctl with
      | next => exact ih m2 h1 hrun
      | stop =>
        simp at hrun
        rw [← hrun.1]
        exact h1
      | fail e =>
        simp at hrun
        rw [← hrun.1]
        exact h1
    · simp at hrun
      rw [← hrun.1]
      exact h

theorem checkChainData_inventoryOK (w : FullNode) (fuel : Nat) (m m1 : MinerData) (r : Result)
    (h : InventoryOK m.dataRefs) (hrun : checkChainData w fuel m = some (m1, r)) :
    InventoryOK m1.dataRefs := by
  unfold checkChainData at hrun
  dsimp only at hrun
  cases hh : w.ChainHead m.now with
  | error e =>
    rw [hh] at hrun
    simp at hrun
    rw [← hrun.1]
    exact h
  | ok head =>
    rw [hh] at hrun
    dsimp only at hrun
    cases hl : w.ClientListDeals (m.log Call.ChainHead).now with
    | error e =>
      rw [hl] at hrun
      simp at hrun
      rw [← hrun.1]
      exact h
    | ok ld =>
      rw [hl] at hrun
      dsimp only at hrun
      exact scanLoop_inventoryOK w head ld fuel
        ((m.log Call.ChainHead).log Call.ClientListDeals) m1 r h hrun

theorem sweepRetrieval_inventoryOK (w : FullNode) (m : MinerData) (rk : Cid)
    (h : InventoryOK m.dataRefs) :
    InventoryOK (sweepRetrieval w m rk).1.dataRefs ∧
      (sweepRetrieval w m rk).2 ≠ some (Result.panic Panic.indexOutOfRange) := by
  unfold sweepRetrieval
  cases hg : m.dataRefs.Get rk with
  | none => exact ⟨h, by simp⟩
  | some data =>
    dsimp only
    cases hd : data.dealDatas with
    | nil => exact absurd hd (inventoryOK_get h hg).1
    | cons dealData rest =>
      dsimp only
      cases w.ClientHasLocal m.now dealData.dataRef.RootCID with
      | error e => exact ⟨h, by simp⟩
      | ok has =>
        dsimp only
        split
        · exact ⟨h, by simp⟩
        · exact ⟨h, by simp⟩

theorem sweepRetrievals_inventoryOK (w : FullNode) (keys : List Cid) (m : MinerData)
    (h : InventoryOK m.dataRefs) :
    InventoryOK (sweepRetrievals w m keys).1.dataRefs ∧
      (sweepRetrievals w m keys).2 ≠ some (Result.panic Panic.indexOutOfRange) := by
  induction keys generalizing m with
  | nil => exact ⟨h, by simp [sweepRetrievals]⟩
  | cons rk rest ih =>
    have h1 := sweepRetrieval_inventoryOK w m rk h
    unfold sweepRetrievals
    rcases hstep : sweepRetrieval w m rk with ⟨m1, _ | r⟩
    · rw [hstep] at h1
      exact ih m1 h1.1
    · rw [hstep] at h1
      exact h1

theorem retrieveCandidate_inventoryOK (w : FullNode) (m : MinerData) (rk : Cid)
    (h : InventoryOK m.dataRefs) :
    InventoryOK (retrieveCandidate w m rk).1.dataRefs ∧
      (retrieveCandidate w m rk).2 ≠ Ctl.ret (Result.panic Panic.indexOutOfRange) := by
  unfold retrieveCandidate
  cases hg : m.dataRefs.Get rk with
  | none => exact ⟨h, by simp⟩
  | some datas =>
    dsimp only
    split
    · exact ⟨h, by simp⟩
    · rename_i hlen
      cases hc : (candidates 0 datas.dealDatas)[w.randIntn m.now %
          (candidates 0 datas.dealDatas).length]? with
      | none =>
        rw [List.getElem?_eq_none_iff] at hc
        have := Nat.mod_lt (w.randIntn m.now) (Nat.pos_of_ne_zero hlen)
        omega
      | some pick =>
        obtain ⟨idx, dealData⟩ := pick
        dsimp only
        cases w.ClientHasLocal m.now dealData.dataRef.RootCID with
        | error e => exact ⟨h, by simp⟩
        | ok has =>
          dsimp only
          split
          · exact ⟨h, by simp⟩
          · split
            · exact ⟨h, by simp⟩
            · cases w.ClientQuery (m.log (Call.ClientHasLocal dealData.dataRef.RootCID)).now
                  dealData.dataRef.RootCID dealData.deal.Provider with
              | error e =>
                exact ⟨inventoryOK_overwrite h rk (pieceOK_bump (inventoryOK_get h hg) idx), by simp⟩
              | ok resp =>
                dsimp only
                split <;> split <;> exact ⟨h, by simp⟩

theorem retrieveCandidates_inventoryOK (w : FullNode) (keys : List Cid) (m : MinerData)
    (h : InventoryOK m.dataRefs) :
    InventoryOK (retrieveCandidates w m keys).1.dataRefs ∧
      (retrieveCandidates w m keys).2 ≠ Result.panic Panic.indexOutOfRange := by
  induction keys generalizing m with
  | nil => exact ⟨h, by simp [retrieveCandidates]⟩
  | cons rk rest ih =>
    have h1 := retrieveCandidate_inventoryOK w m rk h
    unfold retrieveCandidates
    rcases hstep : retrieveCandidate w m rk with ⟨m1, _ | _ | r⟩
    · rw [hstep] at h1
      exact ih m1 h1.1
    · rw [hstep] at h1
      exact ⟨h1.1, by simp⟩
    · rw [hstep] at h1
      refine ⟨h1.1, ?_⟩
      intro hr
      apply h1.2
      have hr1 : r = Result.panic Panic.indexOutOfRange := hr
      rw [hr1]

theorem retrieveChainData_inventoryOK (w : FullNode) (m : MinerData)
    (h : InventoryOK m.dataRefs) :
    InventoryOK (retrieveChainData w m).1.dataRefs ∧
      (retrieveChainData w m).2 ≠ Result.panic Panic.indexOutOfRange := by
  have h1 := sweepRetrievals_inventoryOK w m.retrievals.Keys m h
  unfold retrieveChainData
  rcases hstep : sweepRetrievals w m m.retrievals.Keys with ⟨m1, _ | r⟩
  · rw [hstep] at h1
    dsimp only
    split
    · exact ⟨h1.1, by simp⟩
    · exact retrieveCandidates_inventoryOK w _ m1 h1.1
  · rw [hstep] at h1
    refine ⟨h1.1, ?_⟩
    intro hr
    apply h1.2
    have hr1 : r = Result.panic Panic.indexOutOfRange := hr
    rw [hr1]

theorem sweepDeal_inventoryOK (w : FullNode) (m : MinerData) (rk : Cid)
    (h : InventoryOK m.dataRefs) :
    InventoryOK (sweepDeal w m rk).1.dataRefs ∧
      (sweepDeal w m rk).2 ≠ some (Result.panic Panic.indexOutOfRange) := by
  unfold sweepDeal
  cases m.deals.Get rk with
  | none => exact ⟨h, by simp⟩
  | some dealID =>
    dsimp only
    cases w.ClientGetDealInfo m.now dealID with
    | error e => exact ⟨h, by simp⟩
    | ok lDeal =>
      dsimp only
      split
      · exact ⟨inventoryOK_remove h rk, by simp⟩
      · split
        · exact ⟨h, by simp⟩
        · exact ⟨h, by simp⟩

theorem sweepDeals_inventoryOK (w : FullNode) (keys : List Cid) (m : MinerData)
    (h : InventoryOK m.dataRefs) :
    InventoryOK (sweepDeals w m keys).1.dataRefs ∧
      (sweepDeals w m keys).2 ≠ some (Result.panic Panic.indexOutOfRange) := by
  induction keys generalizing m with
  | nil => exact ⟨h, by simp [sweepDeals]⟩
  | cons rk rest ih =>
    have h1 := sweepDeal_inventoryOK w m rk h
    unfold sweepDeals
    rcases hstep : sweepDeal w m rk with ⟨m1, _ | r⟩
    · rw [hstep] at h1
      exact ih m1 h1.1
    · rw [hstep] at h1
      exact h1

theorem dealCandidate_inventoryOK (w : FullNode) (m : MinerData) (rk : Cid)
    (h : InventoryOK m.dataRefs) :
    InventoryOK (dealCandidate w m rk).1.dataRefs ∧
      (dealCandidate w m rk).2 ≠ Ctl.ret (Result.panic Panic.indexOutOfRange) := by
  unfold dealCandidate
  cases hg : m.dataRefs.Get rk with
  | none => exact ⟨h, by simp⟩
  | some data =>
    dsimp only
    cases hd : data.dealDatas with
    | nil => exact absurd hd (inventoryOK_get h hg).1
    | cons dealData rest =>
      dsimp only
      cases w.ClientHasLocal m.now dealData.dataRef.RootCID with
      | error e => exact ⟨h, by simp⟩
      | ok has =>
        dsimp only
        split
        · exact ⟨h, by simp⟩
        · split
          · exact ⟨h, by simp⟩
          · cases w.ClientMinerQueryOffer
                (m.log (Call.ClientHasLocal dealData.dataRef.RootCID)).now
                (m.log (Call.ClientHasLocal dealData.dataRef.RootCID)).address
                dealData.dataRef.RootCID with
            | error e => exact ⟨h, by simp⟩
            | ok offer =>
              dsimp only
              split
              · exact ⟨inventoryOK_remove h rk, by simp⟩
              · cases w.StateMinerInfo
                    ((m.log (Call.ClientHasLocal dealData.dataRef.RootCID)).log
                      (Call.ClientMinerQueryOffer
                        (m.log (Call.ClientHasLocal dealData.dataRef.RootCID)).address
                        dealData.dataRef.RootCID)).now
                    ((m.log (Call.ClientHasLocal dealData.dataRef.RootCID)).log
                      (Call.ClientMinerQueryOffer
                        (m.log (Call.ClientHasLocal dealData.dataRef.RootCID)).address
                        dealData.dataRef.RootCID)).address EmptyTSK with
                | error e => exact ⟨h, by simp⟩
                | ok mi =>
                  dsimp only
                  cases mi.PeerId with
                  | none => exact ⟨h, by simp⟩
                  | some peerId =>
                    dsimp only
                    split
                    · exact ⟨h, by simp⟩
                    · split
                      · exact ⟨h, by simp⟩
                      · split
                        · exact ⟨h, by simp⟩
                        · exact ⟨h, by simp⟩

theorem dealCandidates_inventoryOK (w : FullNode) (keys : List Cid) (m : MinerData)
    (h : InventoryOK m.dataRefs) :
    InventoryOK (dealCandidates w m keys).1.dataRefs ∧
      (dealCandidates w m keys).2 ≠ Result.panic Panic.indexOutOfRange := by
  induction keys generalizing m with
  | nil => exact ⟨h, by simp [dealCandidates]⟩
  | cons rk rest ih =>
    have h1 := dealCandidate_inventoryOK w m rk h
    unfold dealCandidates
    rcases hstep : dealCandidate w m rk with ⟨m1, _ | _ | r⟩
    · rw [hstep] at h1
      exact ih m1 h1.1
    · rw [hstep] at h1
      exact ⟨h1.1, by simp⟩
    · rw [hstep] at h1
      refine ⟨h1.1, ?_⟩
      intro hr
      apply h1.2
      have hr1 : r = Result.panic Panic.indexOutOfRange := hr
      rw [hr1]

theorem dealChainData_inventoryOK (w : FullNode) (m : MinerData)
    (h : InventoryOK m.dataRefs) :
    InventoryOK (dealChainData w m).1.dataRefs ∧
      (dealChainData w m).2 ≠ Result.panic Panic.indexOutOfRange := by
  have h1 := sweepDeals_inventoryOK w m.deals.Keys m h
  unfold dealChainData
  rcases hstep : sweepDeals w m m.deals.Keys with ⟨m1, _ | r⟩
  · rw [hstep] at h1
    dsimp only
    split
    · exact ⟨h1.1, by simp⟩
    · exact dealCandidates_inventoryOK w _ m1 h1.1
  · rw [hstep] at h1
    refine ⟨h1.1, ?_⟩
    intro hr
    apply h1.2
    have hr1 : r = Result.panic Panic.indexOutOfRange := hr
    rw [hr1]

/-- C7: every entry of the Piece Inventory has a non-empty list of records with
pairwise distinct deal ids. This holds in the initial state and, when it holds before
a call of `checkChainData`, `retrieveChainData` or `dealChainData`, it holds after
it; and in such a state neither scheduler fails with an index out of range when it
reads the first record of an entry. -/
theorem inventory_invariant (w : FullNode) (addr : Address) (m : MinerData) :
    InventoryOK (newMinerData addr).dataRefs ∧
      (InventoryOK m.dataRefs →
        (∀ fuel m1 r, checkChainData w fuel m = some (m1, r) → InventoryOK m1.dataRefs) ∧
          InventoryOK (retrieveChainData w m).1.dataRefs ∧
          InventoryOK (dealChainData w m).1.dataRefs ∧
          (retrieveChainData w m).2 ≠ Result.panic Panic.indexOutOfRange ∧
          (dealChainData w m).2 ≠ Result.panic Panic.indexOutOfRange) := by
  refine ⟨?_, fun h => ⟨?_, ?_, ?_, ?_, ?_⟩⟩
  · intro e he
    simp [newMinerData, ARCCache.empty] at he
  · exact fun fuel m1 r hrun => checkChainData_inventoryOK w fuel m m1 r h hrun
  · exact (retrieveChainData_inventoryOK w m h).1
  · exact (dealChainData_inventoryOK w m h).1
  · exact (retrieveChainData_inventoryOK w m h).2
  · exact (dealChainData_inventoryOK w m h).2

theorem inventory_invariant_witness :
    InventoryOK (retrieveChainData (dealInfoWorld StorageDealActive) dealingState).1.dataRefs ∧
      (dealChainData (dealInfoWorld StorageDealActive) dealingState).2 ≠
        Result.panic Panic.indexOutOfRange :=
  ⟨((inventory_invariant (dealInfoWorld StorageDealActive) 1 dealingState).2
      (by decide)).2.1,
    ((inventory_invariant (dealInfoWorld StorageDealActive) 1 dealingState).2
      (by decide)).2.2.2.2⟩

/-! ### Lookups after an insertion -/

theorem lookup_replace {V : Type} (k k1 : Cid) (v : V) (l : List (Cid × V)) :
    ARCCache.lookup k1 (ARCCache.replace k v l) =
      if k1 = k then (ARCCache.lookup k l).map (fun _ => v) else ARCCache.lookup k1 l := by
  induction l with
  | nil => simp [ARCCache.replace, ARCCache.lookup]
  | cons e rest ih =>
    obtain ⟨k2, v2⟩ := e
    simp only [ARCCache.replace, ARCCache.lookup, ih]
    by_cases h1 : k1 = k
    · subst h1
      by_cases h2 : k2 = k1
      · simp [h2]
      · simp [h2]
    · by_cases h2 : k2 = k1
      · have h3 : ¬ k2 = k := fun h => h1 (h2.symm.trans h)
        simp [h1, h2, h3]
      · simp [h1, h2]

theorem lookup_append {V : Type} (k k1 : Cid) (v : V) (l : List (Cid × V)) :
    ARCCache.lookup k1 (l ++ [(k, v)]) =
      match ARCCache.lookup k1 l with
      | some x => some x
      | none => if k = k1 then some v else none := by
  induction l with
  | nil => simp [ARCCache.lookup]
  | cons e rest ih =>
    obtain ⟨k2, v2⟩ := e
    by_cases h2 : k2 = k1
    · simp [ARCCache.lookup, h2]
    · simp only [List.cons_append, ARCCache.lookup, h2, if_false]
      exact ih

theorem get_Add {V : Type} (c : ARCCache V) (k k1 : Cid) (v : V) :
    (c.Add k v).Get k1 = if k1 = k then some v else c.Get k1 := by
  unfold ARCCache.Add
  split
  · rename_i hc
    show ARCCache.lookup k1 (ARCCache.replace k v c.entries) = _
    rw [lookup_replace]
    by_cases h1 : k1 = k
    · simp only [h1, if_true]
      unfold ARCCache.Contains ARCCache.Get at hc
      cases hl : ARCCache.lookup k c.entries with
      | none => simp [hl] at hc
      | some x => rfl
    · simp only [h1, if_false]
      rfl
  · rename_i hc
    show ARCCache.lookup k1 (c.entries ++ [(k, v)]) = _
    rw [lookup_append]
    by_cases h1 : k1 = k
    · subst h1
      unfold ARCCache.Contains ARCCache.Get at hc
      cases hl : ARCCache.lookup k1 c.entries with
      | none => simp
      | some x => simp [hl] at hc
    · have h2 : ¬ k = k1 := fun h => h1 h.symm
      simp only [h1, h2, if_false]
      unfold ARCCache.Get
      cases ARCCache.lookup k1 c.entries <;> rfl

/-! ### Records only accumulate during a scan -/

theorem grows_refl (c : ARCCache PieceData) : Grows c c := fun _ _ h => h

theorem grows_trans {a b c : ARCCache PieceData} (h1 : Grows a b) (h2 : Grows b c) :
    Grows a c := fun p d h => h2 p d (h1 p d h)

theorem isMinerDealed_address (m : MinerData) (root : Cid) (provider : Address) (piece : Cid)
    (ld : List DealInfo) :
    isMinerDealed m root provider piece ld =
      isMinerDealed (newMinerData m.address) root provider piece ld := rfl

/-- What `indexDeal` does to the inventory when the market deal can be read: nothing
when the deal is self-dealt or its record is there, otherwise it stores under the
piece an entry with the records stored before and a record of the deal. -/
theorem indexDeal_cases (w : FullNode) (ld : List DealInfo) (ptsk : TipSetKey)
    (m : MinerData) (did : DealID) (deal : MarketDeal)
    (hq : w.StateMarketStorageDeal m.now did ptsk = .ok deal) :
    (((isMinerDealed (newMinerData m.address) CidUndef deal.Proposal.Provider
            deal.Proposal.PieceCID ld).1 = true ∨
          HasRecord m.dataRefs deal.Proposal.PieceCID did = true) ∧
        (indexDeal w ld ptsk m did).1.dataRefs = m.dataRefs) ∨
      ((isMinerDealed (newMinerData m.address) CidUndef deal.Proposal.Provider
            deal.Proposal.PieceCID ld).1 = false ∧
        HasRecord m.dataRefs deal.Proposal.PieceCID did = false ∧
        ∃ v : PieceData,
          (indexDeal w ld ptsk m did).1.dataRefs = m.dataRefs.Add deal.Proposal.PieceCID v ∧
            v.dealDatas.any (fun d => decide (d.dealID = did)) = true ∧
            ∀ p, m.dataRefs.Get deal.Proposal.PieceCID = some p →
              ∀ d ∈ p.dealDatas, d ∈ v.dealDatas) := by
  unfold indexDeal
  rw [hq]
  dsimp only
  have hs : isMinerDealed (m.log (Call.StateMarketStorageDeal did ptsk)) CidUndef
      deal.Proposal.Provider deal.Proposal.PieceCID ld =
      isMinerDealed (newMinerData m.address) CidUndef deal.Proposal.Provider
        deal.Proposal.PieceCID ld := rfl
  have hd : (m.log (Call.StateMarketStorageDeal did ptsk)).dataRefs = m.dataRefs := rfl
  rw [hs, hd]
  by_cases hself : (isMinerDealed (newMinerData m.address) CidUndef deal.Proposal.Provider
      deal.Proposal.PieceCID ld).1 = true
  · left
    rw [if_pos hself]
    exact ⟨Or.inl hself, rfl⟩
  · rw [if_neg hself]
    unfold HasRecord
    cases hg : m.dataRefs.Get deal.Proposal.PieceCID with
    | none =>
      right
      simp only [List.any_nil, Bool.false_eq_true, if_false]
      refine ⟨by simpa using hself, trivial, _, rfl, by simp, ?_⟩
      intro p hp
      simp at hp
    | some p =>
      dsimp only
      by_cases hf : p.dealDatas.any (fun d => decide (d.dealID = did)) = true
      · left
        simp only [hf, if_true]
        exact ⟨Or.inr trivial, rfl⟩
      · right
        simp only [hf, if_false]
        refine ⟨by simpa using hself, by simp [hf], _, rfl, by simp, ?_⟩
        intro p1 hp1 d hdm
        simp only [Option.some.injEq] at hp1
        subst hp1
        simp [hdm]

theorem HasRecord_Add (c : ARCCache PieceData) (k piece : Cid) (v : PieceData) (did : DealID) :
    HasRecord (c.Add k v) piece did =
      if piece = k then v.dealDatas.any (fun d => decide (d.dealID = did))
      else HasRecord c piece did := by
  unfold HasRecord
  rw [get_Add]
  by_cases h : piece = k
  · simp [h]
  · simp [h]

theorem indexDeal_error_dataRefs (w : FullNode) (ld : List DealInfo) (ptsk : TipSetKey)
    (m : MinerData) (did : DealID) (e : Err)
    (hq : w.StateMarketStorageDeal m.now did ptsk = .error e) :
    (indexDeal w ld ptsk m did).1.dataRefs = m.dataRefs := by
  unfold indexDeal
  rw [hq]
  rfl

theorem indexDeal_grows (w : FullNode) (ld : List DealInfo) (ptsk : TipSetKey)
    (m : MinerData) (did : DealID) : Grows m.dataRefs (indexDeal w ld ptsk m did).1.dataRefs := by
  cases hq : w.StateMarketStorageDeal m.now did ptsk with
  | error e =>
    rw [indexDeal_error_dataRefs w ld ptsk m did e hq]
    exact grows_refl _
  | ok deal =>
    rcases indexDeal_cases w ld ptsk m did deal hq with ⟨_, h⟩ | ⟨_, _, v, hv, _, hold⟩
    · rw [h]
      exact grows_refl _
    · rw [hv]
      intro piece d hrec
      rw [HasRecord_Add]
      by_cases hp : piece = deal.Proposal.PieceCID
      · simp only [hp, if_true]
        subst hp
        unfold HasRecord at hrec
        cases hg : m.dataRefs.Get deal.Proposal.PieceCID with
        | none => simp [hg] at hrec
        | some p =>
          rw [hg] at hrec
          obtain ⟨x, hx, hxd⟩ := List.any_eq_true.mp hrec
          exact List.any_eq_true.mpr ⟨x, hold p hg x hx, hxd⟩
      · simp only [hp, if_false]
        exact hrec

theorem dealSettled_mono {sn : StaticNode} {ld : List DealInfo} {addr : Address}
    {c c1 : ARCCache PieceData} {ptsk : TipSetKey} {did : DealID} (hg : Grows c c1)
    (h : DealSettled sn ld addr c ptsk did) : DealSettled sn ld addr c1 ptsk did :=
  fun deal hq hns => hg _ _ (h deal hq hns)

theorem indexDeal_settles (sn : StaticNode) (stopping : Nat → Bool) (rnd : Nat → Nat)
    (ld : List DealInfo) (ptsk : TipSetKey) (m : MinerData) (did : DealID) :
    DealSettled sn ld m.address
      (indexDeal (sn.toFullNode stopping rnd) ld ptsk m did).1.dataRefs ptsk did := by
  intro deal hq hns
  have hq1 : (sn.toFullNode stopping rnd).StateMarketStorageDeal m.now did ptsk = .ok deal := hq
  rcases indexDeal_cases _ ld ptsk m did deal hq1 with ⟨hs | hr, h⟩ | ⟨_, _, v, hv, hany, _⟩
  · rw [hns] at hs
    exact absurd hs (by simp)
  · rw [h]
    exact hr
  · rw [hv, HasRecord_Add]
    simpa using hany

theorem indexDeal_noop (sn : StaticNode) (stopping : Nat → Bool) (rnd : Nat → Nat)
    (ld : List DealInfo) (ptsk : TipSetKey) (m : MinerData) (did : DealID)
    (h : DealSettled sn ld m.address m.dataRefs ptsk did) :
    (indexDeal (sn.toFullNode stopping rnd) ld ptsk m did).1.dataRefs = m.dataRefs := by
  cases hq : sn.StateMarketStorageDeal did ptsk with
  | error e => exact indexDeal_error_dataRefs _ ld ptsk m did e hq
  | ok deal =>
    have hq1 : (sn.toFullNode stopping rnd).StateMarketStorageDeal m.now did ptsk = .ok deal := hq
    rcases indexDeal_cases _ ld ptsk m did deal hq1 with ⟨_, h1⟩ | ⟨hns, hno, _⟩
    · exact h1
    · rw [h deal hq hns] at hno
      exact absurd hno (by simp)

theorem indexDeals_grows (w : FullNode) (ld : List DealInfo) (ptsk : TipSetKey)
    (dids : List DealID) (m : MinerData) :
    Grows m.dataRefs (indexDeals w ld ptsk m dids).1.dataRefs := by
  induction dids generalizing m with
  | nil => exact grows_refl _
  | cons did rest ih =>
    have h1 := indexDeal_grows w ld ptsk m did
    unfold indexDeals
    rcases hstep : indexDeal w ld ptsk m did with ⟨m1, _ | e⟩
    · rw [hstep] at h1
      exact grows_trans h1 (ih m1)
    · rw [hstep] at h1
      exact h1

theorem indexDeals_settles (sn : StaticNode) (stopping : Nat → Bool) (rnd : Nat → Nat)
    (ld : List DealInfo) (ptsk : TipSetKey) (dids : List DealID) (m : MinerData)
    (hok : (indexDeals (sn.toFullNode stopping rnd) ld ptsk m dids).2 = none) :
    ∀ did ∈ dids, DealSettled sn ld m.address
      (indexDeals (sn.toFullNode stopping rnd) ld ptsk m dids).1.dataRefs ptsk did := by
  induction dids generalizing m with
  | nil => simp
  | cons did rest ih =>
    have h1 := indexDeal_settles sn stopping rnd ld ptsk m did
    have hf := indexDeal_frame (sn.toFullNode stopping rnd) ld ptsk m did
    unfold indexDeals at hok ⊢
    rcases hstep : indexDeal (sn.toFullNode stopping rnd) ld ptsk m did with ⟨m1, _ | e⟩
    · rw [hstep] at h1 hf hok
      dsimp only at h1 hf hok ⊢
      have haddr : m1.address = m.address := hf.address
      intro d hd
      rcases List.mem_cons.mp hd with hd1 | hd1
      · rw [hd1]
        exact dealSettled_mono (indexDeals_grows _ ld ptsk rest m1) h1
      · have := ih m1 hok d hd1
        rw [haddr] at this
        exact this
    · rw [hstep] at hok
      simp at hok

theorem indexDeals_noop (sn : StaticNode) (stopping : Nat → Bool) (rnd : Nat → Nat)
    (ld : List DealInfo) (ptsk : TipSetKey) (dids : List DealID) (m : MinerData)
    (h : ∀ did ∈ dids, DealSettled sn ld m.address m.dataRefs ptsk did) :
    (indexDeals (sn.toFullNode stopping rnd) ld ptsk m dids).1.dataRefs = m.dataRefs := by
  induction dids generalizing m with
  | nil => rfl
  | cons did rest ih =>
    have h1 := indexDeal_noop sn stopping rnd ld ptsk m did (h did (by simp))
    have hf := indexDeal_frame (sn.toFullNode stopping rnd) ld ptsk m did
    unfold indexDeals
    rcases hstep : indexDeal (sn.toFullNode stopping rnd) ld ptsk m did with ⟨m1, _ | e⟩
    · rw [hstep] at h1 hf
      dsimp only at h1 hf ⊢
      have haddr : m1.address = m.address := hf.address
      rw [ih m1 (by
        intro d hd
        rw [haddr, h1]
        exact h d (by simp [hd]))]
      exact h1
    · rw [hstep] at h1
      exact h1

theorem indexMessage_skip (w : FullNode) (ld : List DealInfo) (ptsk : TipSetKey)
    (m : MinerData) (msg : Message)
    (h : msg.Method ≠ MethodsMiner_ProveCommitSector ∨ w.UnmarshalCBOR msg.Params = none) :
    indexMessage w ld ptsk m msg = (m, none) := by
  unfold indexMessage
  by_cases hm : msg.Method ≠ MethodsMiner_ProveCommitSector
  · rw [if_pos hm]
  · rw [if_neg hm]
    rcases h with h | h
    · exact absurd h hm
    · rw [h]

/-- On a static node the indexer handles a `ProveCommitSector` message with decodable
parameters by indexing the deal ids resolved for it, or returns the error of the
resolution, the inventory untouched. -/
theorem indexMessage_static (sn : StaticNode) (stopping : Nat → Bool) (rnd : Nat → Nat)
    (ld : List DealInfo) (ptsk : TipSetKey) (m : MinerData) (msg : Message)
    (params : ProveCommitSectorParams)
    (hmethod : msg.Method = MethodsMiner_ProveCommitSector)
    (hparams : sn.UnmarshalCBOR msg.Params = some params) :
    (∃ dids m1, sn.resolveDealIDs msg params ptsk = .ok dids ∧ IndexFrame m m1 ∧
        m1.dataRefs = m.dataRefs ∧
        indexMessage (sn.toFullNode stopping rnd) ld ptsk m msg =
          indexDeals (sn.toFullNode stopping rnd) ld ptsk m1 dids) ∨
      (∃ e, sn.resolveDealIDs msg params ptsk = .error e ∧
        (indexMessage (sn.toFullNode stopping rnd) ld ptsk m msg).2 = some e ∧
        (indexMessage (sn.toFullNode stopping rnd) ld ptsk m msg).1.dataRefs = m.dataRefs) := by
  have hparams1 : (sn.toFullNode stopping rnd).UnmarshalCBOR msg.Params = some params := hparams
  have hlog1 := indexFrame_log m
    (Call.StateSectorPreCommitInfo msg.To params.SectorNumber ptsk) rfl
  have hlog2 := indexFrame_trans hlog1 (indexFrame_log _
    (Call.StateSectorGetInfo msg.To params.SectorNumber ptsk) rfl)
  have e1 : ∀ t, (sn.toFullNode stopping rnd).StateSectorPreCommitInfo t =
      sn.StateSectorPreCommitInfo := fun _ => rfl
  have e2 : ∀ t, (sn.toFullNode stopping rnd).StateSectorGetInfo t =
      sn.StateSectorGetInfo := fun _ => rfl
  unfold indexMessage StaticNode.resolveDealIDs
  simp only [hmethod, ne_eq, not_true_eq_false, if_false, hparams1, e1, e2]
  cases sn.StateSectorPreCommitInfo msg.To params.SectorNumber ptsk with
  | ok pci =>
    left
    exact ⟨_, _, rfl, hlog1, rfl, rfl⟩
  | error e1 =>
    dsimp only
    cases sn.StateSectorGetInfo msg.To params.SectorNumber ptsk with
    | ok sci =>
      left
      exact ⟨_, _, rfl, hlog2, rfl, rfl⟩
    | error e =>
      right
      exact ⟨e, rfl, rfl, rfl⟩

theorem indexMessage_grows (w : FullNode) (ld : List DealInfo) (ptsk : TipSetKey)
    (m : MinerData) (msg : Message) :
    Grows m.dataRefs (indexMessage w ld ptsk m msg).1.dataRefs := by
  unfold indexMessage
  split
  · exact grows_refl _
  · cases w.UnmarshalCBOR msg.Params with
    | none => exact grows_refl _
    | some params =>
      dsimp only
      cases w.StateSectorPreCommitInfo m.now msg.To params.SectorNumber ptsk with
      | ok pci =>
        exact indexDeals_grows w ld ptsk pci.Info.DealIDs
          (m.log (Call.StateSectorPreCommitInfo msg.To params.SectorNumber ptsk))
      | error _ =>
        dsimp only
        cases w.StateSectorGetInfo (m.log
            (Call.StateSectorPreCommitInfo msg.To params.SectorNumber ptsk)).now
            msg.To params.SectorNumber ptsk with
        | error e => exact grows_refl _
        | ok sci =>
          exact indexDeals_grows w ld ptsk sci.DealIDs
            ((m.log (Call.StateSectorPreCommitInfo msg.To params.SectorNumber ptsk)).log
              (Call.StateSectorGetInfo msg.To params.SectorNumber ptsk))

theorem messageSettled_mono {sn : StaticNode} {ld : List DealInfo} {addr : Address}
    {c c1 : ARCCache PieceData} {ptsk : TipSetKey} {msg : Message} (hg : Grows c c1)
    (h : MessageSettled sn ld addr c ptsk msg) : MessageSettled sn ld addr c1 ptsk msg :=
  fun hm params hp dids hr did hd => dealSettled_mono hg (h hm params hp dids hr did hd)

theorem indexMessage_settles (sn : StaticNode) (stopping : Nat → Bool) (rnd : Nat → Nat)
    (ld : List DealInfo) (ptsk : TipSetKey) (m : MinerData) (msg : Message)
    (hok : (indexMessage (sn.toFullNode stopping rnd) ld ptsk m msg).2 = none) :
    MessageSettled sn ld m.address
      (indexMessage (sn.toFullNode stopping rnd) ld ptsk m msg).1.dataRefs ptsk msg := by
  intro hmethod params hparams dids hres did hd
  rcases indexMessage_static sn stopping rnd ld ptsk m msg params hmethod hparams with
    ⟨dids1, m1, hres1, hf, _, heq⟩ | ⟨e, _, herr, _⟩
  · rw [hres] at hres1
    cases hres1
    rw [heq] at hok ⊢
    have := indexDeals_settles sn stopping rnd ld ptsk dids m1 hok did hd
    rw [hf.address] at this
    exact this
  · rw [hok] at herr
    simp at herr

theorem indexMessage_noop (sn : StaticNode) (stopping : Nat → Bool) (rnd : Nat → Nat)
    (ld : List DealInfo) (ptsk : TipSetKey) (m : MinerData) (msg : Message)
    (h : MessageSettled sn ld m.address m.dataRefs ptsk msg) :
    (indexMessage (sn.toFullNode stopping rnd) ld ptsk m msg).1.dataRefs = m.dataRefs := by
  by_cases hmethod : msg.Method = MethodsMiner_ProveCommitSector
  · cases hparams : sn.UnmarshalCBOR msg.Params with
    | none => rw [indexMessage_skip _ ld ptsk m msg (Or.inr hparams)]
    | some params =>
      rcases indexMessage_static sn stopping rnd ld ptsk m msg params hmethod hparams with
        ⟨dids, m1, hres, hf, hd0, heq⟩ | ⟨e, _, _, hsame⟩
      · rw [heq, indexDeals_noop sn stopping rnd ld ptsk dids m1 (by
          intro did hd
          rw [hf.address, hd0]
          exact h hmethod params hparams dids hres did hd)]
        exact hd0
      · exact hsame
  · rw [indexMessage_skip _ ld ptsk m msg (Or.inl hmethod)]

theorem indexMessages_grows (w : FullNode) (ld : List DealInfo) (ptsk : TipSetKey)
    (msgs : List Message) (m : MinerData) :
    Grows m.dataRefs (indexMessages w ld ptsk m msgs).1.dataRefs := by
  induction msgs generalizing m with
  | nil => exact grows_refl _
  | cons msg rest ih =>
    have h1 := indexMessage_grows w ld ptsk m msg
    unfold indexMessages
    rcases hstep : indexMessage w ld ptsk m msg with ⟨m1, _ | e⟩
    · rw [hstep] at h1
      exact grows_trans h1 (ih m1)
    · rw [hstep] at h1
      exact h1

theorem indexMessages_settles (sn : StaticNode) (stopping : Nat → Bool) (rnd : Nat → Nat)
    (ld : List DealInfo) (ptsk : TipSetKey) (msgs : List Message) (m : MinerData)
    (hok : (indexMessages (sn.toFullNode stopping rnd) ld ptsk m msgs).2 = none) :
    ∀ msg ∈ msgs, MessageSettled sn ld m.address
      (indexMessages (sn.toFullNode stopping rnd) ld ptsk m msgs).1.dataRefs ptsk msg := by
  induction msgs generalizing m with
  | nil => simp
  | cons msg rest ih =>
    have h1 := indexMessage_settles sn stopping rnd ld ptsk m msg
    have hf := indexMessage_frame (sn.toFullNode stopping rnd) ld ptsk m msg
    unfold indexMessages at hok ⊢
    rcases hstep : indexMessage (sn.toFullNode stopping rnd) ld ptsk m msg with ⟨m1, _ | e⟩
    · rw [hstep] at h1 hf hok
      dsimp only at h1 hf hok ⊢
      have haddr : m1.address = m.address := hf.address
      intro d hd
      rcases List.mem_cons.mp hd with hd1 | hd1
      · rw [hd1]
        exact messageSettled_mono (indexMessages_grows _ ld ptsk rest m1) (h1 rfl)
      · have := ih m1 hok d hd1
        rw [haddr] at this
        exact this
    · rw [hstep] at hok
      simp at hok

theorem indexMessages_noop (sn : StaticNode) (stopping : Nat → Bool) (rnd : Nat → Nat)
    (ld : List DealInfo) (ptsk : TipSetKey) (msgs : List Message) (m : MinerData)
    (h : ∀ msg ∈ msgs, MessageSettled sn ld m.address m.dataRefs ptsk msg) :
    (indexMessages (sn.toFullNode stopping rnd) ld ptsk m msgs).1.dataRefs = m.dataRefs := by
  induction msgs generalizing m with
  | nil => rfl
  | cons msg rest ih =>
    have h1 := indexMessage_noop sn stopping rnd ld ptsk m msg (h msg (by simp))
    have hf := indexMessage_frame (sn.toFullNode stopping rnd) ld ptsk m msg
    unfold indexMessages
    rcases hstep : indexMessage (sn.toFullNode stopping rnd) ld ptsk m msg with ⟨m1, _ | e⟩
    · rw [hstep] at h1 hf
      dsimp only at h1 hf ⊢
      have haddr : m1.address = m.address := hf.address
      rw [ih m1 (by
        intro d hd
        rw [haddr, h1]
        exact h d (by simp [hd]))]
      exact h1
    · rw [hstep] at h1
      exact h1

/-! ### One pass of the scan loop on a static node -/

theorem heightSettled_mono {sn : StaticNode} {ld : List DealInfo} {addr : Address}
    {c c1 : ARCCache PieceData} {h : Int} (hg : Grows c c1)
    (hs : HeightSettled sn ld addr c h) : HeightSettled sn ld addr c1 h :=
  fun ts hq hge msg hm => messageSettled_mono hg (hs ts hq hge msg hm)

theorem scanHeight_unfold (w : FullNode) (ld : List DealInfo) (m : MinerData) :
    scanHeight w ld m =
      if w.stopping m.now then (m, LoopCtl.stop)
      else
        match w.ChainGetTipSetByHeight m.now m.checkHeight EmptyTSK with
        | .error e => (m.log (Call.ChainGetTipSetByHeight m.checkHeight EmptyTSK), LoopCtl.fail e)
        | .ok ts =>
          if ts.Height < m.checkHeight then
            ({ m.log (Call.ChainGetTipSetByHeight m.checkHeight EmptyTSK) with
                checkHeight := wrap64 (m.checkHeight + 1) }, LoopCtl.next)
          else indexTipset w ld (m.log (Call.ChainGetTipSetByHeight m.checkHeight EmptyTSK)) ts :=
  rfl

/-- The state and the outcome of `indexTipset` in terms of the loop over the messages. -/
theorem indexTipset_eq (w : FullNode) (ld : List DealInfo) (m1 : MinerData) (ts : TipSet) :
    (indexTipset w ld m1 ts).1.dataRefs =
        (indexMessages w ld ts.Parents (m1.log (Call.ChainGetParentMessages ts.FirstCid))
          (parentMessages w m1.now ts.FirstCid)).1.dataRefs ∧
      (indexTipset w ld m1 ts).1.address = m1.address ∧
      ((indexTipset w ld m1 ts).2 = LoopCtl.next ↔
        (indexMessages w ld ts.Parents (m1.log (Call.ChainGetParentMessages ts.FirstCid))
          (parentMessages w m1.now ts.FirstCid)).2 = none) ∧
      (indexTipset w ld m1 ts).2 ≠ LoopCtl.stop ∧
      ((indexTipset w ld m1 ts).2 = LoopCtl.next →
        (indexTipset w ld m1 ts).1.checkHeight = wrap64 (ts.Height + 1)) ∧
      ∃ ext, (indexTipset w ld m1 ts).1.calls =
          m1.calls ++ Call.ChainGetParentMessages ts.FirstCid :: ext ∧
        ∀ c ∈ ext, c.isIndexCall = true := by
  have hf := indexTipset_frame w ld m1 ts
  obtain ⟨ext, hext, hidx⟩ := hf.calls
  unfold indexTipset
  dsimp only
  rcases hstep : indexMessages w ld ts.Parents (m1.log (Call.ChainGetParentMessages ts.FirstCid))
      (parentMessages w m1.now ts.FirstCid) with ⟨m3, _ | e⟩
  · rw [hstep] at hf hext
    refine ⟨rfl, hf.address, by simp, by simp, fun _ => rfl, ext, ?_, hidx⟩
    show m3.calls = _
    rw [hext]
    simp [MinerData.log]
  · rw [hstep] at hf hext
    refine ⟨rfl, hf.address, by simp, by simp, by simp, ext, ?_, hidx⟩
    show m3.calls = _
    rw [hext]
    simp [MinerData.log]

theorem scanHeight_grows (w : FullNode) (ld : List DealInfo) (m : MinerData) :
    Grows m.dataRefs (scanHeight w ld m).1.dataRefs := by
  rw [scanHeight_unfold]
  split
  · exact grows_refl _
  · cases w.ChainGetTipSetByHeight m.now m.checkHeight EmptyTSK with
    | error e => exact grows_refl _
    | ok ts =>
      dsimp only
      split
      · exact grows_refl _
      · rw [(indexTipset_eq w ld _ ts).1]
        exact indexMessages_grows w ld ts.Parents _
          ((m.log (Call.ChainGetTipSetByHeight m.checkHeight EmptyTSK)).log
            (Call.ChainGetParentMessages ts.FirstCid))

theorem scanHeight_address (w : FullNode) (ld : List DealInfo) (m : MinerData) :
    (scanHeight w ld m).1.address = m.address := by
  rw [scanHeight_unfold]
  split
  · rfl
  · cases w.ChainGetTipSetByHeight m.now m.checkHeight EmptyTSK with
    | error e => rfl
    | ok ts =>
      dsimp only
      split
      · rfl
      · exact (indexTipset_eq w ld _ ts).2.1

/-- The calls of one pass: the only tipset fetch among them is the one at the cursor,
and a pass that ends on a stop request issues no call. -/
theorem scanHeight_calls (w : FullNode) (ld : List DealInfo) (m : MinerData) :
    ∃ ext, (scanHeight w ld m).1.calls = m.calls ++ ext ∧
      (∀ h k, Call.ChainGetTipSetByHeight h k ∈ ext → h = m.checkHeight) ∧
      ((scanHeight w ld m).2 = LoopCtl.stop → ext = []) := by
  rw [scanHeight_unfold]
  split
  · exact ⟨[], by simp, by simp, fun _ => rfl⟩
  · cases w.ChainGetTipSetByHeight m.now m.checkHeight EmptyTSK with
    | error e =>
      refine ⟨[Call.ChainGetTipSetByHeight m.checkHeight EmptyTSK], rfl, ?_, by simp⟩
      intro h k hmem
      simp only [List.mem_singleton, Call.ChainGetTipSetByHeight.injEq] at hmem
      exact hmem.1
    | ok ts =>
      dsimp only
      split
      · refine ⟨[Call.ChainGetTipSetByHeight m.checkHeight EmptyTSK], rfl, ?_, by simp⟩
        intro h k hmem
        simp only [List.mem_singleton, Call.ChainGetTipSetByHeight.injEq] at hmem
        exact hmem.1
      · obtain ⟨_, _, _, hns, _, ext, hext, hidx⟩ := indexTipset_eq w ld
          (m.log (Call.ChainGetTipSetByHeight m.checkHeight EmptyTSK)) ts
        refine ⟨Call.ChainGetTipSetByHeight m.checkHeight EmptyTSK ::
          Call.ChainGetParentMessages ts.FirstCid :: ext, ?_, ?_, fun h => absurd h hns⟩
        · rw [hext]
          simp [MinerData.log]
        · intro h k hmem
          rcases List.mem_cons.mp hmem with h1 | h1
          · simp only [Call.ChainGetTipSetByHeight.injEq] at h1
            exact h1.1
          · rcases List.mem_cons.mp h1 with h2 | h2
            · cases h2
            · have := hidx _ h2
              simp [Call.isIndexCall] at this

theorem scanHeight_settles (sn : StaticNode) (stopping : Nat → Bool) (rnd : Nat → Nat)
    (ld : List DealInfo) (m : MinerData)
    (hnext : (scanHeight (sn.toFullNode stopping rnd) ld m).2 = LoopCtl.next) :
    HeightSettled sn ld m.address
      (scanHeight (sn.toFullNode stopping rnd) ld m).1.dataRefs m.checkHeight := by
  intro ts hq hge msg hmsg
  have hq1 : (sn.toFullNode stopping rnd).ChainGetTipSetByHeight m.now m.checkHeight EmptyTSK
      = .ok ts := hq
  rw [scanHeight_unfold] at hnext ⊢
  by_cases hs : (sn.toFullNode stopping rnd).stopping m.now = true
  · rw [if_pos hs] at hnext
    simp at hnext
  · rw [if_neg hs] at hnext ⊢
    rw [hq1] at hnext ⊢
    dsimp only at hnext ⊢
    rw [if_neg hge] at hnext ⊢
    obtain ⟨hd, _, hiff, _⟩ := indexTipset_eq (sn.toFullNode stopping rnd) ld
      (m.log (Call.ChainGetTipSetByHeight m.checkHeight EmptyTSK)) ts
    rw [hd]
    exact indexMessages_settles sn stopping rnd ld ts.Parents _
      ((m.log (Call.ChainGetTipSetByHeight m.checkHeight EmptyTSK)).log
        (Call.ChainGetParentMessages ts.FirstCid)) (hiff.mp hnext) msg hmsg

theorem scanHeight_noop (sn : StaticNode) (stopping : Nat → Bool) (rnd : Nat → Nat)
    (ld : List DealInfo) (m : MinerData)
    (h : HeightSettled sn ld m.address m.dataRefs m.checkHeight) :
    (scanHeight (sn.toFullNode stopping rnd) ld m).1.dataRefs = m.dataRefs := by
  rw [scanHeight_unfold]
  split
  · rfl
  · cases hq : sn.ChainGetTipSetByHeight m.checkHeight EmptyTSK with
    | error e =>
      have hq1 : (sn.toFullNode stopping rnd).ChainGetTipSetByHeight m.now m.checkHeight
          EmptyTSK = .error e := hq
      rw [hq1]
      rfl
    | ok ts =>
      have hq1 : (sn.toFullNode stopping rnd).ChainGetTipSetByHeight m.now m.checkHeight
          EmptyTSK = .ok ts := hq
      rw [hq1]
      dsimp only
      split
      · rfl
      · rename_i hge
        rw [(indexTipset_eq _ ld _ ts).1]
        exact indexMessages_noop sn stopping rnd ld ts.Parents _
          ((m.log (Call.ChainGetTipSetByHeight m.checkHeight EmptyTSK)).log
            (Call.ChainGetParentMessages ts.FirstCid)) (h ts hq hge)

/-- On a static node the cursor after a pass that ends in `next` is determined by
the cursor before it. -/
theorem scanHeight_next_static (sn : StaticNode) (stopping : Nat → Bool) (rnd : Nat → Nat)
    (ld : List DealInfo) (m : MinerData)
    (hnext : (scanHeight (sn.toFullNode stopping rnd) ld m).2 = LoopCtl.next) :
    ∃ ts, sn.ChainGetTipSetByHeight m.checkHeight EmptyTSK = .ok ts ∧
      (scanHeight (sn.toFullNode stopping rnd) ld m).1.checkHeight =
        if ts.Height < m.checkHeight then wrap64 (m.checkHeight + 1)
        else wrap64 (ts.Height + 1) := by
  rw [scanHeight_unfold] at hnext ⊢
  by_cases hs : (sn.toFullNode stopping rnd).stopping m.now = true
  · rw [if_pos hs] at hnext
    simp at hnext
  · rw [if_neg hs] at hnext ⊢
    cases hq : sn.ChainGetTipSetByHeight m.checkHeight EmptyTSK with
    | error e =>
      have hq1 : (sn.toFullNode stopping rnd).ChainGetTipSetByHeight m.now m.checkHeight
          EmptyTSK = .error e := hq
      rw [hq1] at hnext
      simp at hnext
    | ok ts =>
      have hq1 : (sn.toFullNode stopping rnd).ChainGetTipSetByHeight m.now m.checkHeight
          EmptyTSK = .ok ts := hq
      rw [hq1] at hnext ⊢
      dsimp only at hnext ⊢
      refine ⟨ts, rfl, ?_⟩
      by_cases hlt : ts.Height < m.checkHeight
      · rw [if_pos hlt, if_pos hlt]
      · rw [if_neg hlt] at hnext ⊢
        rw [if_neg hlt]
        exact (indexTipset_eq _ ld _ ts).2.2.2.2.1 hnext

/-! ### The scan loop on a static node -/

/-- A scan that returns `nil` on a static node: the records only accumulate, the calls
are appended to the log, and every height at which a tipset was fetched is settled in
the final inventory; when the scan has reached the head, the scan from that height on
is itself a scan that ends in the same state. -/
theorem scanLoop_scanned (sn : StaticNode) (stopping : Nat → Bool) (rnd : Nat → Nat)
    (head : TipSet) (ld : List DealInfo) (fuel : Nat) (m m1 : MinerData)
    (hrun : scanLoop (sn.toFullNode stopping rnd) head ld fuel m = some (m1, Result.ok)) :
    Grows m.dataRefs m1.dataRefs ∧
      ∃ ext, m1.calls = m.calls ++ ext ∧
        ∀ h k, Call.ChainGetTipSetByHeight h k ∈ ext →
          HeightSettled sn ld m.address m1.dataRefs h ∧
            (head.Height ≤ m1.checkHeight →
              ∃ f1 m2, scanLoop (sn.toFullNode stopping rnd) head ld f1 m2 =
                  some (m1, Result.ok) ∧
                m2.checkHeight = h ∧ m2.address = m.address) := by
  induction fuel generalizing m with
  | zero =>
    unfold scanLoop at hrun
    split at hrun
    · simp at hrun
    · simp at hrun
      subst hrun
      exact ⟨grows_refl _, [], by simp, by simp⟩
  | succ fuel ih =>
    have hrun0 := hrun
    unfold scanLoop at hrun
    split at hrun
    · have hsettle := scanHeight_settles sn stopping rnd ld m
      have hgrow := scanHeight_grows (sn.toFullNode stopping rnd) ld m
      have haddr := scanHeight_address (sn.toFullNode stopping rnd) ld m
      obtain ⟨ext1, hext1, htip1, hstop1⟩ := scanHeight_calls (sn.toFullNode stopping rnd) ld m
      rcases hstep : scanHeight (sn.toFullNode stopping rnd) ld m with ⟨m2, ctl⟩
      rw [hstep] at hrun hsettle hgrow haddr hext1 hstop1
      cases ctl with
      | stop =>
        simp at hrun
        subst hrun
        refine ⟨hgrow, ext1, hext1, ?_⟩
        intro h k hmem
        rw [hstop1 rfl] at hmem
        simp at hmem
      | fail e => simp at hrun
      | next =>
        dsimp only at hrun hsettle hgrow haddr hext1
        obtain ⟨hgrow2, ext2, hext2, htip2⟩ := ih m2 hrun
        refine ⟨grows_trans hgrow hgrow2, ext1 ++ ext2, ?_, ?_⟩
        · rw [hext2, hext1, List.append_assoc]
        · intro h k hmem
          rcases List.mem_append.mp hmem with h1 | h1
          · have hh := htip1 h k h1
            subst hh
            exact ⟨heightSettled_mono hgrow2 (hsettle rfl),
              fun _ => ⟨fuel + 1, m, hrun0, rfl, rfl⟩⟩
          · obtain ⟨hs, hex⟩ := htip2 h k h1
            rw [haddr] at hs
            refine ⟨hs, fun hdone => ?_⟩
            obtain ⟨f1, m3, hr3, hc3, ha3⟩ := hex hdone
            exact ⟨f1, m3, hr3, hc3, ha3.trans haddr⟩
    · simp at hrun
      subst hrun
      exact ⟨grows_refl _, [], by simp, by simp⟩

theorem scanLoop_done (w : FullNode) (head : TipSet) (ld : List DealInfo) (fuel : Nat)
    (m m1 : MinerData) (r : Result) (hdone : ¬ m.checkHeight < head.Height)
    (hrun : scanLoop w head ld fuel m = some (m1, r)) : m1 = m := by
  cases fuel with
  | zero =>
    unfold scanLoop at hrun
    rw [if_neg hdone] at hrun
    simp at hrun
    exact hrun.1.symm
  | succ fuel =>
    unfold scanLoop at hrun
    rw [if_neg hdone] at hrun
    simp at hrun
    exact hrun.1.symm

/-- A scan over heights that an earlier scan to the head has settled changes nothing
in an inventory that holds the records of that scan. -/
theorem rescan_noop (sn : StaticNode) (stopping : Nat → Bool) (rnd : Nat → Nat)
    (head : TipSet) (ld : List DealInfo) (fuel : Nat) (m m1 : MinerData)
    (hrun : scanLoop (sn.toFullNode stopping rnd) head ld fuel m = some (m1, Result.ok))
    (hdone : head.Height ≤ m1.checkHeight) :
    ∀ (g : Nat) (n n2 : MinerData) (r : Result), n.checkHeight = m.checkHeight →
      n.address = m.address → Grows m1.dataRefs n.dataRefs →
      scanLoop (sn.toFullNode stopping rnd) head ld g n = some (n2, r) →
      n2.dataRefs = n.dataRefs := by
  induction fuel generalizing m with
  | zero =>
    intro g n n2 r hc _ _ hrun2
    unfold scanLoop at hrun
    split at hrun
    · simp at hrun
    · rename_i hnot
      rw [← hc] at hnot
      rw [scanLoop_done _ head ld g n n2 r hnot hrun2]
  | succ fuel ih =>
    intro g n n2 r hc ha hg hrun2
    unfold scanLoop at hrun
    split at hrun
    · rename_i hloop
      have hsettle := scanHeight_settles sn stopping rnd ld m
      have haddr := scanHeight_address (sn.toFullNode stopping rnd) ld m
      have hcur := scanHeight_cursor (sn.toFullNode stopping rnd) ld m
      have hnx := scanHeight_next_static sn stopping rnd ld m
      rcases hstep : scanHeight (sn.toFullNode stopping rnd) ld m with ⟨m2, ctl⟩
      rw [hstep] at hrun hsettle haddr hcur hnx
      cases ctl with
      | stop =>
        simp at hrun
        subst hrun
        rcases hcur with ⟨h1, _⟩ | ⟨_, h1⟩
        · simp at h1
        · dsimp only at h1 hdone
          omega
      | fail e => simp at hrun
      | next =>
        dsimp only at hrun hsettle haddr hnx
        obtain ⟨hgrow2, _⟩ := scanLoop_scanned sn stopping rnd head ld fuel m2 m1 hrun
        have hset : HeightSettled sn ld n.address n.dataRefs n.checkHeight := by
          rw [ha, hc]
          exact heightSettled_mono (grows_trans hgrow2 hg) (hsettle rfl)
        have hnoop := scanHeight_noop sn stopping rnd ld n hset
        have haddr2 := scanHeight_address (sn.toFullNode stopping rnd) ld n
        have hnx2 := scanHeight_next_static sn stopping rnd ld n
        cases g with
        | zero =>
          unfold scanLoop at hrun2
          rw [hc, if_pos hloop] at hrun2
          simp at hrun2
        | succ g =>
          unfold scanLoop at hrun2
          rw [hc, if_pos hloop] at hrun2
          rcases hstep2 : scanHeight (sn.toFullNode stopping rnd) ld n with ⟨n1, ctl2⟩
          rw [hstep2] at hrun2 hnoop haddr2 hnx2
          dsimp only at hnoop haddr2 hnx2
          cases ctl2 with
          | stop =>
            simp at hrun2
            rw [← hrun2.1]
            exact hnoop
          | fail e =>
            simp at hrun2
            rw [← hrun2.1]
            exact hnoop
          | next =>
            dsimp only at hrun2
            obtain ⟨ts, hq, hm2⟩ := hnx rfl
            obtain ⟨ts2, hq2, hn1⟩ := hnx2 rfl
            rw [hc, hq] at hq2
            cases hq2
            have hc1 : n1.checkHeight = m2.checkHeight := by
              rw [hn1, hm2, hc]
            have := ih m2 hrun g n1 n2 r hc1 (haddr2.trans (ha.trans haddr.symm))
              (by rw [hnoop]; exact hg) hrun2
            rw [this, hnoop]
    · rename_i hnot
      rw [← hc] at hnot
      rw [scanLoop_done _ head ld g n n2 r hnot hrun2]

theorem scanLoop_address (w : FullNode) (head : TipSet) (ld : List DealInfo) (fuel : Nat)
    (m m1 : MinerData) (r : Result) (hrun : scanLoop w head ld fuel m = some (m1, r)) :
    m1.address = m.address := by
  induction fuel generalizing m with
  | zero =>
    unfold scanLoop at hrun
    split at hrun
    · simp at hrun
    · simp at hrun
      rw [hrun.1]
  | succ fuel ih =>
    unfold scanLoop at hrun
    split at hrun
    · have haddr := scanHeight_address w ld m
      rcases hstep : scanHeight w ld m with ⟨m2, ctl⟩
      rw [hstep] at hrun haddr
      cases ctl with
      | next => exact (ih m2 hrun).trans haddr
      | stop =>
        simp at hrun
        rw [← hrun.1]
        exact haddr
      | fail e =>
        simp at hrun
        rw [← hrun.1]
        exact haddr
    · simp at hrun
      rw [hrun.1]

/-- On a static node whose head and local deals can be read, `checkChainData` is the
scan loop started after the two reads. -/
theorem checkChainData_static (sn : StaticNode) (stopping : Nat → Bool) (rnd : Nat → Nat)
    (head : TipSet) (ld : List DealInfo) (hhead : sn.ChainHead = .ok head)
    (hld : sn.ClientListDeals = .ok ld) (fuel : Nat) (m : MinerData) :
    checkChainData (sn.toFullNode stopping rnd) fuel m =
      scanLoop (sn.toFullNode stopping rnd) head ld fuel
        ((m.log Call.ChainHead).log Call.ClientListDeals) := by
  have h1 : (sn.toFullNode stopping rnd).ChainHead m.now = .ok head := hhead
  have h2 : (sn.toFullNode stopping rnd).ClientListDeals (m.log Call.ChainHead).now = .ok ld :=
    hld
  unfold checkChainData
  simp only [h1, h2]

theorem checkChainData_static_ok (sn : StaticNode) (stopping : Nat → Bool) (rnd : Nat → Nat)
    (head : TipSet) (hhead : sn.ChainHead = .ok head) (fuel : Nat) (m m1 : MinerData)
    (hrun : checkChainData (sn.toFullNode stopping rnd) fuel m = some (m1, Result.ok)) :
    ∃ ld, sn.ClientListDeals = .ok ld := by
  cases hld : sn.ClientListDeals with
  | ok ld => exact ⟨ld, rfl⟩
  | error e =>
    have h1 : (sn.toFullNode stopping rnd).ChainHead m.now = .ok head := hhead
    have h2 : (sn.toFullNode stopping rnd).ClientListDeals (m.log Call.ChainHead).now =
        .error e := hld
    unfold checkChainData at hrun
    simp [h1, h2] at hrun

/-- Every height at which a scan that returned `nil` on a static node fetched a tipset
is settled: for every parent message the node returns for that tipset and every deal
id resolved for it whose deal is not self-dealt, the inventory holds the record. -/
theorem checkChainData_settles_scanned (sn : StaticNode) (stopping : Nat → Bool)
    (rnd : Nat → Nat) (head : TipSet) (ld : List DealInfo) (hhead : sn.ChainHead = .ok head)
    (hld : sn.ClientListDeals = .ok ld) (fuel : Nat) (m m1 : MinerData)
    (hrun : checkChainData (sn.toFullNode stopping rnd) fuel m = some (m1, Result.ok))
    (h : Int) (k : TipSetKey)
    (hscanned : Call.ChainGetTipSetByHeight h k ∈ m1.calls.drop m.calls.length) :
    HeightSettled sn ld m.address m1.dataRefs h := by
  rw [checkChainData_static sn stopping rnd head ld hhead hld] at hrun
  obtain ⟨_, ext, hext, htip⟩ := scanLoop_scanned sn stopping rnd head ld fuel _ m1 hrun
  have hcalls : m1.calls = m.calls ++ (Call.ChainHead :: Call.ClientListDeals :: ext) := by
    rw [hext]
    simp [MinerData.log]
  rw [hcalls, List.drop_left] at hscanned
  rcases List.mem_cons.mp hscanned with h1 | h1
  · cases h1
  · rcases List.mem_cons.mp h1 with h2 | h2
    · cases h2
    · exact (htip h k h2).1

/-- C6 (the code departs from the claim): the read of the parent messages of the block
at height 10 fails once; `checkChainData` returns `nil` with the cursor at 11 and an
empty inventory, although the block has a `ProveCommitSector` parent message whose
deal 42 on piece 7 is with miner 5 and not self-dealt for miner 1. -/
theorem checkChainData_misses_unread_messages :
    flakyWorld.ChainGetParentMessages 3 110 = .error "timeout" ∧
      flakyWorld.ChainGetParentMessages 4 110 = .ok [proveCommit 1] ∧
      checkChainData flakyWorld 5 (newMinerData 1) =
        some ({ newMinerData 1 with
                checkHeight := 11
                calls := [Call.ChainHead, Call.ClientListDeals,
                  Call.ChainGetTipSetByHeight 10 EmptyTSK, Call.ChainGetParentMessages 110] },
              Result.ok) ∧
      (isMinerDealed (newMinerData 1) CidUndef 5 7 []).1 = false ∧
      HasRecord (newMinerData 1).dataRefs 7 42 = false := by
  refine ⟨rfl, rfl, ?_⟩
  decide

/-- On a node whose answers do not change, whether `indexDeal` returns an error depends
on the answer of the node for the deal only. -/
theorem indexDeal_result (sn : StaticNode) (stopping : Nat → Bool) (rnd : Nat → Nat)
    (ld : List DealInfo) (ptsk : TipSetKey) (m n : MinerData) (did : DealID) :
    (indexDeal (sn.toFullNode stopping rnd) ld ptsk n did).2 =
      (indexDeal (sn.toFullNode stopping rnd) ld ptsk m did).2 := by
  have key : ∀ m0 : MinerData, (indexDeal (sn.toFullNode stopping rnd) ld ptsk m0 did).2 =
      match sn.StateMarketStorageDeal did ptsk with
      | .error e => some e
      | .ok _ => none := by
    intro m0
    cases hq : sn.StateMarketStorageDeal did ptsk with
    | error e =>
      have hq1 : (sn.toFullNode stopping rnd).StateMarketStorageDeal m0.now did ptsk =
          .error e := hq
      unfold indexDeal
      rw [hq1]
    | ok deal =>
      have hq1 : (sn.toFullNode stopping rnd).StateMarketStorageDeal m0.now did ptsk =
          .ok deal := hq
      unfold indexDeal
      rw [hq1]
      dsimp only
      split
      · rfl
      · split <;> rfl
  rw [key n, key m]

/-- A deal that has been indexed is indexed again without a change of the inventory, as
long as the inventory holds the records it held after the first time. -/
theorem indexDeal_rerun (sn : StaticNode) (stopping : Nat → Bool) (rnd : Nat → Nat)
    (ld : List DealInfo) (ptsk : TipSetKey) (m n : MinerData) (did : DealID)
    (ha : n.address = m.address)
    (hg : Grows (indexDeal (sn.toFullNode stopping rnd) ld ptsk m did).1.dataRefs n.dataRefs) :
    (indexDeal (sn.toFullNode stopping rnd) ld ptsk n did).1.dataRefs = n.dataRefs ∧
      (indexDeal (sn.toFullNode stopping rnd) ld ptsk n did).2 =
        (indexDeal (sn.toFullNode stopping rnd) ld ptsk m did).2 := by
  have hs := indexDeal_settles sn stopping rnd ld ptsk m did
  have hs1 : DealSettled sn ld n.address n.dataRefs ptsk did := by
    rw [ha]
    exact dealSettled_mono hg hs
  exact ⟨indexDeal_noop sn stopping rnd ld ptsk n did hs1,
    indexDeal_result sn stopping rnd ld ptsk m n did⟩

theorem indexDeals_rerun (sn : StaticNode) (stopping : Nat → Bool) (rnd : Nat → Nat)
    (ld : List DealInfo) (ptsk : TipSetKey) (dids : List DealID) (m n : MinerData)
    (ha : n.address = m.address)
    (hg : Grows (indexDeals (sn.toFullNode stopping rnd) ld ptsk m dids).1.dataRefs
      n.dataRefs) :
    (indexDeals (sn.toFullNode stopping rnd) ld ptsk n dids).1.dataRefs = n.dataRefs ∧
      (indexDeals (sn.toFullNode stopping rnd) ld ptsk n dids).2 =
        (indexDeals (sn.toFullNode stopping rnd) ld ptsk m dids).2 := by
  induction dids generalizing m n with
  | nil => exact ⟨rfl, rfl⟩
  | cons did rest ih =>
    have hfm := (indexDeal_frame (sn.toFullNode stopping rnd) ld ptsk m did).address
    have hfn := (indexDeal_frame (sn.toFullNode stopping rnd) ld ptsk n did).address
    have hre := indexDeal_rerun sn stopping rnd ld ptsk m n did ha
    have hgr := indexDeals_grows (sn.toFullNode stopping rnd) ld ptsk rest
    unfold indexDeals at hg ⊢
    rcases hm : indexDeal (sn.toFullNode stopping rnd) ld ptsk m did with ⟨ma, _ | e⟩
    · rw [hm] at hg hfm hre
      dsimp only at hg hfm hre
      obtain ⟨hd, hr⟩ := hre (grows_trans (hgr ma) hg)
      rcases hn : indexDeal (sn.toFullNode stopping rnd) ld ptsk n did with ⟨na, _ | e⟩
      · rw [hn] at hd hfn
        dsimp only at hd hfn ⊢
        have h1 := ih ma na (by rw [hfn, hfm, ha]) (by rw [hd]; exact hg)
        exact ⟨h1.1.trans hd, h1.2⟩
      · rw [hn] at hr
        cases hr
    · rw [hm] at hg hre
      dsimp only at hg hre
      obtain ⟨hd, hr⟩ := hre hg
      rcases hn : indexDeal (sn.toFullNode stopping rnd) ld ptsk n did with ⟨na, _ | e1⟩
      · rw [hn] at hr
        cases hr
      · rw [hn] at hd hr
        exact ⟨hd, hr⟩

theorem indexMessage_rerun (sn : StaticNode) (stopping : Nat → Bool) (rnd : Nat → Nat)
    (ld : List DealInfo) (ptsk : TipSetKey) (m n : MinerData) (msg : Message)
    (ha : n.address = m.address)
    (hg : Grows (indexMessage (sn.toFullNode stopping rnd) ld ptsk m msg).1.dataRefs
      n.dataRefs) :
    (indexMessage (sn.toFullNode stopping rnd) ld ptsk n msg).1.dataRefs = n.dataRefs ∧
      (indexMessage (sn.toFullNode stopping rnd) ld ptsk n msg).2 =
        (indexMessage (sn.toFullNode stopping rnd) ld ptsk m msg).2 := by
  by_cases hmeth : msg.Method = MethodsMiner_ProveCommitSector
  · cases hpar : sn.UnmarshalCBOR msg.Params with
    | none =>
      rw [indexMessage_skip _ ld ptsk n msg (Or.inr hpar),
        indexMessage_skip _ ld ptsk m msg (Or.inr hpar)]
      exact ⟨rfl, rfl⟩
    | some params =>
      rcases indexMessage_static sn stopping rnd ld ptsk m msg params hmeth hpar with
        ⟨dids, m1, hres, hf, hd, heq⟩ | ⟨e, hres, hr, hd⟩
      · rcases indexMessage_static sn stopping rnd ld ptsk n msg params hmeth hpar with
          ⟨dids1, n1, hres1, hf1, hd1, heq1⟩ | ⟨e1, hres1, _, _⟩
        · rw [hres] at hres1
          cases hres1
          rw [heq] at hg ⊢
          rw [heq1]
          have h1 := indexDeals_rerun sn stopping rnd ld ptsk dids m1 n1
            (by rw [hf1.address, hf.address, ha]) (by rw [hd1]; exact hg)
          exact ⟨h1.1.trans hd1, h1.2⟩
        · rw [hres] at hres1
          cases hres1
      · rcases indexMessage_static sn stopping rnd ld ptsk n msg params hmeth hpar with
          ⟨dids1, n1, hres1, _, _, _⟩ | ⟨e1, hres1, hr1, hd1⟩
        · rw [hres] at hres1
          cases hres1
        · rw [hres] at hres1
          cases hres1
          exact ⟨hd1, hr1.trans hr.symm⟩
  · rw [indexMessage_skip _ ld ptsk n msg (Or.inl hmeth),
      indexMessage_skip _ ld ptsk m msg (Or.inl hmeth)]
    exact ⟨rfl, rfl⟩

theorem indexMessages_rerun (sn : StaticNode) (stopping : Nat → Bool) (rnd : Nat → Nat)
    (ld : List DealInfo) (ptsk : TipSetKey) (msgs : List Message) (m n : MinerData)
    (ha : n.address = m.address)
    (hg : Grows (indexMessages (sn.toFullNode stopping rnd) ld ptsk m msgs).1.dataRefs
      n.dataRefs) :
    (indexMessages (sn.toFullNode stopping rnd) ld ptsk n msgs).1.dataRefs = n.dataRefs ∧
      (indexMessages (sn.toFullNode stopping rnd) ld ptsk n msgs).2 =
        (indexMessages (sn.toFullNode stopping rnd) ld ptsk m msgs).2 := by
  induction msgs generalizing m n with
  | nil => exact ⟨rfl, rfl⟩
  | cons msg rest ih =>
    have hfm := (indexMessage_frame (sn.toFullNode stopping rnd) ld ptsk m msg).address
    have hfn := (indexMessage_frame (sn.toFullNode stopping rnd) ld ptsk n msg).address
    have hre := indexMessage_rerun sn stopping rnd ld ptsk m n msg ha
    have hgr := indexMessages_grows (sn.toFullNode stopping rnd) ld ptsk rest
    unfold indexMessages at hg ⊢
    rcases hm : indexMessage (sn.toFullNode stopping rnd) ld ptsk m msg with ⟨ma, _ | e⟩
    · rw [hm] at hg hfm hre
      dsimp only at hg hfm hre
      obtain ⟨hd, hr⟩ := hre (grows_trans (hgr ma) hg)
      rcases hn : indexMessage (sn.toFullNode stopping rnd) ld ptsk n msg with ⟨na, _ | e⟩
      · rw [hn] at hd hfn
        dsimp only at hd hfn ⊢
        have h1 := ih ma na (by rw [hfn, hfm, ha]) (by rw [hd]; exact hg)
        exact ⟨h1.1.trans hd, h1.2⟩
      · rw [hn] at hr
        cases hr
    · rw [hm] at hg hre
      dsimp only at hg hre
      obtain ⟨hd, hr⟩ := hre hg
      rcases hn : indexMessage (sn.toFullNode stopping rnd) ld ptsk n msg with ⟨na, _ | e1⟩
      · rw [hn] at hr
        cases hr
      · rw [hn] at hd hr
        exact ⟨hd, hr⟩


/-- A height at which a pass of the scan loop has fetched a tipset is passed again
without a change of the inventory, whether the first pass went on or returned an error,
as long as the inventory holds the records it held after the first pass. -/
theorem scanHeight_rerun (sn : StaticNode) (stopping : Nat → Bool) (rnd : Nat → Nat)
    (ld : List DealInfo) (m n : MinerData)
    (hns : (scanHeight (sn.toFullNode stopping rnd) ld m).2 ≠ LoopCtl.stop)
    (ha : n.address = m.address) (hc : n.checkHeight = m.checkHeight)
    (hg : Grows (scanHeight (sn.toFullNode stopping rnd) ld m).1.dataRefs n.dataRefs) :
    (scanHeight (sn.toFullNode stopping rnd) ld n).1.dataRefs = n.dataRefs := by
  rw [scanHeight_unfold] at hns hg ⊢
  cases hsm : (sn.toFullNode stopping rnd).stopping m.now with
  | true =>
    rw [hsm] at hns
    exact absurd rfl hns
  | false =>
    rw [hsm] at hg
    simp only [Bool.false_eq_true, if_false] at hg
    split
    · rfl
    · have hqn : (sn.toFullNode stopping rnd).ChainGetTipSetByHeight n.now n.checkHeight
          EmptyTSK = sn.ChainGetTipSetByHeight m.checkHeight EmptyTSK := by
        rw [hc]
        rfl
      have hqm : (sn.toFullNode stopping rnd).ChainGetTipSetByHeight m.now m.checkHeight
          EmptyTSK = sn.ChainGetTipSetByHeight m.checkHeight EmptyTSK := rfl
      rw [hqn]
      rw [hqm] at hg
      cases hq : sn.ChainGetTipSetByHeight m.checkHeight EmptyTSK with
      | error e => rfl
      | ok ts =>
        rw [hq] at hg
        dsimp only at hg ⊢
        by_cases hlt : ts.Height < m.checkHeight
        · have hlt1 : ts.Height < n.checkHeight := by
            rw [hc]
            exact hlt
          simp only [hlt1, if_true]
          rfl
        · have hlt1 : ¬ ts.Height < n.checkHeight := by
            rw [hc]
            exact hlt
          simp only [hlt, if_false] at hg
          simp only [hlt1, if_false]
          rw [(indexTipset_eq _ ld _ ts).1] at hg ⊢
          exact (indexMessages_rerun sn stopping rnd ld ts.Parents _
            ((m.log (Call.ChainGetTipSetByHeight m.checkHeight EmptyTSK)).log
              (Call.ChainGetParentMessages ts.FirstCid))
            ((n.log (Call.ChainGetTipSetByHeight n.checkHeight EmptyTSK)).log
              (Call.ChainGetParentMessages ts.FirstCid)) ha hg).1

/-- When the second pass over a height goes on, the first one did. -/
theorem scanHeight_rerun_next (sn : StaticNode) (stopping : Nat → Bool) (rnd : Nat → Nat)
    (ld : List DealInfo) (m n : MinerData)
    (hns : (scanHeight (sn.toFullNode stopping rnd) ld m).2 ≠ LoopCtl.stop)
    (ha : n.address = m.address) (hc : n.checkHeight = m.checkHeight)
    (hg : Grows (scanHeight (sn.toFullNode stopping rnd) ld m).1.dataRefs n.dataRefs)
    (hnext : (scanHeight (sn.toFullNode stopping rnd) ld n).2 = LoopCtl.next) :
    (scanHeight (sn.toFullNode stopping rnd) ld m).2 = LoopCtl.next := by
  have hsm : (sn.toFullNode stopping rnd).stopping m.now = false := by
    cases h : (sn.toFullNode stopping rnd).stopping m.now with
    | false => rfl
    | true =>
      rw [scanHeight_unfold, h] at hns
      exact absurd rfl hns
  have hqn : (sn.toFullNode stopping rnd).ChainGetTipSetByHeight n.now n.checkHeight
      EmptyTSK = sn.ChainGetTipSetByHeight m.checkHeight EmptyTSK := by
    rw [hc]
    rfl
  have hqm : (sn.toFullNode stopping rnd).ChainGetTipSetByHeight m.now m.checkHeight
      EmptyTSK = sn.ChainGetTipSetByHeight m.checkHeight EmptyTSK := rfl
  rw [scanHeight_unfold] at hnext hg ⊢
  rw [hsm, hqm] at hg ⊢
  simp only [Bool.false_eq_true, if_false] at hg ⊢
  rw [hqn] at hnext
  split at hnext
  · cases hnext
  · cases hq : sn.ChainGetTipSetByHeight m.checkHeight EmptyTSK with
    | error e =>
      rw [hq] at hnext
      cases hnext
    | ok ts =>
      rw [hq] at hnext hg
      dsimp only at hnext hg ⊢
      by_cases hlt : ts.Height < m.checkHeight
      · simp only [hlt, if_true]
      · have hlt1 : ¬ ts.Height < n.checkHeight := by
          rw [hc]
          exact hlt
        simp only [hlt, if_false] at hg ⊢
        simp only [hlt1, if_false] at hnext
        rw [(indexTipset_eq _ ld _ ts).1] at hg
        have hre := indexMessages_rerun sn stopping rnd ld ts.Parents _
          ((m.log (Call.ChainGetTipSetByHeight m.checkHeight EmptyTSK)).log
            (Call.ChainGetParentMessages ts.FirstCid))
          ((n.log (Call.ChainGetTipSetByHeight n.checkHeight EmptyTSK)).log
            (Call.ChainGetParentMessages ts.FirstCid)) ha hg
        have hn := (indexTipset_eq _ ld _ ts).2.2.1.mp hnext
        exact (indexTipset_eq _ ld _ ts).2.2.1.mpr (hre.2.symm.trans hn)

/-- A scan on a node whose answers do not change, whatever its result: the records
only accumulate, the calls are appended to the log, and every height at which a tipset
was fetched is passed again without a change of the inventory, in every state whose
inventory holds the records the scan left; the scan from that height on is itself a
scan that ends in the same state with the same result. -/
theorem scanLoop_rescan (sn : StaticNode) (stopping : Nat → Bool) (rnd : Nat → Nat)
    (head : TipSet) (ld : List DealInfo) (fuel : Nat) (m m1 : MinerData) (r : Result)
    (hrun : scanLoop (sn.toFullNode stopping rnd) head ld fuel m = some (m1, r)) :
    Grows m.dataRefs m1.dataRefs ∧
      ∃ ext, m1.calls = m.calls ++ ext ∧
        ∀ h k, Call.ChainGetTipSetByHeight h k ∈ ext →
          (∀ n : MinerData, n.address = m.address → n.checkHeight = h →
            Grows m1.dataRefs n.dataRefs →
            (scanHeight (sn.toFullNode stopping rnd) ld n).1.dataRefs = n.dataRefs) ∧
          ∃ f1 m3, scanLoop (sn.toFullNode stopping rnd) head ld f1 m3 = some (m1, r) ∧
            m3.checkHeight = h ∧ m3.address = m.address := by
  induction fuel generalizing m with
  | zero =>
    unfold scanLoop at hrun
    split at hrun
    · simp at hrun
    · simp at hrun
      rw [← hrun.1]
      exact ⟨grows_refl _, [], by simp, by simp⟩
  | succ fuel ih =>
    have hrun0 := hrun
    unfold scanLoop at hrun
    split at hrun
    · have hgrow := scanHeight_grows (sn.toFullNode stopping rnd) ld m
      have haddr := scanHeight_address (sn.toFullNode stopping rnd) ld m
      have hre := scanHeight_rerun sn stopping rnd ld m
      obtain ⟨ext1, hext1, htip1, hstop1⟩ := scanHeight_calls (sn.toFullNode stopping rnd) ld m
      rcases hstep : scanHeight (sn.toFullNode stopping rnd) ld m with ⟨m2, ctl⟩
      rw [hstep] at hrun hgrow haddr hext1 hstop1 hre
      cases ctl with
      | stop =>
        simp at hrun
        rw [← hrun.1]
        refine ⟨hgrow, ext1, hext1, ?_⟩
        intro h k hmem
        rw [hstop1 rfl] at hmem
        simp at hmem
      | fail e =>
        simp at hrun
        rw [← hrun.1, ← hrun.2] at hrun0
        rw [← hrun.1]
        refine ⟨hgrow, ext1, hext1, ?_⟩
        intro h k hmem
        refine ⟨fun n ha hc hg => hre n (by simp) ha (hc.trans (htip1 h k hmem)) hg,
          fuel + 1, m, ?_, (htip1 h k hmem).symm, rfl⟩
        rw [← hrun.2]
        exact hrun0
      | next =>
        dsimp only at hrun hgrow haddr hext1 hre
        obtain ⟨hgrow2, ext2, hext2, htip2⟩ := ih m2 hrun
        refine ⟨grows_trans hgrow hgrow2, ext1 ++ ext2, ?_, ?_⟩
        · rw [hext2, hext1, List.append_assoc]
        · intro h k hmem
          rcases List.mem_append.mp hmem with h1 | h1
          · exact ⟨fun n ha hc hg =>
                hre n (by simp) ha (hc.trans (htip1 h k h1)) (grows_trans hgrow2 hg),
              fuel + 1, m, hrun0, (htip1 h k h1).symm, rfl⟩
          · obtain ⟨hq, f1, m3, hrun3, hc3, ha3⟩ := htip2 h k h1
            exact ⟨fun n ha hc hg => hq n (ha.trans haddr.symm) hc hg,
              f1, m3, hrun3, hc3, ha3.trans haddr⟩
    · simp at hrun
      rw [← hrun.1]
      exact ⟨grows_refl _, [], by simp, by simp⟩

/-- After a scan that was not cut short by a stop request (it returned an error, or
`nil` with the cursor at or above the head), a scan from the same height on the same
node leaves the inventory as it is, in every state whose inventory holds the records
the first scan left. -/
theorem rescan_ended (sn : StaticNode) (stopping : Nat → Bool) (rnd : Nat → Nat)
    (head : TipSet) (ld : List DealInfo) (fuel : Nat) (m m1 : MinerData) (r : Result)
    (hrun : scanLoop (sn.toFullNode stopping rnd) head ld fuel m = some (m1, r))
    (hend : r = Result.ok → head.Height ≤ m1.checkHeight) :
    ∀ (g : Nat) (n n2 : MinerData) (r2 : Result), n.checkHeight = m.checkHeight →
      n.address = m.address → Grows m1.dataRefs n.dataRefs →
      scanLoop (sn.toFullNode stopping rnd) head ld g n = some (n2, r2) →
      n2.dataRefs = n.dataRefs := by
  induction fuel generalizing m with
  | zero =>
    intro g n n2 r2 hc _ _ hrun2
    unfold scanLoop at hrun
    split at hrun
    · simp at hrun
    · rename_i hnot
      rw [← hc] at hnot
      rw [scanLoop_done _ head ld g n n2 r2 hnot hrun2]
  | succ fuel ih =>
    intro g n n2 r2 hc ha hg hrun2
    unfold scanLoop at hrun
    split at hrun
    · rename_i hloop
      have haddr := scanHeight_address (sn.toFullNode stopping rnd) ld m
      have hcur := scanHeight_cursor (sn.toFullNode stopping rnd) ld m
      have hnx := scanHeight_next_static sn stopping rnd ld m
      have hre := scanHeight_rerun sn stopping rnd ld m n
      have hrn := scanHeight_rerun_next sn stopping rnd ld m n
      rcases hstep : scanHeight (sn.toFullNode stopping rnd) ld m with ⟨m2, ctl⟩
      rw [hstep] at hrun haddr hcur hnx hre hrn
      have haddr2 := scanHeight_address (sn.toFullNode stopping rnd) ld n
      have hnx2 := scanHeight_next_static sn stopping rnd ld n
      cases ctl with
      | stop =>
        simp at hrun
        have hdone := hend hrun.2.symm
        rw [← hrun.1] at hdone
        rcases hcur with ⟨h1, _⟩ | ⟨_, h1⟩
        · simp at h1
        · dsimp only at h1 hdone
          omega
      | fail e =>
        simp at hrun
        rw [← hrun.1] at hg
        have hnoop := hre (by simp) ha hc hg
        cases g with
        | zero =>
          unfold scanLoop at hrun2
          rw [hc, if_pos hloop] at hrun2
          simp at hrun2
        | succ g =>
          unfold scanLoop at hrun2
          rw [hc, if_pos hloop] at hrun2
          rcases hstep2 : scanHeight (sn.toFullNode stopping rnd) ld n with ⟨n1, ctl2⟩
          rw [hstep2] at hrun2 hnoop hrn
          dsimp only at hnoop
          cases ctl2 with
          | stop =>
            simp at hrun2
            rw [← hrun2.1]
            exact hnoop
          | fail e2 =>
            simp at hrun2
            rw [← hrun2.1]
            exact hnoop
          | next =>
            have hbad := hrn (by simp) ha hc hg rfl
            cases hbad
      | next =>
        dsimp only at hrun haddr hnx
        obtain ⟨hgrow2, _⟩ := scanLoop_rescan sn stopping rnd head ld fuel m2 m1 r hrun
        have hnoop := hre (by simp) ha hc (grows_trans hgrow2 hg)
        cases g with
        | zero =>
          unfold scanLoop at hrun2
          rw [hc, if_pos hloop] at hrun2
          simp at hrun2
        | succ g =>
          unfold scanLoop at hrun2
          rw [hc, if_pos hloop] at hrun2
          rcases hstep2 : scanHeight (sn.toFullNode stopping rnd) ld n with ⟨n1, ctl2⟩
          rw [hstep2] at hrun2 hnoop haddr2 hnx2
          dsimp only at hnoop haddr2 hnx2
          cases ctl2 with
          | stop =>
            simp at hrun2
            rw [← hrun2.1]
            exact hnoop
          | fail e =>
            simp at hrun2
            rw [← hrun2.1]
            exact hnoop
          | next =>
            dsimp only at hrun2
            obtain ⟨ts, hq, hm2⟩ := hnx rfl
            obtain ⟨ts2, hq2, hn1⟩ := hnx2 rfl
            rw [hc, hq] at hq2
            cases hq2
            have hc1 : n1.checkHeight = m2.checkHeight := by
              rw [hn1, hm2, hc]
            have := ih m2 hrun g n1 n2 r2 hc1 (haddr2.trans (ha.trans haddr.symm))
              (by rw [hnoop]; exact hg) hrun2
            rw [this, hnoop]
    · rename_i hnot
      rw [← hc] at hnot
      rw [scanLoop_done _ head ld g n n2 r2 hnot hrun2]

/-- C8, as the code has it: in its first round the driver loop of a fresh replicator
scans height 10 and stores the record of deal 42 under piece 7, the retrieval scheduler
leaves the inventory as it is, and the deal scheduler, finding that the local miner
serves the piece, removes piece 7 from the Piece Inventory. With the cursor reset to the
scanned height 10, `checkChainData` on the same chain and the same local-deal list
appends the record of deal 42 to a new entry of piece 7: the list of deal ids of the
piece is not the one before the re-scan. -/
theorem rescan_after_removal_appends :
    checkChainData servedChainWorld 5 (newMinerData 1) = some (servedScanned, Result.ok) ∧
      servedScanned.checkHeight = 11 ∧
      Call.ChainGetTipSetByHeight 10 EmptyTSK ∈ servedScanned.calls ∧
      (servedScanned.dataRefs.Get 7).map (fun p => p.dealDatas.map (fun d => d.dealID)) =
        some [42] ∧
      (retrieveChainData servedChainWorld servedScanned).2 = Result.ok ∧
      servedQueried.dataRefs = servedScanned.dataRefs ∧
      (dealChainData servedChainWorld servedQueried).2 = Result.ok ∧
      Reachable servedChainWorld servedDealt ∧
      (servedDealt.dataRefs.Get 7).map (fun p => p.dealDatas.map (fun d => d.dealID)) =
        none ∧
      (checkChainData servedChainWorld 5 { servedDealt with checkHeight := 10 }).map
          (fun p => ((p.1.dataRefs.Get 7).map
            (fun q => q.dealDatas.map (fun d => d.dealID)), p.2)) =
        some (some [42], Result.ok) := by
  have hrun : checkChainData servedChainWorld 5 (newMinerData 1) =
      some (servedScanned, Result.ok) := by decide
  refine ⟨hrun, by decide, by decide, by decide, by decide, by decide, by decide, ?_,
    by decide, by decide⟩
  exact Reachable.deal _
    (Reachable.retrieve _ (Reachable.check _ 5 _ Result.ok (Reachable.init 1) hrun))

/-- A call after a scan that a stop request cut short goes on to the heights that scan
never fetched: the first scan stops after height 10 with deal 42 under piece 7, and the
next call, from height 10 as from height 11, stores deal 43 of height 11. -/
theorem scan_after_stop_goes_on :
    checkChainData interruptedWorld 5 (newMinerData 1) =
        some (interruptedScanned, Result.ok) ∧
      interruptedScanned.checkHeight = 11 ∧
      Call.ChainGetTipSetByHeight 11 EmptyTSK ∉ interruptedScanned.calls ∧
      (interruptedScanned.dataRefs.Get 7).map
          (fun p => p.dealDatas.map (fun d => d.dealID)) = some [42] ∧
      (checkChainData interruptedWorld 5 interruptedScanned).map
          (fun p => ((p.1.dataRefs.Get 7).map
            (fun q => q.dealDatas.map (fun d => d.dealID)), p.2)) =
        some (some [42, 43], Result.ok) ∧
      (checkChainData interruptedWorld 5 { interruptedScanned with checkHeight := 10 }).map
          (fun p => ((p.1.dataRefs.Get 7).map
            (fun q => q.dealDatas.map (fun d => d.dealID)), p.2)) =
        some (some [42, 43], Result.ok) := by
  decide

/-- C8, amended: on a node whose answers do not change, let a call of `checkChainData`,
whatever its result, have fetched a tipset at the height `h` and left the Piece
Inventory within the capacity of the cache, and let `n` be a later state of the same
miner with the cursor reset to `h` whose inventory still holds every record that call
left. Then the pass of the scan loop over `h` leaves the inventory as it is; when the
first call was not cut short by a stop request (it returned an error, or `nil` with the
cursor at or above the head), the whole second call leaves the inventory as it is; and
in every case no entry holds a deal id twice after the second call. -/
theorem rescan_appends_nothing (sn : StaticNode) (stopping : Nat → Bool) (rnd : Nat → Nat)
    (head : TipSet) (ld : List DealInfo) (hhead : sn.ChainHead = .ok head)
    (hld : sn.ClientListDeals = .ok ld) (fuel1 : Nat) (m0 m1 : MinerData) (r1 : Result)
    (h : Int)
    (hrun1 : checkChainData (sn.toFullNode stopping rnd) fuel1 m0 = some (m1, r1))
    (_hcap : m1.dataRefs.Len ≤ ARCCapacity)
    (hscanned : Call.ChainGetTipSetByHeight h EmptyTSK ∈ m1.calls.drop m0.calls.length)
    (n : MinerData) (haddr : n.address = m0.address) (hcur : n.checkHeight = h)
    (hkeep : Grows m1.dataRefs n.dataRefs) (hinv : InventoryOK n.dataRefs) :
    (scanHeight (sn.toFullNode stopping rnd) ld n).1.dataRefs = n.dataRefs ∧
      ((r1 = Result.ok → head.Height ≤ m1.checkHeight) →
        ∀ fuel2 m2 r2, checkChainData (sn.toFullNode stopping rnd) fuel2 n = some (m2, r2) →
          m2.dataRefs = n.dataRefs) ∧
      (∀ fuel2 m2 r2, checkChainData (sn.toFullNode stopping rnd) fuel2 n = some (m2, r2) →
        InventoryOK m2.dataRefs) := by
  have hrun1s := hrun1
  rw [checkChainData_static sn stopping rnd head ld hhead hld] at hrun1s
  obtain ⟨_, ext, hext, hquiet⟩ := scanLoop_rescan sn stopping rnd head ld fuel1 _ m1 r1 hrun1s
  have hcalls : m1.calls = m0.calls ++ (Call.ChainHead :: Call.ClientListDeals :: ext) := by
    rw [hext]
    simp [MinerData.log]
  rw [hcalls, List.drop_left] at hscanned
  have hmem : Call.ChainGetTipSetByHeight h EmptyTSK ∈ ext := by
    rcases List.mem_cons.mp hscanned with h1 | h1
    · cases h1
    · rcases List.mem_cons.mp h1 with h2 | h2
      · cases h2
      · exact h2
  obtain ⟨hpass, f1, m3, hrun3, hc3, ha3⟩ := hquiet h EmptyTSK hmem
  refine ⟨hpass n haddr hcur hkeep, ?_,
    fun fuel2 m2 r2 hrun2 => checkChainData_inventoryOK _ fuel2 n m2 r2 hinv hrun2⟩
  intro hend fuel2 m2 r2 hrun2
  rw [checkChainData_static sn stopping rnd head ld hhead hld] at hrun2
  exact rescan_ended sn stopping rnd head ld f1 m3 m1 r1 hrun3 hend fuel2
    ((n.log Call.ChainHead).log Call.ClientListDeals) m2 r2
    (hcur.trans hc3.symm) (haddr.trans ha3.symm) hkeep hrun2

theorem rescan_appends_nothing_witness :
    (scanHeight interruptedWorld [] { interruptedScanned with checkHeight := 10 }).1.dataRefs =
        interruptedScanned.dataRefs ∧
      twoDealRescanned.dataRefs = twoDealScanned.dataRefs ∧
      InventoryOK twoDealRescanned.dataRefs :=
  ⟨(rescan_appends_nothing twoDealNode (fun t => decide (t = 6)) zeroRand (blockAt 12 12) []
      rfl rfl 5 (newMinerData 1) interruptedScanned Result.ok 10 (by decide) (by decide)
      (by decide) { interruptedScanned with checkHeight := 10 } rfl rfl (grows_refl _)
      (by decide)).1,
    (rescan_appends_nothing twoDealNode neverStopping zeroRand (blockAt 12 12) []
      rfl rfl 5 (newMinerData 1) twoDealScanned Result.ok 10 (by decide) (by decide)
      (by decide) { twoDealScanned with checkHeight := 10 } rfl rfl (grows_refl _)
      (by decide)).2.1 (fun _ => by decide) 5 twoDealRescanned Result.ok (by decide),
    (rescan_appends_nothing twoDealNode neverStopping zeroRand (blockAt 12 12) []
      rfl rfl 5 (newMinerData 1) twoDealScanned Result.ok 10 (by decide) (by decide)
      (by decide) { twoDealScanned with checkHeight := 10 } rfl rfl (grows_refl _)
      (by decide)).2.2 5 twoDealRescanned Result.ok (by decide)⟩

/-! ### Outcomes of a pass of the deal scheduler -/

theorem log_now2 (m : MinerData) (a b : Call) : ((m.log a).log b).now = m.now + 2 := by
  simp [MinerData.log, MinerData.now]

theorem log_now3 (m : MinerData) (a b c : Call) : (((m.log a).log b).log c).now = m.now + 3 := by
  simp [MinerData.log, MinerData.now]

/-- Every pass of the candidate scan of the deal scheduler is one of the outcomes. -/
theorem dealCandidate_outcome (w : FullNode) (m : MinerData) (rk : Cid) :
    DealOutcome w m rk (dealCandidate w m rk) := by
  unfold dealCandidate
  cases hg : m.dataRefs.Get rk with
  | none => exact DealOutcome.missing hg
  | some data =>
    dsimp only
    cases hd : data.dealDatas with
    | nil => exact DealOutcome.noRecord data hg hd
    | cons d rest =>
      dsimp only
      cases hl : w.ClientHasLocal m.now d.dataRef.RootCID with
      | error e => exact DealOutcome.probeFailed data d rest e hg hd hl
      | ok has =>
        cases has with
        | false => exact DealOutcome.notLocal data d rest hg hd hl
        | true =>
          have hc0 : (m.log (Call.ClientHasLocal d.dataRef.RootCID)).deals = m.deals := rfl
          have ha0 : (m.log (Call.ClientHasLocal d.dataRef.RootCID)).address = m.address := rfl
          simp only [Bool.not_true, Bool.false_eq_true, if_false, hc0, ha0, log_now]
          cases hc : m.deals.Contains rk with
          | true => exact DealOutcome.dealing data d rest hg hd hl hc
          | false =>
            simp only [Bool.false_eq_true, if_false]
            cases ho : w.ClientMinerQueryOffer (m.now + 1) m.address d.dataRef.RootCID with
            | error e => exact DealOutcome.offerFailed data d rest e hg hd hl hc ho
            | ok offer =>
              dsimp only
              by_cases he : offer.Err = ""
              · rw [if_pos he]
                exact DealOutcome.served data d rest offer hg hd hl hc ho he
              · rw [if_neg he]
                have ha1 : ((m.log (Call.ClientHasLocal d.dataRef.RootCID)).log
                    (Call.ClientMinerQueryOffer m.address d.dataRef.RootCID)).address =
                    m.address := rfl
                simp only [ha1, log_now2]
                cases hi : w.StateMinerInfo (m.now + 2) m.address EmptyTSK with
                | error e => exact DealOutcome.infoFailed data d rest offer e hg hd hl hc ho he hi
                | ok mi =>
                  dsimp only
                  cases hp : mi.PeerId with
                  | none => exact DealOutcome.noPeer data d rest offer mi hg hd hl hc ho he hi hp
                  | some peerId =>
                    dsimp only
                    by_cases hs : peerId = "SETME"
                    · rw [if_pos hs]
                      rw [hs] at hp
                      exact DealOutcome.uninitialized data d rest offer mi hg hd hl hc ho he hi hp
                    · rw [if_neg hs]
                      have ha2 : (((m.log (Call.ClientHasLocal d.dataRef.RootCID)).log
                          (Call.ClientMinerQueryOffer m.address d.dataRef.RootCID)).log
                          (Call.StateMinerInfo m.address EmptyTSK)).address = m.address := rfl
                      simp only [ha2, log_now3]
                      cases hr : w.ClientStartDeal (m.now + 3) (startDealParams m.address d) with
                      | error e =>
                        have hr1 : w.ClientStartDeal (m.now + 3)
                            { Data :=
                                { TransferType := TransferType.TTGraphsync
                                  Root := d.dataRef.RootCID
                                  Expert := d.dataRef.Expert }
                              Wallet := AddressUndef
                              Miner := m.address
                              FastRetrieval := true } = .error e := hr
                        rw [hr1]
                        exact DealOutcome.startFailed data d rest offer mi peerId e
                          hg hd hl hc ho he hi hp hs hr
                      | ok dealID =>
                        have hr1 : w.ClientStartDeal (m.now + 3)
                            { Data :=
                                { TransferType := TransferType.TTGraphsync
                                  Root := d.dataRef.RootCID
                                  Expert := d.dataRef.Expert }
                              Wallet := AddressUndef
                              Miner := m.address
                              FastRetrieval := true } = .ok dealID := hr
                        rw [hr1]
                        have hout := DealOutcome.started data d rest offer mi peerId dealID
                          hg hd hl hc ho he hi hp hs hr
                        dsimp only
                        split
                        · rename_i hlen
                          have hlen1 : (m.deals.Add rk dealID).Len > DealParallelNum := hlen
                          rw [if_pos hlen1] at hout
                          exact hout
                        · rename_i hlen
                          have hlen1 : ¬ (m.deals.Add rk dealID).Len > DealParallelNum := hlen
                          rw [if_neg hlen1] at hout
                          exact hout

/-! ### Lookups after a removal -/

theorem lookup_filter {V : Type} (k k1 : Cid) (l : List (Cid × V)) :
    ARCCache.lookup k1 (l.filter (fun e => decide (e.1 ≠ k))) =
      if k1 = k then none else ARCCache.lookup k1 l := by
  induction l with
  | nil => simp [ARCCache.lookup]
  | cons e rest ih =>
    obtain ⟨k2, v2⟩ := e
    by_cases h2 : k2 = k
    · subst h2
      simp only [List.filter, ne_eq, not_true_eq_false, decide_False, ih]
      by_cases h1 : k1 = k2
      · simp [h1]
      · have h3 : ¬ k2 = k1 := fun h => h1 h.symm
        simp [h1, h3, ARCCache.lookup]
    · simp only [List.filter, ne_eq, h2, not_false_eq_true, decide_True, ARCCache.lookup, ih]
      by_cases h1 : k1 = k
      · have h3 : ¬ k2 = k1 := fun h => h2 (h.trans h1)
        simp [h1, h3]
        intro h4
        exact absurd h4 h2
      · simp [h1]

theorem get_Remove {V : Type} (c : ARCCache V) (k k1 : Cid) :
    (c.Remove k).Get k1 = if k1 = k then none else c.Get k1 :=
  lookup_filter k k1 c.entries

theorem get_overwrite {V : Type} (c : ARCCache V) (k k1 : Cid) (v : V) :
    (c.overwrite k v).Get k1 = if k1 = k then (c.Get k).map (fun _ => v) else c.Get k1 :=
  lookup_replace k k1 v c.entries

theorem length_replace {V : Type} (k : Cid) (v : V) (l : List (Cid × V)) :
    (ARCCache.replace k v l).length = l.length := by
  induction l with
  | nil => rfl
  | cons e rest ih =>
    obtain ⟨k2, v2⟩ := e
    simp [ARCCache.replace, ih]

theorem len_Add_le {V : Type} (c : ARCCache V) (k : Cid) (v : V) :
    (c.Add k v).Len ≤ c.Len + 1 := by
  unfold ARCCache.Add ARCCache.Len
  split
  · simp [length_replace]
  · simp

theorem len_Remove_le {V : Type} (c : ARCCache V) (k : Cid) : (c.Remove k).Len ≤ c.Len :=
  List.length_filter_le _ _

/-! ### Lifecycle, fallback on a pre-commit error, the sweep of active deals -/

/-- C16: `Start` on a replicator whose stop signal is present returns the
already-started error and leaves the replicator as it is (signals, cursor, containers,
number of drivers); `Start` on an idle replicator returns `nil`, creates an open stop
channel and launches one driver, everything else unchanged. -/
theorem Start_spec (r : Replicator) :
    (r.stop ≠ none → r.Start = (r, Result.error "miner data already started")) ∧
      (r.stop = none →
        r.Start.2 = Result.ok ∧ r.Start.1.stop = some { closed := false } ∧
          r.Start.1.stopping = r.stopping ∧ r.Start.1.data = r.data ∧
          r.Start.1.drivers = r.drivers + 1) := by
  constructor
  · intro h
    unfold Replicator.Start
    rw [if_pos h]
  · intro h
    unfold Replicator.Start
    rw [if_neg (by simp [h])]
    exact ⟨rfl, rfl, rfl, rfl, rfl⟩

theorem Start_spec_witness :
    idleReplicator.Start.1.Start =
        (idleReplicator.Start.1, Result.error "miner data already started") ∧
      idleReplicator.Start.2 = Result.ok :=
  ⟨(Start_spec idleReplicator.Start.1).1 (by decide),
    ((Start_spec idleReplicator).2 rfl).1⟩

/-- C17 (the claim fails as stated): the pre-commit query fails with "connection
refused", an error other than "not found"; `checkChainData` does not return it: it
queries the sector info, indexes deal 42 under piece 7 and returns `nil`. -/
theorem checkChainData_survives_precommit_error :
    refusedWorld.StateSectorPreCommitInfo 4 5 1 [109] = .error "connection refused" ∧
      checkChainData refusedWorld 5 (newMinerData 1) =
        some ({ newMinerData 1 with
                checkHeight := 11
                dataRefs := { entries := [(7, { pieceID := 7, dealDatas := [sampleRecord] })] }
                calls := [Call.ChainHead, Call.ClientListDeals,
                  Call.ChainGetTipSetByHeight 10 EmptyTSK, Call.ChainGetParentMessages 110,
                  Call.StateSectorPreCommitInfo 5 1 [109], Call.StateSectorGetInfo 5 1 [109],
                  Call.StateMarketStorageDeal 42 [109]] },
              Result.ok) := by
  refine ⟨rfl, ?_⟩
  decide

/-- C17 (amended): when the pre-commit query for a `ProveCommitSector` message with
decodable parameters fails, with whatever error, the indexer queries the sector info;
the scan is aborted only if that query fails too, with the error of the sector info
query, and otherwise the deal ids of the sector info are indexed. -/
theorem indexMessage_precommit_error (w : FullNode) (ld : List DealInfo) (ptsk : TipSetKey)
    (m : MinerData) (msg : Message) (params : ProveCommitSectorParams) (e : Err)
    (hmethod : msg.Method = MethodsMiner_ProveCommitSector)
    (hparams : w.UnmarshalCBOR msg.Params = some params)
    (hpci : w.StateSectorPreCommitInfo m.now msg.To params.SectorNumber ptsk = .error e) :
    (∀ e2, w.StateSectorGetInfo (m.now + 1) msg.To params.SectorNumber ptsk = .error e2 →
        indexMessage w ld ptsk m msg =
          ((m.log (Call.StateSectorPreCommitInfo msg.To params.SectorNumber ptsk)).log
            (Call.StateSectorGetInfo msg.To params.SectorNumber ptsk), some e2)) ∧
      (∀ sci, w.StateSectorGetInfo (m.now + 1) msg.To params.SectorNumber ptsk = .ok sci →
        indexMessage w ld ptsk m msg =
          indexDeals w ld ptsk
            ((m.log (Call.StateSectorPreCommitInfo msg.To params.SectorNumber ptsk)).log
              (Call.StateSectorGetInfo msg.To params.SectorNumber ptsk)) sci.DealIDs) := by
  constructor
  · intro e2 hsci
    unfold indexMessage
    simp only [hmethod, ne_eq, not_true_eq_false, if_false, hparams, hpci, log_now, hsci]
  · intro sci hsci
    unfold indexMessage
    simp only [hmethod, ne_eq, not_true_eq_false, if_false, hparams, hpci, log_now, hsci]

theorem indexMessage_precommit_error_witness :
    indexMessage refusedWorld [] [109] (newMinerData 1) (proveCommit 1) =
      indexDeals refusedWorld [] [109]
        (((newMinerData 1).log (Call.StateSectorPreCommitInfo 5 1 [109])).log
          (Call.StateSectorGetInfo 5 1 [109])) [42] :=
  (indexMessage_precommit_error refusedWorld [] [109] (newMinerData 1) (proveCommit 1)
    { SectorNumber := 1 } "connection refused" rfl rfl rfl).2 { DealIDs := [42] } rfl

/-- C13: in a pass of the Deal Set sweep for a key whose deal info reports the active
state, the pass goes on without error, the entries of the Piece Inventory and of the
Deal Set under that key are gone, the entries under every other key are the ones
before, and the Retrieval Set is unchanged. -/
theorem sweepDeal_active (w : FullNode) (m : MinerData) (rk : Cid) (dealID : Cid)
    (lDeal : DealInfo) (hg : m.deals.Get rk = some dealID)
    (hq : w.ClientGetDealInfo m.now dealID = .ok lDeal)
    (hact : lDeal.State = StorageDealActive) :
    (sweepDeal w m rk).2 = none ∧
      (sweepDeal w m rk).1.dataRefs.Get rk = none ∧
      (sweepDeal w m rk).1.deals.Get rk = none ∧
      (∀ k, k ≠ rk →
        (sweepDeal w m rk).1.dataRefs.Get k = m.dataRefs.Get k ∧
          (sweepDeal w m rk).1.deals.Get k = m.deals.Get k) ∧
      (sweepDeal w m rk).1.retrievals = m.retrievals := by
  have hrun : sweepDeal w m rk =
      ({ m.log (Call.ClientGetDealInfo dealID) with
          dataRefs := m.dataRefs.Remove rk, deals := m.deals.Remove rk }, none) := by
    unfold sweepDeal
    simp only [hg, hq, hact, if_true]
    rfl
  rw [hrun]
  refine ⟨rfl, ?_, ?_, ?_, rfl⟩
  · show (m.dataRefs.Remove rk).Get rk = none
    rw [get_Remove, if_pos rfl]
  · show (m.deals.Remove rk).Get rk = none
    rw [get_Remove, if_pos rfl]
  · intro k hk
    constructor
    · show (m.dataRefs.Remove rk).Get k = _
      rw [get_Remove, if_neg hk]
    · show (m.deals.Remove rk).Get k = _
      rw [get_Remove, if_neg hk]

theorem sweepDeal_active_witness :
    (sweepDeal (dealInfoWorld StorageDealActive) dealingState 7).2 = none ∧
      (sweepDeal (dealInfoWorld StorageDealActive) dealingState 7).1.dataRefs.Get 7 = none ∧
      (sweepDeal (dealInfoWorld StorageDealActive) dealingState 7).1.deals.Get 7 = none :=
  have h := sweepDeal_active (dealInfoWorld StorageDealActive) dealingState 7 70
    { PieceCID := 7, State := StorageDealActive } rfl rfl rfl
  ⟨h.1, h.2.1, h.2.2.1⟩

/-! ### Outcomes of a pass of the retrieval scheduler -/

/-- Every pass of the candidate scan of the retrieval scheduler is one of the outcomes. -/
theorem retrieveCandidate_outcome (w : FullNode) (m : MinerData) (rk : Cid) :
    RetrieveOutcome w m rk (retrieveCandidate w m rk) := by
  unfold retrieveCandidate
  cases hg : m.dataRefs.Get rk with
  | none => exact RetrieveOutcome.missing hg
  | some datas =>
    dsimp only
    by_cases hn : (candidates 0 datas.dealDatas).length = 0
    · rw [if_pos hn]
      exact RetrieveOutcome.noCandidate datas hg hn
    · rw [if_neg hn]
      cases hp : (candidates 0 datas.dealDatas)[w.randIntn m.now %
          (candidates 0 datas.dealDatas).length]? with
      | none => exact RetrieveOutcome.noPick datas hg hn hp
      | some pick =>
        obtain ⟨idx, dealData⟩ := pick
        dsimp only
        cases hl : w.ClientHasLocal m.now dealData.dataRef.RootCID with
        | error e => exact RetrieveOutcome.probeFailed datas idx dealData e hg hp hl
        | ok has =>
          cases has with
          | true => exact RetrieveOutcome.isLocal datas idx dealData hg hp hl
          | false =>
            have hr0 : (m.log (Call.ClientHasLocal dealData.dataRef.RootCID)).retrievals =
                m.retrievals := rfl
            simp only [Bool.false_eq_true, if_false, hr0, log_now]
            cases hc : m.retrievals.Contains dealData.deal.PieceCID with
            | true => exact RetrieveOutcome.retrieving datas idx dealData hg hp hl hc
            | false =>
              simp only [Bool.false_eq_true, if_false]
              cases hq : w.ClientQuery (m.now + 1) dealData.dataRef.RootCID
                  dealData.deal.Provider with
              | error e => exact RetrieveOutcome.queryFailed datas idx dealData e hg hp hl hc hq
              | ok resp =>
                dsimp only
                by_cases hs : resp.Status = QueryStatus.QuerySuccess
                · have hout := RetrieveOutcome.succeeded datas idx dealData resp hg hp hl hc hq hs
                  rw [if_pos hs]
                  split
                  · rename_i hlen
                    have hlen1 : (m.retrievals.Remove rk).Len > RetrieveParallelNum := hlen
                    rw [if_pos hlen1] at hout
                    exact hout
                  · rename_i hlen
                    have hlen1 : ¬ (m.retrievals.Remove rk).Len > RetrieveParallelNum := hlen
                    rw [if_neg hlen1] at hout
                    exact hout
                · have hout := RetrieveOutcome.offered datas idx dealData resp hg hp hl hc hq hs
                  rw [if_neg hs]
                  split
                  · rename_i hlen
                    have hlen1 : (m.retrievals.Add rk resp).Len > RetrieveParallelNum := hlen
                    rw [if_pos hlen1] at hout
                    exact hout
                  · rename_i hlen
                    have hlen1 : ¬ (m.retrievals.Add rk resp).Len > RetrieveParallelNum := hlen
                    rw [if_neg hlen1] at hout
                    exact hout

theorem chosenRecord_length (w : FullNode) (t : Nat) (datas : PieceData) (pick : Nat × DealData)
    (hp : chosenRecord w t datas = some pick) : ¬ (candidates 0 datas.dealDatas).length = 0 := by
  intro h0
  unfold chosenRecord at hp
  have hnil : candidates 0 datas.dealDatas = [] := List.length_eq_zero.mp h0
  rw [hnil] at hp
  simp at hp

/-- The pass of the candidate scan for a piece that is not local and not in the
Retrieval Set, up to the answer of the retrieval query. -/
theorem retrieveCandidate_queried (w : FullNode) (m : MinerData) (rk : Cid) (datas : PieceData)
    (idx : Nat) (dealData : DealData) (hg : m.dataRefs.Get rk = some datas)
    (hp : chosenRecord w m.now datas = some (idx, dealData))
    (hl : w.ClientHasLocal m.now dealData.dataRef.RootCID = .ok false)
    (hc : m.retrievals.Contains dealData.deal.PieceCID = false) :
    retrieveCandidate w m rk =
      match w.ClientQuery (m.now + 1) dealData.dataRef.RootCID dealData.deal.Provider with
      | .error _ =>
        ({ (m.log (Call.ClientHasLocal dealData.dataRef.RootCID)).log
              (Call.ClientQuery dealData.dataRef.RootCID dealData.deal.Provider) with
            dataRefs := m.dataRefs.overwrite rk
              { datas with dealDatas := bumpTry idx datas.dealDatas } }, Ctl.next)
      | .ok resp =>
        if resp.Status = QueryStatus.QuerySuccess then
          ({ (m.log (Call.ClientHasLocal dealData.dataRef.RootCID)).log
                (Call.ClientQuery dealData.dataRef.RootCID dealData.deal.Provider) with
              retrievals := m.retrievals.Remove rk },
            if (m.retrievals.Remove rk).Len > RetrieveParallelNum then Ctl.brk else Ctl.next)
        else
          ({ (m.log (Call.ClientHasLocal dealData.dataRef.RootCID)).log
                (Call.ClientQuery dealData.dataRef.RootCID dealData.deal.Provider) with
              retrievals := m.retrievals.Add rk resp },
            if (m.retrievals.Add rk resp).Len > RetrieveParallelNum then Ctl.brk
            else Ctl.next) := by
  have hn := chosenRecord_length w m.now datas _ hp
  have hp1 : (candidates 0 datas.dealDatas)[w.randIntn m.now %
      (candidates 0 datas.dealDatas).length]? = some (idx, dealData) := hp
  have hr0 : (m.log (Call.ClientHasLocal dealData.dataRef.RootCID)).retrievals =
      m.retrievals := rfl
  unfold retrieveCandidate
  simp only [hg, hn, if_false, hp1, hl, Bool.false_eq_true, hr0, hc, log_now]
  cases w.ClientQuery (m.now + 1) dealData.dataRef.RootCID dealData.deal.Provider with
  | error e => rfl
  | ok resp =>
    dsimp only
    by_cases hs : resp.Status = QueryStatus.QuerySuccess
    · simp only [hs, if_true]
      split
      · rename_i hlen
        have hlen1 : (m.retrievals.Remove rk).Len > RetrieveParallelNum := hlen
        rw [if_pos hlen1]
        rfl
      · rename_i hlen
        have hlen1 : ¬ (m.retrievals.Remove rk).Len > RetrieveParallelNum := hlen
        rw [if_neg hlen1]
        rfl
    · simp only [hs, if_false]
      split
      · rename_i hlen
        have hlen1 : (m.retrievals.Add rk resp).Len > RetrieveParallelNum := hlen
        rw [if_pos hlen1]
        rfl
      · rename_i hlen
        have hlen1 : ¬ (m.retrievals.Add rk resp).Len > RetrieveParallelNum := hlen
        rw [if_neg hlen1]
        rfl

/-- C19: in a pass of the candidate scan for a piece that is not local and not in the
Retrieval Set and whose retrieval query succeeds, after the pass the Retrieval Set has
no entry under the key of the piece when the status of the response is success, and
maps the key to the response for every other status. -/
theorem retrieveCandidate_answer (w : FullNode) (m : MinerData) (rk : Cid) (datas : PieceData)
    (idx : Nat) (dealData : DealData) (resp : QueryResp)
    (hg : m.dataRefs.Get rk = some datas)
    (hp : chosenRecord w m.now datas = some (idx, dealData))
    (hl : w.ClientHasLocal m.now dealData.dataRef.RootCID = .ok false)
    (hc : m.retrievals.Contains dealData.deal.PieceCID = false)
    (hq : w.ClientQuery (m.now + 1) dealData.dataRef.RootCID dealData.deal.Provider = .ok resp) :
    (resp.Status = QueryStatus.QuerySuccess →
        (retrieveCandidate w m rk).1.retrievals.Get rk = none ∧
          (retrieveCandidate w m rk).1.retrievals.Contains rk = false) ∧
      (resp.Status ≠ QueryStatus.QuerySuccess →
        (retrieveCandidate w m rk).1.retrievals.Get rk = some resp) := by
  rw [retrieveCandidate_queried w m rk datas idx dealData hg hp hl hc, hq]
  dsimp only
  constructor
  · intro hs
    rw [if_pos hs]
    have : (m.retrievals.Remove rk).Get rk = none := by rw [get_Remove, if_pos rfl]
    refine ⟨this, ?_⟩
    show ((m.retrievals.Remove rk).Get rk).isSome = false
    rw [this]
    rfl
  · intro hs
    rw [if_neg hs]
    show (m.retrievals.Add rk resp).Get rk = some resp
    rw [get_Add, if_pos rfl]

theorem retrieveCandidate_answer_witness :
    (retrieveCandidate (queryWorld (QueryStatus.Other 1)) knowingState 7).1.retrievals.Get 7 =
      some { Status := QueryStatus.Other 1 } :=
  (retrieveCandidate_answer (queryWorld (QueryStatus.Other 1)) knowingState 7
    { pieceID := 7, dealDatas := [sampleRecord] } 0 sampleRecord
    { Status := QueryStatus.Other 1 } rfl rfl rfl rfl rfl).2 (by decide)

/-! ### The storage deal published for a candidate -/

theorem drop_log1 (m : MinerData) (a : Call) : (m.log a).calls.drop m.calls.length = [a] := by
  simp [MinerData.log]

theorem drop_log2 (m : MinerData) (a b : Call) :
    ((m.log a).log b).calls.drop m.calls.length = [a, b] := by
  simp [MinerData.log]

theorem drop_log3 (m : MinerData) (a b c : Call) :
    (((m.log a).log b).log c).calls.drop m.calls.length = [a, b, c] := by
  simp [MinerData.log]

theorem drop_log4 (m : MinerData) (a b c d : Call) :
    ((((m.log a).log b).log c).log d).calls.drop m.calls.length = [a, b, c, d] := by
  simp [MinerData.log]

/-- C20: whenever a pass of the candidate scan of the deal scheduler calls
`ClientStartDeal`, the parameters are transfer type graph-sync, the root and the expert
of the data reference of the first record of the piece, the local miner as miner, the
undefined address as wallet and `FastRetrieval` set; the call is the fourth and last
of the pass. When it succeeds the Deal Set is the one before with the returned message
id stored under the key of the piece; when it fails the Deal Set is unchanged and the
scan goes on with the next key. -/
theorem dealCandidate_start_deal (w : FullNode) (m : MinerData) (rk : Cid)
    (params : StartDealParams)
    (hcall : Call.ClientStartDeal params ∈ (dealCandidate w m rk).1.calls.drop m.calls.length) :
    ∃ data d rest, m.dataRefs.Get rk = some data ∧ data.dealDatas = d :: rest ∧
      params =
        { Data :=
            { TransferType := TransferType.TTGraphsync
              Root := d.dataRef.RootCID
              Expert := d.dataRef.Expert }
          Wallet := AddressUndef
          Miner := m.address
          FastRetrieval := true } ∧
      (dealCandidate w m rk).1.calls.drop m.calls.length =
        [Call.ClientHasLocal d.dataRef.RootCID,
          Call.ClientMinerQueryOffer m.address d.dataRef.RootCID,
          Call.StateMinerInfo m.address EmptyTSK, Call.ClientStartDeal params] ∧
      (∀ dealID, w.ClientStartDeal (m.now + 3) params = .ok dealID →
        (dealCandidate w m rk).1.deals = m.deals.Add rk dealID ∧
          (dealCandidate w m rk).1.deals.Get rk = some dealID) ∧
      (∀ e, w.ClientStartDeal (m.now + 3) params = .error e →
        (dealCandidate w m rk).1.deals = m.deals ∧
          ∀ keys, dealCandidates w m (rk :: keys) =
            dealCandidates w (dealCandidate w m rk).1 keys) := by
  have hout := dealCandidate_outcome w m rk
  have hloop : ∀ keys, (dealCandidate w m rk).2 = Ctl.next →
      dealCandidates w m (rk :: keys) = dealCandidates w (dealCandidate w m rk).1 keys := by
    intro keys hnext
    conv => lhs; unfold dealCandidates
    rcases hstep : dealCandidate w m rk with ⟨m1, ctl⟩
    rw [hstep] at hnext
    dsimp only at hnext
    subst hnext
    rfl
  generalize dealCandidate w m rk = res at hout hcall hloop
  cases hout with
  | missing hg => simp at hcall
  | noRecord data hg hd => simp at hcall
  | probeFailed data d rest e hg hd hl => simp [drop_log1] at hcall
  | notLocal data d rest hg hd hl => simp [drop_log1] at hcall
  | dealing data d rest hg hd hl hc => simp [drop_log1] at hcall
  | offerFailed data d rest e hg hd hl hc ho => simp [drop_log2] at hcall
  | served data d rest offer hg hd hl hc ho he =>
    have hcall1 : Call.ClientStartDeal params ∈
        ((m.log (Call.ClientHasLocal d.dataRef.RootCID)).log
          (Call.ClientMinerQueryOffer m.address d.dataRef.RootCID)).calls.drop m.calls.length :=
      hcall
    simp [drop_log2] at hcall1
  | infoFailed data d rest offer e hg hd hl hc ho he hi => simp [drop_log3] at hcall
  | noPeer data d rest offer mi hg hd hl hc ho he hi hp => simp [drop_log3] at hcall
  | uninitialized data d rest offer mi hg hd hl hc ho he hi hp => simp [drop_log3] at hcall
  | startFailed data d rest offer mi peerId e hg hd hl hc ho he hi hp hs hr =>
    dsimp only at hcall hloop ⊢
    rw [drop_log4] at hcall ⊢
    have hpar : params = startDealParams m.address d := by
      simp at hcall
      exact hcall
    refine ⟨data, d, rest, hg, hd, hpar, by rw [hpar], ?_, ?_⟩
    · intro dealID hok
      rw [hpar, hr] at hok
      simp at hok
    · intro e1 _
      exact ⟨rfl, fun keys => hloop keys rfl⟩
  | started data d rest offer mi peerId dealID hg hd hl hc ho he hi hp hs hr =>
    have hcall1 : Call.ClientStartDeal params ∈
        ((((m.log (Call.ClientHasLocal d.dataRef.RootCID)).log
              (Call.ClientMinerQueryOffer m.address d.dataRef.RootCID)).log
            (Call.StateMinerInfo m.address EmptyTSK)).log
          (Call.ClientStartDeal (startDealParams m.address d))).calls.drop m.calls.length :=
      hcall
    rw [drop_log4] at hcall1
    have hpar : params = startDealParams m.address d := by
      simp at hcall1
      exact hcall1
    refine ⟨data, d, rest, hg, hd, hpar, ?_, ?_, ?_⟩
    · rw [hpar]
      exact drop_log4 m _ _ _ _
    · intro id1 hok
      rw [hpar, hr] at hok
      cases hok
      refine ⟨rfl, ?_⟩
      show (m.deals.Add rk dealID).Get rk = some dealID
      rw [get_Add, if_pos rfl]
    · intro e1 herr
      rw [hpar, hr] at herr
      simp at herr

theorem dealCandidate_start_deal_witness :
    (dealCandidate (publishingWorld "12D3" StorageDealActive) knowingState 7).1.deals.Get 7 =
      some 70 :=
  match dealCandidate_start_deal (publishingWorld "12D3" StorageDealActive) knowingState 7
      (startDealParams 1 sampleRecord) (by decide) with
  | ⟨_, _, _, _, _, _, _, hok, _⟩ => (hok 70 rfl).2

/-! ### The cap on the Retrieval Set -/

theorem sweepRetrieval_len (w : FullNode) (m : MinerData) (rk : Cid) :
    (sweepRetrieval w m rk).1.retrievals.Len ≤ m.retrievals.Len := by
  unfold sweepRetrieval
  cases m.dataRefs.Get rk with
  | none => exact le_refl _
  | some data =>
    dsimp only
    cases data.dealDatas with
    | nil => exact le_refl _
    | cons dealData rest =>
      dsimp only
      cases w.ClientHasLocal m.now dealData.dataRef.RootCID with
      | error e => exact le_refl _
      | ok has =>
        dsimp only
        split
        · exact len_Remove_le m.retrievals rk
        · exact le_refl _

theorem sweepRetrievals_len (w : FullNode) (keys : List Cid) (m : MinerData) :
    (sweepRetrievals w m keys).1.retrievals.Len ≤ m.retrievals.Len := by
  induction keys generalizing m with
  | nil => exact le_refl _
  | cons rk rest ih =>
    have h1 := sweepRetrieval_len w m rk
    unfold sweepRetrievals
    rcases hstep : sweepRetrieval w m rk with ⟨m1, _ | r⟩
    · rw [hstep] at h1
      exact le_trans (ih m1) h1
    · rw [hstep] at h1
      exact h1

/-- One pass of the candidate scan entered with the Retrieval Set within the cap: the
set ends with at most one entry above the cap, and within the cap when the scan goes
on. -/
theorem retrieveCandidate_len (w : FullNode) (m : MinerData) (rk : Cid)
    (h : m.retrievals.Len ≤ RetrieveParallelNum) :
    (retrieveCandidate w m rk).1.retrievals.Len ≤ RetrieveParallelNum + 1 ∧
      ((retrieveCandidate w m rk).2 = Ctl.next →
        (retrieveCandidate w m rk).1.retrievals.Len ≤ RetrieveParallelNum) := by
  have hout := retrieveCandidate_outcome w m rk
  generalize retrieveCandidate w m rk = res at hout
  cases hout with
  | missing hg => exact ⟨Nat.le_succ_of_le h, fun _ => h⟩
  | noCandidate datas hg hn => exact ⟨Nat.le_succ_of_le h, fun _ => h⟩
  | noPick datas hg hn hp => exact ⟨Nat.le_succ_of_le h, fun _ => h⟩
  | probeFailed datas idx dealData e hg hp hl => exact ⟨Nat.le_succ_of_le h, fun _ => h⟩
  | isLocal datas idx dealData hg hp hl =>
    have h1 : (m.retrievals.Remove rk).Len ≤ RetrieveParallelNum :=
      le_trans (len_Remove_le _ _) h
    exact ⟨Nat.le_succ_of_le h1, fun _ => h1⟩
  | retrieving datas idx dealData hg hp hl hc => exact ⟨Nat.le_succ_of_le h, fun _ => h⟩
  | queryFailed datas idx dealData e hg hp hl hc hq => exact ⟨Nat.le_succ_of_le h, fun _ => h⟩
  | succeeded datas idx dealData resp hg hp hl hc hq hs =>
    have h1 : (m.retrievals.Remove rk).Len ≤ RetrieveParallelNum :=
      le_trans (len_Remove_le _ _) h
    exact ⟨Nat.le_succ_of_le h1, fun _ => h1⟩
  | offered datas idx dealData resp hg hp hl hc hq hs =>
    have h1 : (m.retrievals.Add rk resp).Len ≤ RetrieveParallelNum + 1 :=
      le_trans (len_Add_le _ _ _) (Nat.succ_le_succ h)
    refine ⟨h1, ?_⟩
    intro hnext
    dsimp only at hnext ⊢
    by_cases hlen : (m.retrievals.Add rk resp).Len > RetrieveParallelNum
    · rw [if_pos hlen] at hnext
      simp at hnext
    · exact Nat.le_of_not_gt hlen

theorem retrieveCandidates_len (w : FullNode) (keys : List Cid) (m : MinerData)
    (h : m.retrievals.Len ≤ RetrieveParallelNum) :
    (retrieveCandidates w m keys).1.retrievals.Len ≤ RetrieveParallelNum + 1 := by
  induction keys generalizing m with
  | nil => exact Nat.le_succ_of_le h
  | cons rk rest ih =>
    have h1 := retrieveCandidate_len w m rk h
    unfold retrieveCandidates
    rcases hstep : retrieveCandidate w m rk with ⟨m1, _ | _ | r⟩
    · rw [hstep] at h1
      exact ih m1 (h1.2 rfl)
    · rw [hstep] at h1
      exact h1.1
    · rw [hstep] at h1
      exact h1.1

/-- A pass of the candidate scan that makes the Retrieval Set grow to one entry above
the cap ends the scan: the tick returns `nil` in the state right after the insertion. -/
theorem retrieveCandidates_stop_at_cap (w : FullNode) (m : MinerData) (rk : Cid)
    (keys : List Cid)
    (hgrow : m.retrievals.Len < (retrieveCandidate w m rk).1.retrievals.Len)
    (hfull : (retrieveCandidate w m rk).1.retrievals.Len = RetrieveParallelNum + 1) :
    retrieveCandidates w m (rk :: keys) = ((retrieveCandidate w m rk).1, Result.ok) := by
  have hout := retrieveCandidate_outcome w m rk
  conv => lhs; unfold retrieveCandidates
  generalize retrieveCandidate w m rk = res at hout hgrow hfull
  cases hout with
  | missing hg => exact absurd hgrow (lt_irrefl _)
  | noCandidate datas hg hn => exact absurd hgrow (lt_irrefl _)
  | noPick datas hg hn hp => exact absurd hgrow (lt_irrefl _)
  | probeFailed datas idx dealData e hg hp hl => exact absurd hgrow (lt_irrefl _)
  | isLocal datas idx dealData hg hp hl =>
    exact absurd hgrow (Nat.not_lt.mpr (len_Remove_le m.retrievals rk))
  | retrieving datas idx dealData hg hp hl hc => exact absurd hgrow (lt_irrefl _)
  | queryFailed datas idx dealData e hg hp hl hc hq => exact absurd hgrow (lt_irrefl _)
  | succeeded datas idx dealData resp hg hp hl hc hq hs =>
    exact absurd hgrow (Nat.not_lt.mpr (len_Remove_le m.retrievals rk))
  | offered datas idx dealData resp hg hp hl hc hq hs =>
    have hfull1 : (m.retrievals.Add rk resp).Len = RetrieveParallelNum + 1 := hfull
    have hlen : (m.retrievals.Add rk resp).Len > RetrieveParallelNum := by omega
    dsimp only
    rw [if_pos hlen]

/-- C11: a call of `retrieveChainData` entered with at most `RetrieveParallelNum + 1`
entries in the Retrieval Set leaves at most `RetrieveParallelNum + 1` entries in it;
and a pass of the candidate scan whose insertion brings the set to exactly
`RetrieveParallelNum + 1` entries ends the scan in the state right after the
insertion, so that no further call is issued in the tick. -/
theorem retrieveChainData_cap (w : FullNode) (m : MinerData)
    (hcap : m.retrievals.Len ≤ RetrieveParallelNum + 1) :
    (retrieveChainData w m).1.retrievals.Len ≤ RetrieveParallelNum + 1 ∧
      ∀ (m0 : MinerData) (rk : Cid) (keys : List Cid),
        m0.retrievals.Len < (retrieveCandidate w m0 rk).1.retrievals.Len →
        (retrieveCandidate w m0 rk).1.retrievals.Len = RetrieveParallelNum + 1 →
        retrieveCandidates w m0 (rk :: keys) = ((retrieveCandidate w m0 rk).1, Result.ok) := by
  refine ⟨?_, fun m0 rk keys h1 h2 => retrieveCandidates_stop_at_cap w m0 rk keys h1 h2⟩
  have h1 := sweepRetrievals_len w m.retrievals.Keys m
  unfold retrieveChainData
  rcases hstep : sweepRetrievals w m m.retrievals.Keys with ⟨m1, _ | r⟩
  · rw [hstep] at h1
    dsimp only at h1 ⊢
    split
    · exact le_trans h1 hcap
    · rename_i hlen
      exact retrieveCandidates_len w _ m1 (Nat.le_of_not_gt hlen)
  · rw [hstep] at h1
    exact le_trans h1 hcap

theorem retrieveChainData_cap_witness :
    (retrieveChainData (queryWorld (QueryStatus.Other 1)) busyState).1.retrievals.Len ≤
        RetrieveParallelNum + 1 ∧
      retrieveCandidates (queryWorld (QueryStatus.Other 1)) busyState [7, 8] =
        ((retrieveCandidate (queryWorld (QueryStatus.Other 1)) busyState 7).1, Result.ok) :=
  ⟨(retrieveChainData_cap (queryWorld (QueryStatus.Other 1)) busyState (by decide)).1,
    (retrieveChainData_cap (queryWorld (QueryStatus.Other 1)) busyState (by decide)).2
      busyState 7 [8] (by decide) (by decide)⟩

/-! ### The errors of the retrieval scheduler -/

theorem probeErrors_append (w : FullNode) (a b : List Call) (t : Nat) :
    probeErrors w t (a ++ b) = probeErrors w t a ++ probeErrors w (t + a.length) b := by
  induction a generalizing t with
  | nil => simp [probeErrors]
  | cons c rest ih =>
    show probeError w t c ++ probeErrors w (t + 1) (rest ++ b) =
      (probeError w t c ++ probeErrors w (t + 1) rest) ++
        probeErrors w (t + (rest.length + 1)) b
    rw [ih, List.append_assoc, Nat.add_assoc, Nat.add_comm 1]

theorem emits_refl (w : FullNode) (m : MinerData) : Emits w m m [] :=
  ⟨[], by simp, rfl⟩

theorem emits_trans (w : FullNode) (m m1 m2 : MinerData) (errs : List Err)
    (h1 : Emits w m m1 []) (h2 : Emits w m1 m2 errs) : Emits w m m2 errs := by
  obtain ⟨a, ha, hea⟩ := h1
  obtain ⟨b, hb, heb⟩ := h2
  refine ⟨a ++ b, by rw [hb, ha, List.append_assoc], ?_⟩
  rw [probeErrors_append, hea]
  have hnow : m1.now = m.now + a.length := by
    unfold MinerData.now
    rw [ha, List.length_append]
  rw [← hnow, heb]
  rfl

theorem emits_drop (w : FullNode) (m m1 : MinerData) (errs : List Err)
    (h : Emits w m m1 errs) : probeErrors w m.now (m1.calls.drop m.calls.length) = errs := by
  obtain ⟨a, ha, hea⟩ := h
  rw [ha, List.drop_left]
  exact hea

theorem sweepRetrieval_emits (w : FullNode) (m : MinerData) (rk : Cid) :
    Emits w m (sweepRetrieval w m rk).1
      (match (sweepRetrieval w m rk).2 with
        | some r => r.errors
        | none => []) := by
  unfold sweepRetrieval
  cases m.dataRefs.Get rk with
  | none => exact emits_refl w m
  | some data =>
    dsimp only
    cases data.dealDatas with
    | nil => exact emits_refl w m
    | cons dealData rest =>
      dsimp only
      cases hl : w.ClientHasLocal m.now dealData.dataRef.RootCID with
      | error e =>
        exact ⟨[Call.ClientHasLocal dealData.dataRef.RootCID], rfl,
          by simp [probeErrors, probeError, hl, Result.errors]⟩
      | ok has =>
        dsimp only
        split
        · exact ⟨[Call.ClientHasLocal dealData.dataRef.RootCID], rfl,
            by simp [probeErrors, probeError, hl]⟩
        · exact ⟨[Call.ClientHasLocal dealData.dataRef.RootCID], rfl,
            by simp [probeErrors, probeError, hl]⟩

theorem sweepRetrievals_emits (w : FullNode) (keys : List Cid) (m : MinerData) :
    Emits w m (sweepRetrievals w m keys).1
      (match (sweepRetrievals w m keys).2 with
        | some r => r.errors
        | none => []) := by
  induction keys generalizing m with
  | nil => exact emits_refl w m
  | cons rk rest ih =>
    have h1 := sweepRetrieval_emits w m rk
    unfold sweepRetrievals
    rcases hstep : sweepRetrieval w m rk with ⟨m1, _ | r⟩
    · rw [hstep] at h1
      exact emits_trans w m m1 _ _ h1 (ih m1)
    · rw [hstep] at h1
      exact h1

theorem retrieveCandidate_emits (w : FullNode) (m : MinerData) (rk : Cid) :
    Emits w m (retrieveCandidate w m rk).1
      (match (retrieveCandidate w m rk).2 with
        | Ctl.ret r => r.errors
        | _ => []) := by
  have hout := retrieveCandidate_outcome w m rk
  generalize retrieveCandidate w m rk = res at hout
  cases hout with
  | missing hg => exact emits_refl w m
  | noCandidate datas hg hn => exact emits_refl w m
  | noPick datas hg hn hp => exact emits_refl w m
  | probeFailed datas idx dealData e hg hp hl =>
    exact ⟨[Call.ClientHasLocal dealData.dataRef.RootCID], rfl,
      by simp [probeErrors, probeError, hl, Result.errors]⟩
  | isLocal datas idx dealData hg hp hl =>
    exact ⟨[Call.ClientHasLocal dealData.dataRef.RootCID], rfl,
      by simp [probeErrors, probeError, hl]⟩
  | retrieving datas idx dealData hg hp hl hc =>
    exact ⟨[Call.ClientHasLocal dealData.dataRef.RootCID], rfl,
      by simp [probeErrors, probeError, hl]⟩
  | queryFailed datas idx dealData e hg hp hl hc hq =>
    exact ⟨[Call.ClientHasLocal dealData.dataRef.RootCID,
        Call.ClientQuery dealData.dataRef.RootCID dealData.deal.Provider],
      by simp [MinerData.log], by simp [probeErrors, probeError, hl]⟩
  | succeeded datas idx dealData resp hg hp hl hc hq hs =>
    refine ⟨[Call.ClientHasLocal dealData.dataRef.RootCID,
        Call.ClientQuery dealData.dataRef.RootCID dealData.deal.Provider],
      by simp [MinerData.log], ?_⟩
    dsimp only
    by_cases hlen : (m.retrievals.Remove rk).Len > RetrieveParallelNum
    · simp [hlen, probeErrors, probeError, hl]
    · simp [hlen, probeErrors, probeError, hl]
  | offered datas idx dealData resp hg hp hl hc hq hs =>
    refine ⟨[Call.ClientHasLocal dealData.dataRef.RootCID,
        Call.ClientQuery dealData.dataRef.RootCID dealData.deal.Provider],
      by simp [MinerData.log], ?_⟩
    dsimp only
    by_cases hlen : (m.retrievals.Add rk resp).Len > RetrieveParallelNum
    · simp [hlen, probeErrors, probeError, hl]
    · simp [hlen, probeErrors, probeError, hl]

theorem retrieveCandidates_emits (w : FullNode) (keys : List Cid) (m : MinerData) :
    Emits w m (retrieveCandidates w m keys).1 (retrieveCandidates w m keys).2.errors := by
  induction keys generalizing m with
  | nil => exact emits_refl w m
  | cons rk rest ih =>
    have h1 := retrieveCandidate_emits w m rk
    unfold retrieveCandidates
    rcases hstep : retrieveCandidate w m rk with ⟨m1, _ | _ | r⟩
    · rw [hstep] at h1
      exact emits_trans w m m1 _ _ h1 (ih m1)
    · rw [hstep] at h1
      exact h1
    · rw [hstep] at h1
      exact h1

theorem retrieveChainData_emits (w : FullNode) (m : MinerData) :
    Emits w m (retrieveChainData w m).1 (retrieveChainData w m).2.errors := by
  have h1 := sweepRetrievals_emits w m.retrievals.Keys m
  unfold retrieveChainData
  rcases hstep : sweepRetrievals w m m.retrievals.Keys with ⟨m1, _ | r⟩
  · rw [hstep] at h1
    dsimp only at h1 ⊢
    split
    · exact h1
    · exact emits_trans w m m1 _ _ h1 (retrieveCandidates_emits w _ m1)
  · rw [hstep] at h1
    exact h1

theorem probeErrors_all_ok (w : FullNode)
    (hok : ∀ t root, ∃ has, w.ClientHasLocal t root = .ok has) (cs : List Call) (t : Nat) :
    probeErrors w t cs = [] := by
  induction cs generalizing t with
  | nil => rfl
  | cons c rest ih =>
    unfold probeErrors
    rw [ih]
    cases c <;> simp [probeError]
    rename_i root
    obtain ⟨has, hh⟩ := hok t root
    rw [hh]

/-- C18: `retrieveChainData` returns the error `e` if and only if `e` is the error of a
local-store probe (`ClientHasLocal`) that fails among the calls the run issues; and on
a node whose local-store probes all succeed the run returns no error, whatever the
retrieval queries (`ClientQuery`) answer. -/
theorem retrieveChainData_error_iff (w : FullNode) (m : MinerData) :
    (∀ e, (retrieveChainData w m).2 = Result.error e ↔
        e ∈ probeErrors w m.now ((retrieveChainData w m).1.calls.drop m.calls.length)) ∧
      ((∀ t root, ∃ has, w.ClientHasLocal t root = .ok has) →
        ∀ e, (retrieveChainData w m).2 ≠ Result.error e) := by
  have hem := emits_drop w m _ _ (retrieveChainData_emits w m)
  have hiff : ∀ e, (retrieveChainData w m).2 = Result.error e ↔
      e ∈ probeErrors w m.now ((retrieveChainData w m).1.calls.drop m.calls.length) := by
    intro e
    rw [hem]
    cases (retrieveChainData w m).2 <;> simp [Result.errors, eq_comm]
  refine ⟨hiff, ?_⟩
  intro hok e he
  have hmem := (hiff e).mp he
  rw [probeErrors_all_ok w hok] at hmem
  exact List.not_mem_nil e hmem

theorem retrieveChainData_error_iff_witness :
    "unavailable" ∈ probeErrors silentWorld knowingState.now
        ((retrieveChainData silentWorld knowingState).1.calls.drop knowingState.calls.length) ∧
      (retrieveChainData (queryWorld QueryStatus.QuerySuccess) knowingState).2 ≠
        Result.error "unavailable" :=
  ⟨((retrieveChainData_error_iff silentWorld knowingState).1 "unavailable").mp rfl,
    (retrieveChainData_error_iff (queryWorld QueryStatus.QuerySuccess) knowingState).2
      (fun _ _ => ⟨false, rfl⟩) "unavailable"⟩

/-! ### Runs of the deal scheduler that publish nothing -/

theorem shrinks_refl {V : Type} (c : ARCCache V) : Shrinks c c := fun _ _ h => h

theorem shrinks_trans {V : Type} (a b c : ARCCache V) (h1 : Shrinks a b) (h2 : Shrinks b c) :
    Shrinks a c := fun k v h => h1 k v (h2 k v h)

theorem shrinks_Remove {V : Type} (c : ARCCache V) (k : Cid) : Shrinks c (c.Remove k) := by
  intro k1 v h
  rw [get_Remove] at h
  split at h
  · cases h
  · exact h

theorem noDeal_refl (failing : StartDealParams → Prop) (m : MinerData) : NoDeal failing m m :=
  ⟨rfl, rfl, shrinks_refl _, shrinks_refl _, [], by simp, by simp⟩

theorem noDeal_trans (failing : StartDealParams → Prop) (m m1 m2 : MinerData)
    (h1 : NoDeal failing m m1) (h2 : NoDeal failing m1 m2) : NoDeal failing m m2 := by
  obtain ⟨ha1, hr1, hd1, hi1, a, hca, hfa⟩ := h1
  obtain ⟨ha2, hr2, hd2, hi2, b, hcb, hfb⟩ := h2
  refine ⟨ha2.trans ha1, hr2.trans hr1, shrinks_trans _ _ _ hd1 hd2,
    shrinks_trans _ _ _ hi1 hi2, a ++ b, by rw [hcb, hca, List.append_assoc], ?_⟩
  intro p hp
  rcases List.mem_append.mp hp with h | h
  · exact hfa p h
  · exact hfb p h

theorem noDeal_drop (failing : StartDealParams → Prop) (m m1 : MinerData)
    (h : NoDeal failing m m1) (p : StartDealParams)
    (hp : Call.ClientStartDeal p ∈ m1.calls.drop m.calls.length) : failing p := by
  obtain ⟨_, _, _, _, a, hca, hfa⟩ := h
  rw [hca, List.drop_left] at hp
  exact hfa p hp

theorem sweepDeal_noDeal (failing : StartDealParams → Prop) (w : FullNode) (m : MinerData)
    (rk : Cid) : NoDeal failing m (sweepDeal w m rk).1 := by
  unfold sweepDeal
  cases m.deals.Get rk with
  | none => exact noDeal_refl failing m
  | some dealID =>
    dsimp only
    cases w.ClientGetDealInfo m.now dealID with
    | error e =>
      exact ⟨rfl, rfl, shrinks_refl _, shrinks_refl _, [Call.ClientGetDealInfo dealID], rfl,
        by simp⟩
    | ok lDeal =>
      dsimp only
      split
      · exact ⟨rfl, rfl, shrinks_Remove _ _, shrinks_Remove _ _,
          [Call.ClientGetDealInfo dealID], rfl, by simp⟩
      · split
        · exact ⟨rfl, rfl, shrinks_Remove _ _, shrinks_refl _,
            [Call.ClientGetDealInfo dealID], rfl, by simp⟩
        · exact ⟨rfl, rfl, shrinks_refl _, shrinks_refl _,
            [Call.ClientGetDealInfo dealID], rfl, by simp⟩

theorem sweepDeals_noDeal (failing : StartDealParams → Prop) (w : FullNode)
    (keys : List Cid) (m : MinerData) : NoDeal failing m (sweepDeals w m keys).1 := by
  induction keys generalizing m with
  | nil => exact noDeal_refl failing m
  | cons rk rest ih =>
    have h1 := sweepDeal_noDeal failing w m rk
    unfold sweepDeals
    rcases hstep : sweepDeal w m rk with ⟨m1, _ | r⟩
    · rw [hstep] at h1
      exact noDeal_trans failing m m1 _ h1 (ih m1)
    · rw [hstep] at h1
      exact h1

/-- A pass of the candidate scan publishes nothing when the call of `ClientStartDeal`
fails whenever the pass gets as far as making it. -/
theorem dealCandidate_noDeal (failing : StartDealParams → Prop) (w : FullNode)
    (m : MinerData) (rk : Cid)
    (h : ∀ d, Reaches w m rk d →
      (∃ e, w.ClientStartDeal (m.now + 3) (startDealParams m.address d) = .error e) ∧
        failing (startDealParams m.address d)) :
    NoDeal failing m (dealCandidate w m rk).1 := by
  have hout := dealCandidate_outcome w m rk
  generalize dealCandidate w m rk = res at hout
  cases hout with
  | missing hg => exact noDeal_refl failing m
  | noRecord data hg hd => exact noDeal_refl failing m
  | probeFailed data d rest e hg hd hl =>
    exact ⟨rfl, rfl, shrinks_refl _, shrinks_refl _, [_], rfl, by simp⟩
  | notLocal data d rest hg hd hl =>
    exact ⟨rfl, rfl, shrinks_refl _, shrinks_refl _, [_], rfl, by simp⟩
  | dealing data d rest hg hd hl hc =>
    exact ⟨rfl, rfl, shrinks_refl _, shrinks_refl _, [_], rfl, by simp⟩
  | offerFailed data d rest e hg hd hl hc ho =>
    exact ⟨rfl, rfl, shrinks_refl _, shrinks_refl _, [Call.ClientHasLocal d.dataRef.RootCID,
        Call.ClientMinerQueryOffer m.address d.dataRef.RootCID], by simp [MinerData.log],
      by simp⟩
  | served data d rest offer hg hd hl hc ho he =>
    exact ⟨rfl, rfl, shrinks_refl _, shrinks_Remove _ _, [Call.ClientHasLocal d.dataRef.RootCID,
        Call.ClientMinerQueryOffer m.address d.dataRef.RootCID], by simp [MinerData.log],
      by simp⟩
  | infoFailed data d rest offer e hg hd hl hc ho he hi =>
    exact ⟨rfl, rfl, shrinks_refl _, shrinks_refl _, [Call.ClientHasLocal d.dataRef.RootCID,
        Call.ClientMinerQueryOffer m.address d.dataRef.RootCID,
        Call.StateMinerInfo m.address EmptyTSK], by simp [MinerData.log],
      by simp⟩
  | noPeer data d rest offer mi hg hd hl hc ho he hi hp =>
    exact ⟨rfl, rfl, shrinks_refl _, shrinks_refl _, [Call.ClientHasLocal d.dataRef.RootCID,
        Call.ClientMinerQueryOffer m.address d.dataRef.RootCID,
        Call.StateMinerInfo m.address EmptyTSK], by simp [MinerData.log],
      by simp⟩
  | uninitialized data d rest offer mi hg hd hl hc ho he hi hp =>
    exact ⟨rfl, rfl, shrinks_refl _, shrinks_refl _, [Call.ClientHasLocal d.dataRef.RootCID,
        Call.ClientMinerQueryOffer m.address d.dataRef.RootCID,
        Call.StateMinerInfo m.address EmptyTSK], by simp [MinerData.log],
      by simp⟩
  | startFailed data d rest offer mi peerId e hg hd hl hc ho he hi hp hs hr =>
    have hf := (h d ⟨data, rest, offer, mi, peerId, hg, hd, hl, hc, ho, he, hi, hp, hs⟩).2
    refine ⟨rfl, rfl, shrinks_refl _, shrinks_refl _, [Call.ClientHasLocal d.dataRef.RootCID,
        Call.ClientMinerQueryOffer m.address d.dataRef.RootCID,
        Call.StateMinerInfo m.address EmptyTSK,
        Call.ClientStartDeal (startDealParams m.address d)],
      by simp [MinerData.log], ?_⟩
    intro p hp1
    simp at hp1
    rw [hp1]
    exact hf
  | started data d rest offer mi peerId dealID hg hd hl hc ho he hi hp hs hr =>
    obtain ⟨e, he1⟩ :=
      (h d ⟨data, rest, offer, mi, peerId, hg, hd, hl, hc, ho, he, hi, hp, hs⟩).1
    rw [hr] at he1
    cases he1

/-- While the peer id of the local miner is the placeholder, no pass gets as far as
calling `ClientStartDeal`. -/
theorem setme_not_reaches (w : FullNode)
    (hsetme : ∀ t a k mi, w.StateMinerInfo t a k = .ok mi → mi.PeerId = some "SETME")
    (m : MinerData) (rk : Cid) (d : DealData) : ¬ Reaches w m rk d := by
  rintro ⟨data, rest, offer, mi, peerId, hg, hd, hl, hc, ho, he, hi, hp, hs⟩
  have h1 := hsetme _ _ _ mi hi
  rw [hp] at h1
  exact hs (Option.some.inj h1)

theorem dealCandidates_setme (w : FullNode)
    (hsetme : ∀ t a k mi, w.StateMinerInfo t a k = .ok mi → mi.PeerId = some "SETME")
    (keys : List Cid) (m : MinerData) :
    NoDeal (fun _ => False) m (dealCandidates w m keys).1 := by
  induction keys generalizing m with
  | nil => exact noDeal_refl _ m
  | cons rk rest ih =>
    have h1 := dealCandidate_noDeal (fun _ => False) w m rk
      (fun d hd => absurd hd (setme_not_reaches w hsetme m rk d))
    unfold dealCandidates
    rcases hstep : dealCandidate w m rk with ⟨m1, _ | _ | r⟩
    · rw [hstep] at h1
      exact noDeal_trans _ m m1 _ h1 (ih m1)
    · rw [hstep] at h1
      exact h1
    · rw [hstep] at h1
      exact h1

theorem dealChainData_setme (w : FullNode)
    (hsetme : ∀ t a k mi, w.StateMinerInfo t a k = .ok mi → mi.PeerId = some "SETME")
    (m : MinerData) : NoDeal (fun _ => False) m (dealChainData w m).1 := by
  have h1 := sweepDeals_noDeal (fun _ => False) w m.deals.Keys m
  unfold dealChainData
  rcases hstep : sweepDeals w m m.deals.Keys with ⟨m1, _ | r⟩
  · rw [hstep] at h1
    dsimp only at h1 ⊢
    split
    · exact h1
    · exact noDeal_trans _ m m1 _ h1 (dealCandidates_setme w hsetme _ m1)
  · rw [hstep] at h1
    exact h1

/-- C15, as the code has it: with the placeholder peer id, a run of `dealChainData` that
returns the miner-not-initialized error has first swept the Deal Set, and here it has
removed the active deal of piece 7 from the Deal Set and piece 7 from the Piece
Inventory. -/
theorem dealChainData_setme_sweeps :
    (dealChainData (publishingWorld "SETME" StorageDealStatus.StorageDealActive) pairState).2 =
        Result.error "the miner hasn't initialized yet" ∧
      pairState.deals.Get 7 = some 70 ∧
      (dealChainData (publishingWorld "SETME" StorageDealStatus.StorageDealActive)
        pairState).1.deals.Get 7 = none ∧
      (pairState.dataRefs.Get 7).isSome = true ∧
      (dealChainData (publishingWorld "SETME" StorageDealStatus.StorageDealActive)
        pairState).1.dataRefs.Get 7 = none := by
  refine ⟨rfl, ?_, ?_, ?_, ?_⟩ <;> decide

/-- C15, amended: while the on-chain peer id of the local miner is `"SETME"`, a run of
`dealChainData` publishes no storage deal (it makes no `ClientStartDeal` call at all),
leaves the Retrieval Set as it was, and adds or changes no entry of the Deal Set and of
the Piece Inventory; entries of these two may be lost. -/
theorem dealChainData_uninitialized (w : FullNode) (m : MinerData)
    (hsetme : ∀ t a k mi, w.StateMinerInfo t a k = .ok mi → mi.PeerId = some "SETME") :
    (dealChainData w m).1.retrievals = m.retrievals ∧
      Shrinks m.deals (dealChainData w m).1.deals ∧
      Shrinks m.dataRefs (dealChainData w m).1.dataRefs ∧
      ∀ p, Call.ClientStartDeal p ∉ (dealChainData w m).1.calls.drop m.calls.length := by
  have h := dealChainData_setme w hsetme m
  exact ⟨h.2.1, h.2.2.1, h.2.2.2.1, fun p hp => noDeal_drop _ m _ h p hp⟩

theorem dealChainData_uninitialized_witness :
    (dealChainData (publishingWorld "SETME" StorageDealStatus.StorageDealActive)
        pairState).1.retrievals = pairState.retrievals ∧
      Shrinks pairState.deals
        (dealChainData (publishingWorld "SETME" StorageDealStatus.StorageDealActive)
          pairState).1.deals ∧
      Shrinks pairState.dataRefs
        (dealChainData (publishingWorld "SETME" StorageDealStatus.StorageDealActive)
          pairState).1.dataRefs ∧
      ∀ p, Call.ClientStartDeal p ∉
        (dealChainData (publishingWorld "SETME" StorageDealStatus.StorageDealActive)
          pairState).1.calls.drop pairState.calls.length :=
  dealChainData_uninitialized (publishingWorld "SETME" StorageDealStatus.StorageDealActive)
    pairState (fun _ _ _ _ h => by cases h; rfl)

/-! ### Two runs of the deal scheduler in a row -/

theorem dealFrame_refl (m : MinerData) : DealFrame m m :=
  ⟨rfl, shrinks_refl _, fun _ h => h⟩

theorem dealFrame_trans (m m1 m2 : MinerData) (h1 : DealFrame m m1) (h2 : DealFrame m1 m2) :
    DealFrame m m2 :=
  ⟨h2.1.trans h1.1, shrinks_trans _ _ _ h1.2.1 h2.2.1, fun k h => h2.2.2 k (h1.2.2 k h)⟩

theorem settled_frame (sn : StaticNode) (m m1 : MinerData) (k : Cid)
    (hf : DealFrame m m1) (h : Settled sn m k) : Settled sn m1 k := by
  intro data hg
  rcases h data (hf.2.1 k data hg) with hc | hp
  · exact Or.inl (hf.2.2 k hc)
  · right
    rw [hf.1]
    exact hp

theorem contains_Add {V : Type} (c : ARCCache V) (k k1 : Cid) (v : V)
    (h : c.Contains k1 = true) : (c.Add k v).Contains k1 = true := by
  unfold ARCCache.Contains at h ⊢
  rw [get_Add]
  split
  · rfl
  · exact h

theorem contains_Add_self {V : Type} (c : ARCCache V) (k : Cid) (v : V) :
    (c.Add k v).Contains k = true := by
  unfold ARCCache.Contains
  rw [get_Add, if_pos rfl]
  rfl

theorem dealCandidate_frame (w : FullNode) (m : MinerData) (rk : Cid) :
    DealFrame m (dealCandidate w m rk).1 := by
  have hout := dealCandidate_outcome w m rk
  generalize dealCandidate w m rk = res at hout
  cases hout with
  | missing hg => exact dealFrame_refl m
  | noRecord data hg hd => exact dealFrame_refl m
  | probeFailed data d rest e hg hd hl => exact dealFrame_refl m
  | notLocal data d rest hg hd hl => exact dealFrame_refl m
  | dealing data d rest hg hd hl hc => exact dealFrame_refl m
  | offerFailed data d rest e hg hd hl hc ho => exact dealFrame_refl m
  | served data d rest offer hg hd hl hc ho he =>
    exact ⟨rfl, shrinks_Remove _ _, fun _ h => h⟩
  | infoFailed data d rest offer e hg hd hl hc ho he hi => exact dealFrame_refl m
  | noPeer data d rest offer mi hg hd hl hc ho he hi hp => exact dealFrame_refl m
  | uninitialized data d rest offer mi hg hd hl hc ho he hi hp => exact dealFrame_refl m
  | startFailed data d rest offer mi peerId e hg hd hl hc ho he hi hp hs hr =>
    exact dealFrame_refl m
  | started data d rest offer mi peerId dealID hg hd hl hc ho he hi hp hs hr =>
    exact ⟨rfl, shrinks_refl _, fun k h => contains_Add m.deals rk k dealID h⟩

/-- One pass of the candidate scan on a node whose answers do not change: when the scan
goes on the piece calls for no deal any more, when the scan is left at the cap the Deal
Set is over the cap, and when the run is left at once the result is not `nil`. -/
theorem dealCandidate_pass (sn : StaticNode) (stopping : Nat → Bool) (rnd : Nat → Nat)
    (m : MinerData) (rk : Cid) :
    ((dealCandidate (sn.toFullNode stopping rnd) m rk).2 = Ctl.next →
        Settled sn (dealCandidate (sn.toFullNode stopping rnd) m rk).1 rk) ∧
      ((dealCandidate (sn.toFullNode stopping rnd) m rk).2 = Ctl.brk →
        (dealCandidate (sn.toFullNode stopping rnd) m rk).1.deals.Len > DealParallelNum) ∧
      (∀ r, (dealCandidate (sn.toFullNode stopping rnd) m rk).2 = Ctl.ret r →
        r ≠ Result.ok) := by
  have hout := dealCandidate_outcome (sn.toFullNode stopping rnd) m rk
  generalize dealCandidate (sn.toFullNode stopping rnd) m rk = res at hout
  cases hout with
  | missing hg =>
    refine ⟨fun h => ?_, fun h => ?_, fun r h => ?_⟩ <;> (cases h; try simp)
  | noRecord data hg hd =>
    refine ⟨fun h => ?_, fun h => ?_, fun r h => ?_⟩ <;> (cases h; try simp)
  | probeFailed data d rest e hg hd hl =>
    refine ⟨fun h => ?_, fun h => ?_, fun r h => ?_⟩ <;> (cases h; try simp)
  | notLocal data d rest hg hd hl =>
    refine ⟨fun _ => ?_, fun h => (by cases h), fun r h => (by cases h)⟩
    intro data1 hg1
    have hdata : data1 = data := Option.some.inj (hg1.symm.trans hg)
    subst hdata
    right
    rintro ⟨d1, rest1, offer, mi, peerId, dealID, hd1, hl1, _⟩
    rw [hd] at hd1
    cases hd1
    have hl2 : sn.ClientHasLocal d.dataRef.RootCID = .ok false := hl
    rw [hl2] at hl1
    cases hl1
  | dealing data d rest hg hd hl hc =>
    exact ⟨fun _ data1 _ => Or.inl hc, fun h => (by cases h), fun r h => (by cases h)⟩
  | offerFailed data d rest e hg hd hl hc ho =>
    refine ⟨fun h => ?_, fun h => ?_, fun r h => ?_⟩ <;> (cases h; try simp)
  | served data d rest offer hg hd hl hc ho he =>
    refine ⟨fun _ => ?_, fun h => (by cases h), fun r h => (by cases h)⟩
    intro data1 hg1
    have hg2 : (m.dataRefs.Remove rk).Get rk = some data1 := hg1
    rw [get_Remove, if_pos rfl] at hg2
    cases hg2
  | infoFailed data d rest offer e hg hd hl hc ho he hi =>
    refine ⟨fun h => ?_, fun h => ?_, fun r h => ?_⟩ <;> (cases h; try simp)
  | noPeer data d rest offer mi hg hd hl hc ho he hi hp =>
    refine ⟨fun h => ?_, fun h => ?_, fun r h => ?_⟩ <;> (cases h; try simp)
  | uninitialized data d rest offer mi hg hd hl hc ho he hi hp =>
    refine ⟨fun h => ?_, fun h => ?_, fun r h => ?_⟩ <;> (cases h; try simp)
  | startFailed data d rest offer mi peerId e hg hd hl hc ho he hi hp hs hr =>
    refine ⟨fun _ => ?_, fun h => (by cases h), fun r h => (by cases h)⟩
    intro data1 hg1
    have hdata : data1 = data := Option.some.inj (hg1.symm.trans hg)
    subst hdata
    right
    rintro ⟨d1, rest1, offer1, mi1, peerId1, dealID, hd1, _, _, _, _, _, _, hr1⟩
    rw [hd] at hd1
    cases hd1
    have hr2 : sn.ClientStartDeal (startDealParams m.address d) = .error e := hr
    have hr3 : sn.ClientStartDeal (startDealParams m.address d) = .ok dealID := hr1
    rw [hr2] at hr3
    cases hr3
  | started data d rest offer mi peerId dealID hg hd hl hc ho he hi hp hs hr =>
    refine ⟨fun _ data1 _ => Or.inl (contains_Add_self m.deals rk dealID), ?_, ?_⟩
    · intro h
      dsimp only at h ⊢
      by_cases hlen : (m.deals.Add rk dealID).Len > DealParallelNum
      · exact hlen
      · rw [if_neg hlen] at h
        cases h
    · intro r h
      dsimp only at h
      by_cases hlen : (m.deals.Add rk dealID).Len > DealParallelNum
      · rw [if_pos hlen] at h
        cases h
      · rw [if_neg hlen] at h
        cases h

theorem dealCandidates_cons_next (w : FullNode) (m m1 : MinerData) (rk : Cid) (keys : List Cid)
    (h : dealCandidate w m rk = (m1, Ctl.next)) :
    dealCandidates w m (rk :: keys) = dealCandidates w m1 keys := by
  show (match dealCandidate w m rk with
    | (m1, Ctl.next) => dealCandidates w m1 keys
    | (m1, Ctl.brk) => (m1, Result.ok)
    | (m1, Ctl.ret r) => (m1, r)) = _
  rw [h]

theorem dealCandidates_cons_brk (w : FullNode) (m m1 : MinerData) (rk : Cid) (keys : List Cid)
    (h : dealCandidate w m rk = (m1, Ctl.brk)) :
    dealCandidates w m (rk :: keys) = (m1, Result.ok) := by
  show (match dealCandidate w m rk with
    | (m1, Ctl.next) => dealCandidates w m1 keys
    | (m1, Ctl.brk) => (m1, Result.ok)
    | (m1, Ctl.ret r) => (m1, r)) = _
  rw [h]

theorem dealCandidates_cons_ret (w : FullNode) (m m1 : MinerData) (rk : Cid) (keys : List Cid)
    (r : Result) (h : dealCandidate w m rk = (m1, Ctl.ret r)) :
    dealCandidates w m (rk :: keys) = (m1, r) := by
  show (match dealCandidate w m rk with
    | (m1, Ctl.next) => dealCandidates w m1 keys
    | (m1, Ctl.brk) => (m1, Result.ok)
    | (m1, Ctl.ret r) => (m1, r)) = _
  rw [h]

/-- A candidate scan that returns `nil` with the Deal Set within the cap has gone
through all its keys, and none of them calls for a deal any more. -/
theorem dealCandidates_settle (sn : StaticNode) (stopping : Nat → Bool) (rnd : Nat → Nat)
    (keys : List Cid) (m : MinerData)
    (hok : (dealCandidates (sn.toFullNode stopping rnd) m keys).2 = Result.ok)
    (hcap : (dealCandidates (sn.toFullNode stopping rnd) m keys).1.deals.Len ≤ DealParallelNum) :
    DealFrame m (dealCandidates (sn.toFullNode stopping rnd) m keys).1 ∧
      ∀ k ∈ keys, Settled sn (dealCandidates (sn.toFullNode stopping rnd) m keys).1 k := by
  induction keys generalizing m with
  | nil => exact ⟨dealFrame_refl m, fun k hk => absurd hk (List.not_mem_nil k)⟩
  | cons rk rest ih =>
    have hp := dealCandidate_pass sn stopping rnd m rk
    have hf := dealCandidate_frame (sn.toFullNode stopping rnd) m rk
    rcases hstep : dealCandidate (sn.toFullNode stopping rnd) m rk with ⟨m1, _ | _ | r⟩
    · rw [hstep] at hp hf
      rw [dealCandidates_cons_next _ _ _ _ _ hstep] at hok hcap ⊢
      have h1 := ih m1 hok hcap
      refine ⟨dealFrame_trans m m1 _ hf h1.1, ?_⟩
      intro k hk
      rcases List.mem_cons.mp hk with hk1 | hk1
      · rw [hk1]
        exact settled_frame sn m1 _ rk h1.1 (hp.1 rfl)
      · exact h1.2 k hk1
    · rw [hstep] at hp
      rw [dealCandidates_cons_brk _ _ _ _ _ hstep] at hcap
      exact absurd hcap (Nat.not_le.mpr (hp.2.1 rfl))
    · rw [hstep] at hp
      rw [dealCandidates_cons_ret _ _ _ _ _ _ hstep] at hok
      exact absurd hok (hp.2.2 r rfl)

theorem sweepDeal_not_ok (w : FullNode) (m : MinerData) (rk : Cid) :
    (sweepDeal w m rk).2 ≠ some Result.ok := by
  unfold sweepDeal
  cases m.deals.Get rk with
  | none => simp
  | some dealID =>
    dsimp only
    cases w.ClientGetDealInfo m.now dealID with
    | error e => simp
    | ok lDeal =>
      dsimp only
      split
      · simp
      · split <;> simp

theorem sweepDeals_not_ok (w : FullNode) (keys : List Cid) (m : MinerData) :
    (sweepDeals w m keys).2 ≠ some Result.ok := by
  induction keys generalizing m with
  | nil => simp [sweepDeals]
  | cons rk rest ih =>
    have h1 := sweepDeal_not_ok w m rk
    unfold sweepDeals
    rcases hstep : sweepDeal w m rk with ⟨m1, _ | r⟩
    · exact ih m1
    · rw [hstep] at h1
      exact h1

theorem get_mem_Keys {V : Type} (c : ARCCache V) (k : Cid) (v : V) (h : c.Get k = some v) :
    k ∈ c.Keys :=
  List.mem_map.mpr ⟨(k, v), lookup_mem k v c.entries h, rfl⟩

theorem sweepDeal_settled (sn : StaticNode) (w : FullNode) (m : MinerData) (rk : Cid)
    (h : ∀ k, Settled sn m k) : ∀ k, Settled sn (sweepDeal w m rk).1 k := by
  unfold sweepDeal
  cases m.deals.Get rk with
  | none => exact h
  | some dealID =>
    dsimp only
    cases w.ClientGetDealInfo m.now dealID with
    | error e => exact h
    | ok lDeal =>
      dsimp only
      split
      · intro k data hg
        have hg1 : (m.dataRefs.Remove rk).Get k = some data := hg
        rw [get_Remove] at hg1
        split at hg1
        · cases hg1
        · rename_i hne
          rcases h k data hg1 with hc | hp
          · left
            show ((m.deals.Remove rk).Get k).isSome = true
            rw [get_Remove, if_neg hne]
            exact hc
          · exact Or.inr hp
      · split
        · rename_i hcond
          have hab := hcond.1.symm.trans hcond.2.1
          cases hab
        · exact h

theorem sweepDeals_settled (sn : StaticNode) (w : FullNode) (keys : List Cid) (m : MinerData)
    (h : ∀ k, Settled sn m k) : ∀ k, Settled sn (sweepDeals w m keys).1 k := by
  induction keys generalizing m with
  | nil => exact h
  | cons rk rest ih =>
    have h1 := sweepDeal_settled sn w m rk h
    unfold sweepDeals
    rcases hstep : sweepDeal w m rk with ⟨m1, _ | r⟩
    · rw [hstep] at h1
      exact ih m1 h1
    · rw [hstep] at h1
      exact h1

/-- After a run of `dealChainData` that returns `nil` with the Deal Set within the cap,
no piece calls for a deal. -/
theorem dealChainData_settles (sn : StaticNode) (stopping : Nat → Bool) (rnd : Nat → Nat)
    (m : MinerData)
    (hok : (dealChainData (sn.toFullNode stopping rnd) m).2 = Result.ok)
    (hcap : (dealChainData (sn.toFullNode stopping rnd) m).1.deals.Len ≤ DealParallelNum) :
    ∀ k, Settled sn (dealChainData (sn.toFullNode stopping rnd) m).1 k := by
  have hno := sweepDeals_not_ok (sn.toFullNode stopping rnd) m.deals.Keys m
  unfold dealChainData at hok hcap ⊢
  rcases hstep : sweepDeals (sn.toFullNode stopping rnd) m m.deals.Keys with ⟨m1, _ | r⟩
  · rw [hstep] at hok hcap
    dsimp only at hok hcap ⊢
    by_cases hlen : m1.deals.Len > DealParallelNum
    · rw [if_pos hlen] at hcap
      exact absurd hcap (Nat.not_le.mpr hlen)
    · rw [if_neg hlen] at hok hcap ⊢
      have h1 := dealCandidates_settle sn stopping rnd m1.dataRefs.Keys m1 hok hcap
      intro k data hg
      have hg1 := h1.1.2.1 k data hg
      exact h1.2 k (get_mem_Keys _ k data hg1) data hg
  · rw [hstep] at hok hno
    dsimp only at hok hno
    rw [hok] at hno
    exact absurd rfl hno

/-- In a state where no piece calls for a deal, a pass of the candidate scan that gets
as far as calling `ClientStartDeal` sees the call fail. -/
theorem settled_reaches (sn : StaticNode) (stopping : Nat → Bool) (rnd : Nat → Nat)
    (m : MinerData) (rk : Cid) (hq : Settled sn m rk) (d : DealData)
    (hr : Reaches (sn.toFullNode stopping rnd) m rk d) :
    ∃ e, sn.ClientStartDeal (startDealParams m.address d) = .error e := by
  obtain ⟨data, rest, offer, mi, peerId, hg, hd, hl, hc, ho, he, hi, hp, hs⟩ := hr
  rcases hq data hg with hc1 | hnp
  · rw [hc] at hc1
    cases hc1
  · cases hsd : sn.ClientStartDeal (startDealParams m.address d) with
    | error e => exact ⟨e, rfl⟩
    | ok dealID =>
      exact absurd ⟨d, rest, offer, mi, peerId, dealID, hd, hl, ho, he, hi, hp, hs, hsd⟩ hnp

theorem dealCandidates_quiet (sn : StaticNode) (stopping : Nat → Bool) (rnd : Nat → Nat)
    (keys : List Cid) (m : MinerData) (hq : ∀ k, Settled sn m k) :
    NoDeal (fun p => ∃ e, sn.ClientStartDeal p = .error e) m
      (dealCandidates (sn.toFullNode stopping rnd) m keys).1 := by
  induction keys generalizing m with
  | nil => exact noDeal_refl _ m
  | cons rk rest ih =>
    have h1 := dealCandidate_noDeal (fun p => ∃ e, sn.ClientStartDeal p = .error e)
      (sn.toFullNode stopping rnd) m rk
      (fun d hd => ⟨settled_reaches sn stopping rnd m rk (hq rk) d hd,
        settled_reaches sn stopping rnd m rk (hq rk) d hd⟩)
    have hf := dealCandidate_frame (sn.toFullNode stopping rnd) m rk
    rcases hstep : dealCandidate (sn.toFullNode stopping rnd) m rk with ⟨m1, _ | _ | r⟩
    · rw [hstep] at h1 hf
      rw [dealCandidates_cons_next _ _ _ _ _ hstep]
      exact noDeal_trans _ m m1 _ h1 (ih m1 (fun k => settled_frame sn m m1 k hf (hq k)))
    · rw [hstep] at h1
      rw [dealCandidates_cons_brk _ _ _ _ _ hstep]
      exact h1
    · rw [hstep] at h1
      rw [dealCandidates_cons_ret _ _ _ _ _ _ hstep]
      exact h1

theorem dealChainData_quiet (sn : StaticNode) (stopping : Nat → Bool) (rnd : Nat → Nat)
    (m : MinerData) (hq : ∀ k, Settled sn m k) :
    NoDeal (fun p => ∃ e, sn.ClientStartDeal p = .error e) m
      (dealChainData (sn.toFullNode stopping rnd) m).1 := by
  have h1 := sweepDeals_noDeal (fun p => ∃ e, sn.ClientStartDeal p = .error e)
    (sn.toFullNode stopping rnd) m.deals.Keys m
  have h2 := sweepDeals_settled sn (sn.toFullNode stopping rnd) m.deals.Keys m hq
  unfold dealChainData
  rcases hstep : sweepDeals (sn.toFullNode stopping rnd) m m.deals.Keys with ⟨m1, _ | r⟩
  · rw [hstep] at h1 h2
    dsimp only at h1 h2 ⊢
    split
    · exact h1
    · exact noDeal_trans _ m m1 _ h1 (dealCandidates_quiet sn stopping rnd _ m1 h2)
  · rw [hstep] at h1
    exact h1

/-- C14, as the code has it: with eighteen local pieces and every deal active at once,
the first run of `dealChainData` stops at the cap after seventeen deals and returns
`nil`; the second run, on the same node, sweeps them away and publishes a deal for
piece 18, which enters the Deal Set. -/
theorem dealChainData_second_run_publishes :
    (dealChainData (publishingWorld "12D3" StorageDealStatus.StorageDealActive)
        crowdedState).2 = Result.ok ∧
      (dealChainData (publishingWorld "12D3" StorageDealStatus.StorageDealActive)
        crowdedState).1.deals.Len = 17 ∧
      (dealChainData (publishingWorld "12D3" StorageDealStatus.StorageDealActive)
        crowdedState).1.deals.Get 18 = none ∧
      (dealChainData (publishingWorld "12D3" StorageDealStatus.StorageDealActive)
        (dealChainData (publishingWorld "12D3" StorageDealStatus.StorageDealActive)
          crowdedState).1).1.deals.Get 18 = some 70 ∧
      ((dealChainData (publishingWorld "12D3" StorageDealStatus.StorageDealActive)
        (dealChainData (publishingWorld "12D3" StorageDealStatus.StorageDealActive)
          crowdedState).1).1.calls.drop
        (dealChainData (publishingWorld "12D3" StorageDealStatus.StorageDealActive)
          crowdedState).1.calls.length).getLast? =
        some (Call.ClientStartDeal
          { Data := { TransferType := TransferType.TTGraphsync, Root := CidUndef, Expert := "" }
            Wallet := AddressUndef, Miner := 1, FastRetrieval := true }) := by
  refine ⟨rfl, ?_, ?_, ?_, rfl⟩ <;> decide

/-- C14, amended: on a node whose answers do not change, after a run of `dealChainData`
that returns `nil` and leaves at most `DealParallelNum` entries in the Deal Set, a second
run publishes no storage deal: the Deal Set gains no entry and every `ClientStartDeal`
call of the second run is one that fails. -/
theorem dealChainData_second_run (sn : StaticNode) (stopping : Nat → Bool) (rnd : Nat → Nat)
    (m : MinerData)
    (hok : (dealChainData (sn.toFullNode stopping rnd) m).2 = Result.ok)
    (hcap : (dealChainData (sn.toFullNode stopping rnd) m).1.deals.Len ≤ DealParallelNum) :
    Shrinks (dealChainData (sn.toFullNode stopping rnd) m).1.deals
        (dealChainData (sn.toFullNode stopping rnd)
          (dealChainData (sn.toFullNode stopping rnd) m).1).1.deals ∧
      ∀ p, Call.ClientStartDeal p ∈
          (dealChainData (sn.toFullNode stopping rnd)
            (dealChainData (sn.toFullNode stopping rnd) m).1).1.calls.drop
            (dealChainData (sn.toFullNode stopping rnd) m).1.calls.length →
        ∃ e, sn.ClientStartDeal p = .error e := by
  have h := dealChainData_quiet sn stopping rnd _
    (dealChainData_settles sn stopping rnd m hok hcap)
  exact ⟨h.2.2.1, fun p hp => noDeal_drop _ _ _ h p hp⟩

theorem dealChainData_second_run_witness :
    Shrinks
        (dealChainData ((publishingNode "12D3" StorageDealStatus.StorageDealActive).toFullNode
          neverStopping zeroRand) pairState).1.deals
        (dealChainData ((publishingNode "12D3" StorageDealStatus.StorageDealActive).toFullNode
          neverStopping zeroRand)
          (dealChainData ((publishingNode "12D3" StorageDealStatus.StorageDealActive).toFullNode
            neverStopping zeroRand) pairState).1).1.deals ∧
      ∀ p, Call.ClientStartDeal p ∈
          (dealChainData ((publishingNode "12D3" StorageDealStatus.StorageDealActive).toFullNode
            neverStopping zeroRand)
            (dealChainData ((publishingNode "12D3" StorageDealStatus.StorageDealActive).toFullNode
              neverStopping zeroRand) pairState).1).1.calls.drop
            (dealChainData ((publishingNode "12D3" StorageDealStatus.StorageDealActive).toFullNode
              neverStopping zeroRand) pairState).1.calls.length →
        ∃ e, (publishingNode "12D3" StorageDealStatus.StorageDealActive).ClientStartDeal p =
          .error e :=
  dealChainData_second_run (publishingNode "12D3" StorageDealStatus.StorageDealActive)
    neverStopping zeroRand pairState rfl (by decide)

/-! ### The retry counters -/

theorem tryKept_refl (c : ARCCache PieceData) : TryKept c c :=
  fun _ p _ d hg hi => ⟨p, d.tryCount, hg, hi, le_refl _⟩

theorem tryKept_trans (a b c : ARCCache PieceData) (h1 : TryKept a b) (h2 : TryKept b c) :
    TryKept a c := by
  intro k p i d hg hi
  obtain ⟨p1, t1, hg1, hi1, hle1⟩ := h1 k p i d hg hi
  obtain ⟨p2, t2, hg2, hi2, hle2⟩ := h2 k p1 i _ hg1 hi1
  exact ⟨p2, t2, hg2, hi2, le_trans hle1 hle2⟩

theorem kept_refl (c : ARCCache PieceData) : Kept c c :=
  fun _ p _ _ hg hi => ⟨p, hg, hi⟩

theorem kept_trans (a b c : ARCCache PieceData) (h1 : Kept a b) (h2 : Kept b c) :
    Kept a c := by
  intro k p i d hg hi
  obtain ⟨p1, hg1, hi1⟩ := h1 k p i d hg hi
  exact h2 k p1 i d hg1 hi1

theorem getElem?_append_some {α : Type} (l l2 : List α) (i : Nat) (d : α)
    (h : l[i]? = some d) : (l ++ l2)[i]? = some d := by
  induction l generalizing i with
  | nil => simp at h
  | cons x rest ih =>
    cases i with
    | zero => simpa using h
    | succ i =>
      simp only [List.cons_append, List.getElem?_cons_succ] at h ⊢
      exact ih i h

/-- What `indexDeal` does to the inventory: nothing, or it stores under one piece an
entry that, when the piece had an entry, has the records of that entry followed by a
new one. -/
theorem indexDeal_appends (w : FullNode) (ld : List DealInfo) (ptsk : TipSetKey)
    (m : MinerData) (did : DealID) :
    (indexDeal w ld ptsk m did).1.dataRefs = m.dataRefs ∨
      ∃ pk v, (indexDeal w ld ptsk m did).1.dataRefs = m.dataRefs.Add pk v ∧
        ∀ p, m.dataRefs.Get pk = some p → ∃ new, v.dealDatas = p.dealDatas ++ [new] := by
  unfold indexDeal
  cases w.StateMarketStorageDeal m.now did ptsk with
  | error e => exact Or.inl rfl
  | ok deal =>
    dsimp only
    split
    · exact Or.inl rfl
    · split
      · exact Or.inl rfl
      · refine Or.inr ⟨deal.Proposal.PieceCID, _, rfl, ?_⟩
        intro p hp
        have hd : (m.log (Call.StateMarketStorageDeal did ptsk)).dataRefs = m.dataRefs := rfl
        simp only [hd, hp]
        exact ⟨_, rfl⟩

theorem indexDeal_kept (w : FullNode) (ld : List DealInfo) (ptsk : TipSetKey)
    (m : MinerData) (did : DealID) :
    Kept m.dataRefs (indexDeal w ld ptsk m did).1.dataRefs := by
  rcases indexDeal_appends w ld ptsk m did with h | ⟨pk, v, h, happ⟩
  · rw [h]
    exact kept_refl _
  · rw [h]
    intro k p i d hg hi
    by_cases hk : k = pk
    · subst hk
      obtain ⟨new, hv⟩ := happ p hg
      refine ⟨v, by rw [get_Add, if_pos rfl], ?_⟩
      rw [hv]
      exact getElem?_append_some _ _ i d hi
    · exact ⟨p, by rw [get_Add, if_neg hk]; exact hg, hi⟩

theorem indexDeals_kept (w : FullNode) (ld : List DealInfo) (ptsk : TipSetKey)
    (dids : List DealID) (m : MinerData) :
    Kept m.dataRefs (indexDeals w ld ptsk m dids).1.dataRefs := by
  induction dids generalizing m with
  | nil => exact kept_refl _
  | cons did rest ih =>
    have h1 := indexDeal_kept w ld ptsk m did
    unfold indexDeals
    rcases hstep : indexDeal w ld ptsk m did with ⟨m1, _ | e⟩
    · rw [hstep] at h1
      exact kept_trans _ _ _ h1 (ih m1)
    · rw [hstep] at h1
      exact h1

theorem indexMessage_kept (w : FullNode) (ld : List DealInfo) (ptsk : TipSetKey)
    (m : MinerData) (msg : Message) :
    Kept m.dataRefs (indexMessage w ld ptsk m msg).1.dataRefs := by
  unfold indexMessage
  split
  · exact kept_refl _
  · cases w.UnmarshalCBOR msg.Params with
    | none => exact kept_refl _
    | some params =>
      dsimp only
      cases w.StateSectorPreCommitInfo m.now msg.To params.SectorNumber ptsk with
      | ok pci =>
        exact indexDeals_kept w ld ptsk pci.Info.DealIDs
          (m.log (Call.StateSectorPreCommitInfo msg.To params.SectorNumber ptsk))
      | error _ =>
        dsimp only
        cases w.StateSectorGetInfo (m.log
            (Call.StateSectorPreCommitInfo msg.To params.SectorNumber ptsk)).now
            msg.To params.SectorNumber ptsk with
        | error e => exact kept_refl _
        | ok sci =>
          exact indexDeals_kept w ld ptsk sci.DealIDs
            ((m.log (Call.StateSectorPreCommitInfo msg.To params.SectorNumber ptsk)).log
              (Call.StateSectorGetInfo msg.To params.SectorNumber ptsk))

theorem indexMessages_kept (w : FullNode) (ld : List DealInfo) (ptsk : TipSetKey)
    (msgs : List Message) (m : MinerData) :
    Kept m.dataRefs (indexMessages w ld ptsk m msgs).1.dataRefs := by
  induction msgs generalizing m with
  | nil => exact kept_refl _
  | cons msg rest ih =>
    have h1 := indexMessage_kept w ld ptsk m msg
    unfold indexMessages
    rcases hstep : indexMessage w ld ptsk m msg with ⟨m1, _ | e⟩
    · rw [hstep] at h1
      exact kept_trans _ _ _ h1 (ih m1)
    · rw [hstep] at h1
      exact h1

theorem scanHeight_kept (w : FullNode) (ld : List DealInfo) (m : MinerData) :
    Kept m.dataRefs (scanHeight w ld m).1.dataRefs := by
  rw [scanHeight_unfold]
  split
  · exact kept_refl _
  · cases w.ChainGetTipSetByHeight m.now m.checkHeight EmptyTSK with
    | error e => exact kept_refl _
    | ok ts =>
      dsimp only
      split
      · exact kept_refl _
      · rw [(indexTipset_eq w ld _ ts).1]
        exact indexMessages_kept w ld ts.Parents _
          ((m.log (Call.ChainGetTipSetByHeight m.checkHeight EmptyTSK)).log
            (Call.ChainGetParentMessages ts.FirstCid))

theorem scanLoop_kept (w : FullNode) (head : TipSet) (ld : List DealInfo) (fuel : Nat)
    (m m1 : MinerData) (r : Result) (hrun : scanLoop w head ld fuel m = some (m1, r)) :
    Kept m.dataRefs m1.dataRefs := by
  induction fuel generalizing m with
  | zero =>
    unfold scanLoop at hrun
    split at hrun
    · simp at hrun
    · simp at hrun
      rw [← hrun.1]
      exact kept_refl _
  | succ fuel ih =>
    unfold scanLoop at hrun
    split at hrun
    · have hk := scanHeight_kept w ld m
      rcases hstep : scanHeight w ld m with ⟨m2, ctl⟩
      rw [hstep] at hrun hk
      cases ctl with
      | stop =>
        simp at hrun
        rw [← hrun.1]
        exact hk
      | fail e =>
        simp at hrun
        rw [← hrun.1]
        exact hk
      | next => exact kept_trans _ _ _ hk (ih m2 hrun)
    · simp at hrun
      rw [← hrun.1]
      exact kept_refl _

theorem checkChainData_kept (w : FullNode) (fuel : Nat) (m m1 : MinerData) (r : Result)
    (hrun : checkChainData w fuel m = some (m1, r)) : Kept m.dataRefs m1.dataRefs := by
  unfold checkChainData at hrun
  dsimp only at hrun
  cases hh : w.ChainHead m.now with
  | error e =>
    rw [hh] at hrun
    simp at hrun
    rw [← hrun.1]
    exact kept_refl _
  | ok head =>
    rw [hh] at hrun
    dsimp only at hrun
    cases hl : w.ClientListDeals (m.log Call.ChainHead).now with
    | error e =>
      rw [hl] at hrun
      simp at hrun
      rw [← hrun.1]
      exact kept_refl _
    | ok ld =>
      rw [hl] at hrun
      exact scanLoop_kept w head ld fuel ((m.log Call.ChainHead).log Call.ClientListDeals)
        m1 r hrun

theorem candidates_get (ds : List DealData) (n idx : Nat) (d : DealData)
    (h : (idx, d) ∈ candidates n ds) : n ≤ idx ∧ ds[idx - n]? = some d := by
  induction ds generalizing n with
  | nil => simp [candidates] at h
  | cons x rest ih =>
    unfold candidates at h
    have hrest : (idx, d) ∈ candidates (n + 1) rest → n ≤ idx ∧ (x :: rest)[idx - n]? = some d := by
      intro hmem
      obtain ⟨hle, hget⟩ := ih (n + 1) hmem
      refine ⟨Nat.le_of_succ_le hle, ?_⟩
      have hidx : idx - n = (idx - (n + 1)) + 1 := by omega
      rw [hidx, List.getElem?_cons_succ]
      exact hget
    split at h
    · rcases List.mem_cons.mp h with h1 | h1
      · cases h1
        simp
      · exact hrest h1
    · exact hrest h

theorem mem_of_get?_some {α : Type} (l : List α) (i : Nat) (a : α) (h : l[i]? = some a) :
    a ∈ l := by
  induction l generalizing i with
  | nil => simp at h
  | cons x rest ih =>
    cases i with
    | zero =>
      simp at h
      rw [h]
      exact List.mem_cons_self _ _
    | succ i =>
      rw [List.getElem?_cons_succ] at h
      exact List.mem_cons_of_mem _ (ih i h)

/-- The record the retrieval scheduler chooses is the record of the entry at the
position it is chosen with. -/
theorem chosenRecord_get (w : FullNode) (t : Nat) (datas : PieceData) (idx : Nat)
    (d : DealData) (hp : chosenRecord w t datas = some (idx, d)) :
    datas.dealDatas[idx]? = some d :=
  (candidates_get datas.dealDatas 0 idx d (mem_of_get?_some _ _ _ hp)).2

theorem bumpTry_self (ds : List DealData) (idx : Nat) (d : DealData)
    (h : ds[idx]? = some d) :
    (bumpTry idx ds)[idx]? = some { d with tryCount := wrap64 (d.tryCount + 1) } := by
  induction ds generalizing idx with
  | nil => simp at h
  | cons x rest ih =>
    cases idx with
    | zero =>
      simp at h
      rw [h]
      simp [bumpTry]
    | succ i =>
      rw [List.getElem?_cons_succ] at h
      show (x :: bumpTry i rest)[i + 1]? = _
      rw [List.getElem?_cons_succ]
      exact ih i h

theorem bumpTry_other (ds : List DealData) (idx i : Nat) (h : i ≠ idx) :
    (bumpTry idx ds)[i]? = ds[i]? := by
  induction ds generalizing idx i with
  | nil => simp [bumpTry]
  | cons x rest ih =>
    cases idx with
    | zero =>
      cases i with
      | zero => exact absurd rfl h
      | succ j => simp [bumpTry]
    | succ n =>
      show (x :: bumpTry n rest)[i]? = _
      cases i with
      | zero => simp
      | succ j =>
        rw [List.getElem?_cons_succ, List.getElem?_cons_succ]
        exact ih n j (fun hj => h (by rw [hj]))

theorem bumpTry_length (ds : List DealData) (idx : Nat) :
    (bumpTry idx ds).length = ds.length := by
  induction ds generalizing idx with
  | nil => simp [bumpTry]
  | cons x rest ih =>
    cases idx with
    | zero => simp [bumpTry]
    | succ n =>
      show (x :: bumpTry n rest).length = _
      simp [ih]

/-- The pass of the candidate scan whose retrieval query fails. -/
theorem retrieveCandidate_query_failed (w : FullNode) (m : MinerData) (rk : Cid)
    (datas : PieceData) (idx : Nat) (dealData : DealData) (e : Err)
    (hg : m.dataRefs.Get rk = some datas)
    (hp : chosenRecord w m.now datas = some (idx, dealData))
    (hl : w.ClientHasLocal m.now dealData.dataRef.RootCID = .ok false)
    (hc : m.retrievals.Contains dealData.deal.PieceCID = false)
    (hq : w.ClientQuery (m.now + 1) dealData.dataRef.RootCID dealData.deal.Provider = .error e) :
    retrieveCandidate w m rk =
      ({ (m.log (Call.ClientHasLocal dealData.dataRef.RootCID)).log
            (Call.ClientQuery dealData.dataRef.RootCID dealData.deal.Provider) with
          dataRefs := m.dataRefs.overwrite rk
            { datas with dealDatas := bumpTry idx datas.dealDatas } }, Ctl.next) := by
  rw [retrieveCandidate_queried w m rk datas idx dealData hg hp hl hc, hq]

theorem wrap64_le (x : Int) : wrap64 x ≤ maxInt64 := by
  have hhi := maxInt64_val
  unfold wrap64
  omega

/-- One pass of the candidate scan of the retrieval scheduler that does not make the
increment on a record at the largest `int64` keeps every record, with a `tryCount` that
is no smaller, and leaves every `tryCount` an `int64`. -/
theorem retrieveCandidate_tryKept (w : FullNode) (m : MinerData) (rk : Cid)
    (hb : TryInt64 m.dataRefs) (hw : ¬ PassWraps w m rk) :
    TryKept m.dataRefs (retrieveCandidate w m rk).1.dataRefs ∧
      TryInt64 (retrieveCandidate w m rk).1.dataRefs := by
  have hout := retrieveCandidate_outcome w m rk
  generalize retrieveCandidate w m rk = res at hout
  cases hout with
  | missing hg => exact ⟨tryKept_refl _, hb⟩
  | noCandidate datas hg hn => exact ⟨tryKept_refl _, hb⟩
  | noPick datas hg hn hp => exact ⟨tryKept_refl _, hb⟩
  | probeFailed datas idx dealData e hg hp hl => exact ⟨tryKept_refl _, hb⟩
  | isLocal datas idx dealData hg hp hl => exact ⟨tryKept_refl _, hb⟩
  | retrieving datas idx dealData hg hp hl hc => exact ⟨tryKept_refl _, hb⟩
  | succeeded datas idx dealData resp hg hp hl hc hq hs => exact ⟨tryKept_refl _, hb⟩
  | offered datas idx dealData resp hg hp hl hc hq hs => exact ⟨tryKept_refl _, hb⟩
  | queryFailed datas idx dealData e hg hp hl hc hq =>
    have hidx := chosenRecord_get w m.now datas idx dealData hp
    obtain ⟨hmin, hmax⟩ := hb rk datas idx dealData hg hidx
    have hne : dealData.tryCount ≠ maxInt64 :=
      fun h => hw ⟨datas, idx, dealData, e, hg, hp, hl, hc, hq, h⟩
    have hlt : dealData.tryCount < maxInt64 := lt_of_le_of_ne hmax hne
    have hwrap : wrap64 (dealData.tryCount + 1) = dealData.tryCount + 1 :=
      wrap64_eq (by omega) (by omega)
    have hnew : (m.dataRefs.overwrite rk
        { datas with dealDatas := bumpTry idx datas.dealDatas }).Get rk =
        some { datas with dealDatas := bumpTry idx datas.dealDatas } := by
      rw [get_overwrite, if_pos rfl, hg]
      rfl
    constructor
    · intro k p i d hgk hi
      by_cases hk : k = rk
      · rw [hk] at hgk ⊢
        have hpd : p = datas := Option.some.inj (hgk.symm.trans hg)
        rw [hpd] at hi
        by_cases hi2 : i = idx
        · rw [hi2] at hi ⊢
          have hd : d = dealData := Option.some.inj (hi.symm.trans hidx)
          rw [hd]
          refine ⟨_, dealData.tryCount + 1, hnew, ?_, by omega⟩
          show (bumpTry idx datas.dealDatas)[idx]? = _
          rw [bumpTry_self _ _ _ hidx, hwrap]
        · refine ⟨_, d.tryCount, hnew, ?_, le_refl _⟩
          show (bumpTry idx datas.dealDatas)[i]? = _
          rw [bumpTry_other _ _ _ hi2]
          exact hi
      · refine ⟨p, d.tryCount, ?_, hi, le_refl _⟩
        show (m.dataRefs.overwrite rk _).Get k = _
        rw [get_overwrite, if_neg hk]
        exact hgk
    · intro k p1 i d1 hgk hi
      have hgk1 : (m.dataRefs.overwrite rk
          { datas with dealDatas := bumpTry idx datas.dealDatas }).Get k = some p1 := hgk
      by_cases hk : k = rk
      · rw [hk, hnew] at hgk1
        have hp1 := Option.some.inj hgk1
        rw [← hp1] at hi
        have hi1 : (bumpTry idx datas.dealDatas)[i]? = some d1 := hi
        by_cases hi2 : i = idx
        · rw [hi2, bumpTry_self _ _ _ hidx, hwrap] at hi1
          have hd1 := Option.some.inj hi1
          rw [← hd1]
          show minInt64 ≤ dealData.tryCount + 1 ∧ dealData.tryCount + 1 ≤ maxInt64
          constructor <;> omega
        · rw [bumpTry_other _ _ _ hi2] at hi1
          exact hb rk datas i d1 hg hi1
      · rw [get_overwrite, if_neg hk] at hgk1
        exact hb k p1 i d1 hgk1 hi

theorem retrieveCandidates_tryKept (w : FullNode) (keys : List Cid) (m : MinerData)
    (hb : TryInt64 m.dataRefs) (hw : ¬ ScanWraps w m keys) :
    TryKept m.dataRefs (retrieveCandidates w m keys).1.dataRefs := by
  induction keys generalizing m with
  | nil => exact tryKept_refl _
  | cons rk rest ih =>
    have hw1 : ¬ (PassWraps w m rk ∨
        ((retrieveCandidate w m rk).2 = Ctl.next ∧
          ScanWraps w (retrieveCandidate w m rk).1 rest)) := hw
    have h1 := retrieveCandidate_tryKept w m rk hb (fun h => hw1 (Or.inl h))
    unfold retrieveCandidates
    rcases hstep : retrieveCandidate w m rk with ⟨m1, _ | _ | r⟩
    · rw [hstep] at h1 hw1
      exact tryKept_trans _ _ _ h1.1 (ih m1 h1.2 (fun h => hw1 (Or.inr ⟨rfl, h⟩)))
    · rw [hstep] at h1
      exact h1.1
    · rw [hstep] at h1
      exact h1.1

theorem sweepRetrieval_dataRefs (w : FullNode) (m : MinerData) (rk : Cid) :
    (sweepRetrieval w m rk).1.dataRefs = m.dataRefs := by
  unfold sweepRetrieval
  cases m.dataRefs.Get rk with
  | none => rfl
  | some data =>
    dsimp only
    cases data.dealDatas with
    | nil => rfl
    | cons dealData rest =>
      dsimp only
      cases w.ClientHasLocal m.now dealData.dataRef.RootCID with
      | error e => rfl
      | ok has =>
        dsimp only
        split <;> rfl

theorem sweepRetrievals_dataRefs (w : FullNode) (keys : List Cid) (m : MinerData) :
    (sweepRetrievals w m keys).1.dataRefs = m.dataRefs := by
  induction keys generalizing m with
  | nil => rfl
  | cons rk rest ih =>
    have h1 := sweepRetrieval_dataRefs w m rk
    unfold sweepRetrievals
    rcases hstep : sweepRetrieval w m rk with ⟨m1, _ | r⟩
    · rw [hstep] at h1
      exact (ih m1).trans h1
    · rw [hstep] at h1
      exact h1

/-- A run of `retrieveChainData` in which no pass makes the increment on a record at
the largest `int64` decreases no `tryCount`. -/
theorem retrieveChainData_tryKept (w : FullNode) (m : MinerData)
    (hb : TryInt64 m.dataRefs) (hw : ¬ RunWraps w m) :
    TryKept m.dataRefs (retrieveChainData w m).1.dataRefs := by
  have hd := sweepRetrievals_dataRefs w m.retrievals.Keys m
  have hw1 : ¬ ((sweepRetrievals w m m.retrievals.Keys).2 = none ∧
      ¬ (sweepRetrievals w m m.retrievals.Keys).1.retrievals.Len > RetrieveParallelNum ∧
      ScanWraps w (sweepRetrievals w m m.retrievals.Keys).1
        (sweepRetrievals w m m.retrievals.Keys).1.dataRefs.Keys) := hw
  unfold retrieveChainData
  rcases hstep : sweepRetrievals w m m.retrievals.Keys with ⟨m1, _ | r⟩
  · rw [hstep] at hd hw1
    have hd1 : m1.dataRefs = m.dataRefs := hd
    have h3 : TryKept m.dataRefs m1.dataRefs := by
      rw [hd1]
      exact tryKept_refl _
    dsimp only
    split
    · exact h3
    · rename_i hlen
      have h2 := retrieveCandidates_tryKept w m1.dataRefs.Keys m1 (by rw [hd1]; exact hb)
        (fun h => hw1 ⟨rfl, hlen, h⟩)
      exact tryKept_trans _ _ _ h3 h2
  · rw [hstep] at hd
    have hd1 : m1.dataRefs = m.dataRefs := hd
    show TryKept m.dataRefs m1.dataRefs
    rw [hd1]
    exact tryKept_refl _

theorem dealCandidates_frame (w : FullNode) (keys : List Cid) (m : MinerData) :
    DealFrame m (dealCandidates w m keys).1 := by
  induction keys generalizing m with
  | nil => exact dealFrame_refl m
  | cons rk rest ih =>
    have hf := dealCandidate_frame w m rk
    rcases hstep : dealCandidate w m rk with ⟨m1, _ | _ | r⟩
    · rw [hstep] at hf
      rw [dealCandidates_cons_next _ _ _ _ _ hstep]
      exact dealFrame_trans m m1 _ hf (ih m1)
    · rw [hstep] at hf
      rw [dealCandidates_cons_brk _ _ _ _ _ hstep]
      exact hf
    · rw [hstep] at hf
      rw [dealCandidates_cons_ret _ _ _ _ _ _ hstep]
      exact hf

/-- A run of `dealChainData` adds or changes no entry of the Piece Inventory. -/
theorem dealChainData_shrinks (w : FullNode) (m : MinerData) :
    Shrinks m.dataRefs (dealChainData w m).1.dataRefs := by
  have h1 := (sweepDeals_noDeal (fun _ => True) w m.deals.Keys m).2.2.2.1
  unfold dealChainData
  rcases hstep : sweepDeals w m m.deals.Keys with ⟨m1, _ | r⟩
  · rw [hstep] at h1
    dsimp only at h1 ⊢
    split
    · exact h1
    · exact shrinks_trans _ _ _ h1 (dealCandidates_frame w _ m1).2.1
  · rw [hstep] at h1
    exact h1

theorem retrieveCandidates_cons_next (w : FullNode) (m m1 : MinerData) (rk : Cid)
    (keys : List Cid) (h : retrieveCandidate w m rk = (m1, Ctl.next)) :
    retrieveCandidates w m (rk :: keys) = retrieveCandidates w m1 keys := by
  show (match retrieveCandidate w m rk with
    | (m1, Ctl.next) => retrieveCandidates w m1 keys
    | (m1, Ctl.brk) => (m1, Result.ok)
    | (m1, Ctl.ret r) => (m1, r)) = _
  rw [h]

theorem retrieveChainData_idle_sweep (w : FullNode) (m : MinerData)
    (hr : m.retrievals = ARCCache.empty) :
    retrieveChainData w m = retrieveCandidates w m m.dataRefs.Keys := by
  have hk : m.retrievals.Keys = [] := by
    rw [hr]
    rfl
  have hl : ¬ m.retrievals.Len > RetrieveParallelNum := by
    rw [hr]
    decide
  unfold retrieveChainData
  rw [hk]
  show (if m.retrievals.Len > RetrieveParallelNum then (m, Result.ok)
    else retrieveCandidates w m m.dataRefs.Keys) = _
  rw [if_neg hl]

/-- On `strandedWorld` a run of `retrieveChainData` advances the `tryCount` of the one
record by one, as an `int64`. -/
theorem stranded_step (t : Int) (m : MinerData) (h : Stranded t m) :
    Stranded (wrap64 (t + 1)) (retrieveChainData strandedWorld m).1 := by
  obtain ⟨ha, hr, hd⟩ := h
  have hg : m.dataRefs.Get 7 =
      some { pieceID := 7, dealDatas := [{ sampleRecord with tryCount := t }] } := by
    rw [hd]
    rfl
  have hc : m.retrievals.Contains 7 = false := by
    rw [hr]
    rfl
  have heq := retrieveCandidate_query_failed strandedWorld m 7
    { pieceID := 7, dealDatas := [{ sampleRecord with tryCount := t }] } 0
    { sampleRecord with tryCount := t } "unavailable" hg rfl rfl hc rfl
  have hkeys : m.dataRefs.Keys = [7] := by
    rw [hd]
    rfl
  rw [retrieveChainData_idle_sweep strandedWorld m hr, hkeys,
    retrieveCandidates_cons_next strandedWorld m _ 7 [] heq]
  refine ⟨ha, hr, ?_⟩
  show m.dataRefs.overwrite 7 _ = _
  rw [hd]
  simp [ARCCache.overwrite, ARCCache.replace, bumpTry]

/-- On `strandedWorld` the replicator of miner 1 reaches, for every `n` up to the
largest `int64`, a state in which the record of deal 42 has the `tryCount` `n`: after
the scan and `n` runs of `retrieveChainData`. -/
theorem stranded_reachable (n : Nat) (hn : (n : Int) ≤ maxInt64) :
    ∃ m, Reachable strandedWorld m ∧ Stranded (n : Int) m := by
  induction n with
  | zero =>
    have hrun : checkChainData strandedWorld 5 (newMinerData 1) =
        some (((checkChainData strandedWorld 5 (newMinerData 1)).getD
          (newMinerData 1, Result.ok)).1, Result.ok) := by decide
    refine ⟨_, Reachable.check _ 5 _ Result.ok (Reachable.init 1) hrun, ?_⟩
    refine ⟨by decide, by decide, by decide⟩
  | succ n ih =>
    have hhi := maxInt64_val
    have hlo := minInt64_val
    obtain ⟨m, hm, hs⟩ := ih (by push_cast at hn; omega)
    refine ⟨_, Reachable.retrieve m hm, ?_⟩
    have h1 := stranded_step (n : Int) m hs
    have hwrap : wrap64 ((n : Int) + 1) = ((n + 1 : Nat) : Int) := by
      rw [wrap64_eq (by omega) (by push_cast at hn; omega)]
      push_cast
      rfl
    rw [hwrap] at h1
    exact h1

/-- C12, as the code has it: the retry counter is an `int64` and the increment has no
bound. On a node on which no provider answers, the replicator reaches a state in which
the `tryCount` of a record is the largest `int64` (each run of `retrieveChainData`
advances it by one), and the next run takes it to the smallest `int64`; `maxedState`
has the inventory of that state, and the same step is evaluated on it. -/
theorem retrieveChainData_tryCount_wraps :
    (∃ m, Reachable strandedWorld m ∧
        (m.dataRefs.Get 7).map (fun p => p.dealDatas.map (fun d => d.tryCount)) =
          some [9223372036854775807] ∧
        ((retrieveChainData strandedWorld m).1.dataRefs.Get 7).map
            (fun p => p.dealDatas.map (fun d => d.tryCount)) =
          some [-9223372036854775808]) ∧
      (maxedState.dataRefs.Get 7).map (fun p => p.dealDatas.map (fun d => d.tryCount)) =
        some [9223372036854775807] ∧
      ((retrieveChainData unreachableWorld maxedState).1.dataRefs.Get 7).map
          (fun p => p.dealDatas.map (fun d => d.tryCount)) =
        some [-9223372036854775808] := by
  refine ⟨?_, by decide, by decide⟩
  obtain ⟨m, hm, hs⟩ := stranded_reachable 9223372036854775807 (by decide)
  have hs1 := stranded_step _ m hs
  refine ⟨m, hm, ?_, ?_⟩
  · rw [hs.2.2]
    rfl
  · rw [hs1.2.2]
    decide

/-- C12, amended: when the retrieval query to the chosen provider fails and the
`tryCount` of the chosen record is an `int64` below the largest one, the pass goes on
to the next piece, leaves the Retrieval Set and the other entries of the Piece
Inventory as they were, and keeps the entry of the piece with the same records, the
chosen one with its `tryCount` advanced by one. No operation decreases a `tryCount`,
the increment on a record at the largest `int64` apart: a run of `checkChainData` that
leaves the Piece Inventory within the capacity of the cache keeps every record as it
was, a run of `retrieveChainData` on `int64` counters in which no pass makes that
increment keeps every record with a `tryCount` that is no smaller, and a run of
`dealChainData` changes no entry of the Piece Inventory that it keeps. -/
theorem tryCount_advances (w : FullNode) (m : MinerData) :
    (∀ rk datas idx dealData e,
        m.dataRefs.Get rk = some datas →
        chosenRecord w m.now datas = some (idx, dealData) →
        w.ClientHasLocal m.now dealData.dataRef.RootCID = .ok false →
        m.retrievals.Contains dealData.deal.PieceCID = false →
        w.ClientQuery (m.now + 1) dealData.dataRef.RootCID dealData.deal.Provider =
          .error e →
        minInt64 ≤ dealData.tryCount → dealData.tryCount < maxInt64 →
        (retrieveCandidate w m rk).2 = Ctl.next ∧
          (∀ keys, retrieveCandidates w m (rk :: keys) =
            retrieveCandidates w (retrieveCandidate w m rk).1 keys) ∧
          (retrieveCandidate w m rk).1.retrievals = m.retrievals ∧
          (∀ k, k ≠ rk → (retrieveCandidate w m rk).1.dataRefs.Get k = m.dataRefs.Get k) ∧
          ∃ p1, (retrieveCandidate w m rk).1.dataRefs.Get rk = some p1 ∧
            p1.pieceID = datas.pieceID ∧
            p1.dealDatas.length = datas.dealDatas.length ∧
            datas.dealDatas[idx]? = some dealData ∧
            p1.dealDatas[idx]? =
              some { dealData with tryCount := dealData.tryCount + 1 } ∧
            ∀ i, i ≠ idx → p1.dealDatas[i]? = datas.dealDatas[i]?) ∧
      (∀ fuel m1 r, checkChainData w fuel m = some (m1, r) →
        m1.dataRefs.Len ≤ ARCCapacity → Kept m.dataRefs m1.dataRefs) ∧
      (TryInt64 m.dataRefs → ¬ RunWraps w m →
        TryKept m.dataRefs (retrieveChainData w m).1.dataRefs) ∧
      Shrinks m.dataRefs (dealChainData w m).1.dataRefs := by
  refine ⟨?_, fun fuel m1 r h _ => checkChainData_kept w fuel m m1 r h,
    fun hb hw => retrieveChainData_tryKept w m hb hw, dealChainData_shrinks w m⟩
  intro rk datas idx dealData e hg hp hl hc hq hmin hmax
  have heq := retrieveCandidate_query_failed w m rk datas idx dealData e hg hp hl hc hq
  have hidx := chosenRecord_get w m.now datas idx dealData hp
  have hwrap : wrap64 (dealData.tryCount + 1) = dealData.tryCount + 1 :=
    wrap64_eq (by omega) (by omega)
  refine ⟨by rw [heq], fun keys => ?_, by rw [heq]; rfl, fun k hk => ?_,
    { datas with dealDatas := bumpTry idx datas.dealDatas }, ?_, rfl,
    bumpTry_length _ _, hidx, ?_, fun i hi => bumpTry_other _ _ _ hi⟩
  · rw [retrieveCandidates_cons_next w m _ rk keys heq, heq]
  · rw [heq]
    show (m.dataRefs.overwrite rk _).Get k = _
    rw [get_overwrite, if_neg hk]
  · rw [heq]
    show (m.dataRefs.overwrite rk _).Get rk = _
    rw [get_overwrite, if_pos rfl, hg]
    rfl
  · show (bumpTry idx datas.dealDatas)[idx]? = _
    rw [bumpTry_self _ _ _ hidx, hwrap]

theorem tryCount_advances_witness :
    ((retrieveCandidate unreachableWorld knowingState 7).2 = Ctl.next ∧
        (retrieveCandidate unreachableWorld knowingState 7).1.retrievals =
          knowingState.retrievals ∧
        ∃ p1, (retrieveCandidate unreachableWorld knowingState 7).1.dataRefs.Get 7 =
            some p1 ∧
          p1.dealDatas[0]? = some { sampleRecord with tryCount := 0 + 1 }) ∧
      Kept (newMinerData 1).dataRefs fetchedIndexed.dataRefs ∧
      TryKept knowingState.dataRefs (retrieveChainData unreachableWorld knowingState).1.dataRefs :=
  ⟨match (tryCount_advances unreachableWorld knowingState).1 7
        { pieceID := 7, dealDatas := [sampleRecord] } 0 sampleRecord "unavailable"
        rfl rfl rfl rfl rfl (by decide) (by decide) with
    | ⟨h1, _, h3, _, p1, h5, _, _, _, h9, _⟩ => ⟨h1, h3, p1, h5, h9⟩,
    (tryCount_advances fetchedWorld (newMinerData 1)).2.1 5 fetchedIndexed Result.ok
      (by decide) (by decide),
    (tryCount_advances unreachableWorld knowingState).2.2.1
      (fun k p i d hg hi => by
        have hk : k = 7 ∧ p = { pieceID := 7, dealDatas := [sampleRecord] } := by
          simp [knowingState, ARCCache.Get, ARCCache.lookup] at hg
          exact ⟨hg.1.symm, hg.2.symm⟩
        rw [hk.2] at hi
        cases i with
        | zero =>
          simp at hi
          rw [← hi]
          decide
        | succ j => simp at hi)
      (fun hw => by
        obtain ⟨_, _, hscan⟩ := hw
        have hscan1 : PassWraps unreachableWorld knowingState 7 ∨
            ((retrieveCandidate unreachableWorld knowingState 7).2 = Ctl.next ∧ False) :=
          hscan
        rcases hscan1 with ⟨datas, idx, dealData, e, hg, hp, _, _, _, hmax⟩ | ⟨_, hf⟩
        · have hd : datas = { pieceID := 7, dealDatas := [sampleRecord] } :=
            (Option.some.inj hg).symm
          rw [hd] at hp
          have hp1 : some (0, sampleRecord) = some (idx, dealData) := hp
          have hp2 := Option.some.inj hp1
          have hp3 : dealData = sampleRecord := (congrArg Prod.snd hp2).symm
          rw [hp3] at hmax
          revert hmax
          decide
        · exact hf)⟩

/-! ### Pieces the local miner already serves -/

/-- The pass of the candidate scan of the deal scheduler up to the answer of the
local-store probe, when the probe succeeds. -/
theorem dealCandidate_probed (w : FullNode) (m : MinerData) (rk : Cid) (data : PieceData)
    (d : DealData) (rest : List DealData) (has : Bool)
    (hg : m.dataRefs.Get rk = some data) (hd : data.dealDatas = d :: rest)
    (hl : w.ClientHasLocal m.now d.dataRef.RootCID = .ok has) :
    dealCandidate w m rk =
      if has = false ∨ m.deals.Contains rk = true then
        (m.log (Call.ClientHasLocal d.dataRef.RootCID), Ctl.next)
      else
        match w.ClientMinerQueryOffer (m.now + 1) m.address d.dataRef.RootCID with
        | .error e =>
          ((m.log (Call.ClientHasLocal d.dataRef.RootCID)).log
            (Call.ClientMinerQueryOffer m.address d.dataRef.RootCID), Ctl.ret (Result.error e))
        | .ok offer =>
          if offer.Err = "" then
            ({ (m.log (Call.ClientHasLocal d.dataRef.RootCID)).log
                  (Call.ClientMinerQueryOffer m.address d.dataRef.RootCID) with
                dataRefs := m.dataRefs.Remove rk }, Ctl.next)
          else
            dealCandidate w m rk := by
  have hout := dealCandidate_outcome w m rk
  have hinj : ∀ data1 d1 rest1, m.dataRefs.Get rk = some data1 →
      data1.dealDatas = d1 :: rest1 → d1 = d := by
    intro data1 d1 rest1 hg1 hd1
    have h1 : data1 = data := Option.some.inj (hg1.symm.trans hg)
    rw [h1, hd] at hd1
    exact (List.cons.inj hd1).1.symm
  generalize hres : dealCandidate w m rk = res at hout
  cases hout with
  | missing hg1 => rw [hg] at hg1; cases hg1
  | noRecord data1 hg1 hd1 =>
    have h1 : data1 = data := Option.some.inj (hg1.symm.trans hg)
    rw [h1, hd] at hd1
    cases hd1
  | probeFailed data1 d1 rest1 e hg1 hd1 hl1 =>
    rw [hinj data1 d1 rest1 hg1 hd1, hl] at hl1
    cases hl1
  | notLocal data1 d1 rest1 hg1 hd1 hl1 =>
    have hd2 := hinj data1 d1 rest1 hg1 hd1
    subst hd2
    rw [hl] at hl1
    cases hl1
    simp
  | dealing data1 d1 rest1 hg1 hd1 hl1 hc1 =>
    have hd2 := hinj data1 d1 rest1 hg1 hd1
    subst hd2
    simp [hc1]
  | offerFailed data1 d1 rest1 e hg1 hd1 hl1 hc1 ho1 =>
    have hd2 := hinj data1 d1 rest1 hg1 hd1
    subst hd2
    rw [hl] at hl1
    cases hl1
    simp [hc1, ho1]
  | served data1 d1 rest1 offer hg1 hd1 hl1 hc1 ho1 he1 =>
    have hd2 := hinj data1 d1 rest1 hg1 hd1
    subst hd2
    rw [hl] at hl1
    cases hl1
    simp [hc1, ho1, he1]
  | infoFailed data1 d1 rest1 offer e hg1 hd1 hl1 hc1 ho1 he1 hi1 =>
    have hd2 := hinj data1 d1 rest1 hg1 hd1
    subst hd2
    rw [hl] at hl1
    cases hl1
    simp [hc1, ho1, he1]
  | noPeer data1 d1 rest1 offer mi hg1 hd1 hl1 hc1 ho1 he1 hi1 hp1 =>
    have hd2 := hinj data1 d1 rest1 hg1 hd1
    subst hd2
    rw [hl] at hl1
    cases hl1
    simp [hc1, ho1, he1]
  | uninitialized data1 d1 rest1 offer mi hg1 hd1 hl1 hc1 ho1 he1 hi1 hp1 =>
    have hd2 := hinj data1 d1 rest1 hg1 hd1
    subst hd2
    rw [hl] at hl1
    cases hl1
    simp [hc1, ho1, he1]
  | startFailed data1 d1 rest1 offer mi peerId e hg1 hd1 hl1 hc1 ho1 he1 hi1 hp1 hs1 hr1 =>
    have hd2 := hinj data1 d1 rest1 hg1 hd1
    subst hd2
    rw [hl] at hl1
    cases hl1
    simp [hc1, ho1, he1]
  | started data1 d1 rest1 offer mi peerId dealID hg1 hd1 hl1 hc1 ho1 he1 hi1 hp1 hs1 hr1 =>
    have hd2 := hinj data1 d1 rest1 hg1 hd1
    subst hd2
    rw [hl] at hl1
    cases hl1
    simp [hc1, ho1, he1]

/-- C21: in a pass of the candidate scan of the deal scheduler for a piece with the
first record `d`: when the content is local, the piece is not in the Deal Set and the
offer of the local miner reports no error, the pass issues the probe and the offer
query only, removes the entry of the piece from the Piece Inventory, leaves the Deal
Set as it was and goes on; when the content is not local, or is local with the piece in
the Deal Set, the pass issues the probe only, changes no container and goes on. -/
theorem dealCandidate_served (w : FullNode) (m : MinerData) (rk : Cid) (data : PieceData)
    (d : DealData) (rest : List DealData)
    (hg : m.dataRefs.Get rk = some data) (hd : data.dealDatas = d :: rest) :
    (∀ offer, w.ClientHasLocal m.now d.dataRef.RootCID = .ok true →
        m.deals.Contains rk = false →
        w.ClientMinerQueryOffer (m.now + 1) m.address d.dataRef.RootCID = .ok offer →
        offer.Err = "" →
        (dealCandidate w m rk).2 = Ctl.next ∧
          (dealCandidate w m rk).1.dataRefs = m.dataRefs.Remove rk ∧
          (dealCandidate w m rk).1.dataRefs.Get rk = none ∧
          (dealCandidate w m rk).1.deals = m.deals ∧
          (dealCandidate w m rk).1.retrievals = m.retrievals ∧
          (dealCandidate w m rk).1.calls.drop m.calls.length =
            [Call.ClientHasLocal d.dataRef.RootCID,
              Call.ClientMinerQueryOffer m.address d.dataRef.RootCID]) ∧
      (∀ has, w.ClientHasLocal m.now d.dataRef.RootCID = .ok has →
        has = false ∨ m.deals.Contains rk = true →
        (dealCandidate w m rk).2 = Ctl.next ∧
          (dealCandidate w m rk).1.dataRefs = m.dataRefs ∧
          (dealCandidate w m rk).1.deals = m.deals ∧
          (dealCandidate w m rk).1.retrievals = m.retrievals ∧
          (dealCandidate w m rk).1.calls.drop m.calls.length =
            [Call.ClientHasLocal d.dataRef.RootCID]) := by
  constructor
  · intro offer hl hc ho he
    have heq := dealCandidate_probed w m rk data d rest true hg hd hl
    simp only [hc, ho, he, Bool.true_eq_false, Bool.false_eq_true, or_self, if_false,
      if_true] at heq
    rw [heq]
    refine ⟨rfl, rfl, ?_, rfl, rfl, drop_log2 m _ _⟩
    show (m.dataRefs.Remove rk).Get rk = none
    rw [get_Remove, if_pos rfl]
  · intro has hl hcond
    have heq := dealCandidate_probed w m rk data d rest has hg hd hl
    rw [if_pos hcond] at heq
    rw [heq]
    exact ⟨rfl, rfl, rfl, rfl, drop_log1 m _⟩

theorem dealCandidate_served_witness :
    (dealCandidate servingWorld knowingState 7).2 = Ctl.next ∧
      (dealCandidate servingWorld knowingState 7).1.dataRefs.Get 7 = none ∧
      (dealCandidate servingWorld knowingState 7).1.deals = knowingState.deals :=
  match (dealCandidate_served servingWorld knowingState 7
      { pieceID := 7, dealDatas := [sampleRecord] } sampleRecord [] rfl rfl).1
      { Err := "" } rfl rfl rfl rfl with
  | ⟨h1, _, h3, h4, _⟩ => ⟨h1, h3, h4⟩

/-! ### Stopping the replicator -/

/-- C25, as the code has it: a replicator that was started and whose first `Stop` ended
on its context is still running, with `stop` present and closed; a second `Stop`
closes the closed channel and fails at run time. -/
theorem Stop_twice_fails :
    (idleReplicator.Start.1.Stop (some "context deadline exceeded")).2 =
        Result.error "context deadline exceeded" ∧
      (idleReplicator.Start.1.Stop (some "context deadline exceeded")).1.stop =
        some { closed := true } ∧
      ((idleReplicator.Start.1.Stop (some "context deadline exceeded")).1.Stop none).2 =
        Result.panic Panic.closeOfClosedChannel := by
  refine ⟨rfl, rfl, rfl⟩

/-- C25, amended: `Stop` first creates the stopping signal. On an idle replicator
(`stop` absent: never started, or after the driver has cleared the signals) it then
closes an absent channel and fails at run time. On a replicator whose `stop` is
present and open it closes `stop`, and returns the error of the context when that ends
first, and `nil` once the driver has cleared both signals. On a replicator whose `stop`
is present and closed already it fails at run time on the second close. -/
theorem Stop_spec (r : Replicator) (ctxErr : Option Err) :
    (r.stop = none →
        r.Stop ctxErr =
          ({ r with stopping := some { closed := false } },
            Result.panic Panic.closeOfNilChannel)) ∧
      (r.halt.Stop ctxErr).2 = Result.panic Panic.closeOfNilChannel ∧
      (idleReplicator.Stop ctxErr).2 = Result.panic Panic.closeOfNilChannel ∧
      (r.stop = some { closed := false } →
        (∀ e, r.Stop (some e) =
            ({ r with stopping := some { closed := false }, stop := some { closed := true } },
              Result.error e)) ∧
          r.Stop none = ({ r with stopping := none, stop := none }, Result.ok)) ∧
      (r.stop = some { closed := true } →
        r.Stop ctxErr =
          ({ r with stopping := some { closed := false } },
            Result.panic Panic.closeOfClosedChannel)) := by
  refine ⟨?_, rfl, rfl, ?_, ?_⟩
  · intro h
    unfold Replicator.Stop
    simp [h]
  · intro h
    constructor
    · intro e
      unfold Replicator.Stop
      simp [h]
    · unfold Replicator.Stop
      simp [h, Replicator.halt]
  · intro h
    unfold Replicator.Stop
    simp [h]

theorem Stop_spec_witness :
    idleReplicator.Stop none =
        ({ idleReplicator with stopping := some { closed := false } },
          Result.panic Panic.closeOfNilChannel) ∧
      idleReplicator.Start.1.Stop none =
        ({ idleReplicator.Start.1 with stopping := none, stop := none }, Result.ok) :=
  ⟨(Stop_spec idleReplicator none).1 rfl,
    ((Stop_spec idleReplicator.Start.1 none).2.2.2.1 rfl).2⟩

/-! ### The containment check of the backup -/

/-- C26, as the code has it: with the base path `/base`, `backup` opens and writes the
file `/base-other/x`, which is not inside `/base`, and returns `nil`; the check is the
prefix test on the strings, which `/base-other/x` passes, while a file inside the base
path passes and a file elsewhere is refused. -/
theorem backup_opens_sibling :
    backup baseEnv "/base-other/x" = (["/base-other/x"], none) ∧
      Inside "/base" "/base-other/x" = false ∧
      HasPrefix "/base-other/x" "/base" = true ∧
      backup baseEnv "/base/x" = (["/base/x"], none) ∧
      Inside "/base" "/base/x" = true ∧
      backup baseEnv "/tmp/x" =
        ([], some "backup file name (/tmp/x) must be inside base path (/base)") := by
  refine ⟨?_, ?_, ?_, ?_, ?_, ?_⟩ <;> decide

/-! ### Termination of the scan -/

theorem scanHeight_stop (w : FullNode) (ld : List DealInfo) (m : MinerData)
    (h : (scanHeight w ld m).2 = LoopCtl.stop) : w.stopping m.now = true := by
  rw [scanHeight_unfold] at h
  split at h
  · rename_i hs
    exact hs
  · exfalso
    cases hq : w.ChainGetTipSetByHeight m.now m.checkHeight EmptyTSK with
    | error e =>
      rw [hq] at h
      cases h
    | ok ts =>
      rw [hq] at h
      dsimp only at h
      split at h
      · cases h
      · exact (indexTipset_eq w ld _ ts).2.2.2.1 h

/-- A scan that returns `nil` while no stop request is pending has brought the cursor
to the height of the head or beyond. -/
theorem scanLoop_reaches_head (w : FullNode) (head : TipSet) (ld : List DealInfo)
    (hrun : ∀ t, w.stopping t = false) (fuel : Nat) (m m1 : MinerData)
    (hres : scanLoop w head ld fuel m = some (m1, Result.ok)) :
    head.Height ≤ m1.checkHeight := by
  induction fuel generalizing m with
  | zero =>
    unfold scanLoop at hres
    split at hres
    · cases hres
    · rename_i hc
      simp at hres
      rw [← hres]
      exact Int.not_lt.mp hc
  | succ fuel ih =>
    unfold scanLoop at hres
    split at hres
    · have hstop := scanHeight_stop w ld m
      rcases hstep : scanHeight w ld m with ⟨m2, ctl⟩
      rw [hstep] at hres hstop
      cases ctl with
      | stop =>
        have h1 := hstop rfl
        rw [hrun] at h1
        cases h1
      | fail e => simp at hres
      | next => exact ih m2 hres
    · rename_i hc
      simp at hres
      rw [← hres]
      exact Int.not_lt.mp hc

theorem checkChainData_reaches_head (w : FullNode) (hrun : ∀ t, w.stopping t = false)
    (fuel : Nat) (m m1 : MinerData) (head : TipSet) (hh : w.ChainHead m.now = .ok head)
    (hres : checkChainData w fuel m = some (m1, Result.ok)) :
    head.Height ≤ m1.checkHeight := by
  unfold checkChainData at hres
  dsimp only at hres
  rw [hh] at hres
  dsimp only at hres
  cases hl : w.ClientListDeals (m.log Call.ChainHead).now with
  | error e =>
    rw [hl] at hres
    simp at hres
  | ok ld =>
    rw [hl] at hres
    exact scanLoop_reaches_head w head ld hrun fuel
      ((m.log Call.ChainHead).log Call.ClientListDeals) m1 hres

/-- On the chain of `spinNode` a pass of the scan loop entered with the cursor below the
head goes on, with the cursor at the smallest `int64`. -/
theorem scanHeight_spins (m : MinerData) (h : m.checkHeight < 12) :
    (scanHeight spinWorld [] m).2 = LoopCtl.next ∧
      (scanHeight spinWorld [] m).1.checkHeight = minInt64 := by
  have hhi := maxInt64_val
  have hs : spinWorld.stopping m.now = false := rfl
  have ht : spinWorld.ChainGetTipSetByHeight m.now m.checkHeight EmptyTSK =
      .ok (blockAt m.checkHeight maxInt64) := rfl
  have hheight : ¬ (blockAt m.checkHeight maxInt64).Height < m.checkHeight := by
    show ¬ maxInt64 < m.checkHeight
    omega
  have hwrap : wrap64 (maxInt64 + 1) = minInt64 := by decide
  rw [scanHeight_unfold, hs]
  simp only [Bool.false_eq_true, if_false, ht, hheight]
  have heq := indexTipset_eq spinWorld []
    (m.log (Call.ChainGetTipSetByHeight m.checkHeight EmptyTSK)) (blockAt m.checkHeight maxInt64)
  have hnext : (indexTipset spinWorld []
      (m.log (Call.ChainGetTipSetByHeight m.checkHeight EmptyTSK))
      (blockAt m.checkHeight maxInt64)).2 = LoopCtl.next := heq.2.2.1.mpr rfl
  refine ⟨hnext, ?_⟩
  rw [heq.2.2.2.2.1 hnext]
  exact hwrap

theorem scanLoop_spins (fuel : Nat) (m : MinerData) (h : m.checkHeight < 12) :
    scanLoop spinWorld (blockAt 12 12) [] fuel m = none := by
  have hlt : ∀ m0 : MinerData, m0.checkHeight < 12 →
      m0.checkHeight < (blockAt 12 12).Height := fun _ h0 => h0
  induction fuel generalizing m with
  | zero =>
    unfold scanLoop
    rw [if_pos (hlt m h)]
  | succ fuel ih =>
    have hsp := scanHeight_spins m h
    unfold scanLoop
    rw [if_pos (hlt m h)]
    rcases hstep : scanHeight spinWorld [] m with ⟨m2, ctl⟩
    rw [hstep] at hsp
    obtain ⟨hctl, hcur⟩ := hsp
    dsimp only at hctl hcur
    rw [hctl]
    dsimp only
    refine ih m2 ?_
    rw [hcur]
    decide

/-- C24, as the code has it: the cursor is an `int64`; on a chain with head at 12 whose
tipsets report the largest `int64` epoch, the first pass of the loop takes the cursor
from 10 to the smallest `int64`, and the scan loop of `checkChainData` never ends. -/
theorem checkChainData_spins :
    (scanHeight spinWorld [] (newMinerData 1)).2 = LoopCtl.next ∧
      (scanHeight spinWorld [] (newMinerData 1)).1.checkHeight = -9223372036854775808 ∧
      spinWorld.ChainHead 0 = .ok (blockAt 12 12) ∧
      ∀ fuel, checkChainData spinWorld fuel (newMinerData 1) = none := by
  refine ⟨(scanHeight_spins (newMinerData 1) (by decide)).1, ?_, rfl, ?_⟩
  · rw [(scanHeight_spins (newMinerData 1) (by decide)).2]
    exact minInt64_val
  · intro fuel
    have h := checkChainData_static spinNode neverStopping zeroRand (blockAt 12 12) [] rfl rfl
      fuel (newMinerData 1)
    show checkChainData (spinNode.toFullNode neverStopping zeroRand) fuel (newMinerData 1) = none
    rw [h]
    exact scanLoop_spins fuel _ (by decide)

/-- C24, amended: when the cursor, the heights of the heads and the heights of the
tipsets the node returns are `int64` values and no tipset reports the largest `int64`
epoch, `checkChainData` returns; each pass of the scan loop that does not return
strictly increases the cursor, to the cursor plus one or to the height of the tipset
fetched plus one; and a call that returns `nil` while no stop request is pending leaves
the cursor at or above the height of the head read at the start of the call. -/
theorem checkChainData_terminates (w : FullNode)
    (hhead : ∀ t head, w.ChainHead t = .ok head → head.Height ≤ maxInt64)
    (hts : ∀ t h k ts, w.ChainGetTipSetByHeight t h k = .ok ts → ts.Height < maxInt64)
    (m : MinerData) (hmin : minInt64 ≤ m.checkHeight) :
    (∃ fuel, (checkChainData w fuel m).isSome = true) ∧
      (∀ (ld : List DealInfo) (m0 : MinerData) (head : TipSet),
        minInt64 ≤ m0.checkHeight → m0.checkHeight < head.Height →
        head.Height ≤ maxInt64 → (scanHeight w ld m0).2 = LoopCtl.next →
        m0.checkHeight < (scanHeight w ld m0).1.checkHeight ∧
          ((scanHeight w ld m0).1.checkHeight = m0.checkHeight + 1 ∨
            ∃ ts, w.ChainGetTipSetByHeight m0.now m0.checkHeight EmptyTSK = .ok ts ∧
              m0.checkHeight ≤ ts.Height ∧
              (scanHeight w ld m0).1.checkHeight = ts.Height + 1)) ∧
      (∀ fuel m1 head, w.ChainHead m.now = .ok head → (∀ t, w.stopping t = false) →
        checkChainData w fuel m = some (m1, Result.ok) → head.Height ≤ m1.checkHeight) := by
  refine ⟨checkChainData_returns w hhead hts m hmin, ?_,
    fun fuel m1 head hh hrun hres => checkChainData_reaches_head w hrun fuel m m1 head hh hres⟩
  intro ld m0 head hmin0 hloop hh hnext
  refine ⟨scanHeight_next_lt w ld m0 head hmin0 hloop hh hts hnext, ?_⟩
  rcases scanHeight_cursor w ld m0 with ⟨_, hc⟩ | ⟨hne, _⟩
  · rcases hc with hc | ⟨ts, hq, hle, hc⟩
    · left
      rw [hc]
      exact wrap64_eq (by omega) (by omega)
    · right
      have hlt := hts _ _ _ ts hq
      refine ⟨ts, hq, hle, ?_⟩
      rw [hc]
      exact wrap64_eq (by omega) (by omega)
  · exact absurd hnext hne

theorem checkChainData_terminates_witness :
    (∃ fuel, (checkChainData boundedWorld fuel (newMinerData 1)).isSome = true) ∧
      (10 : Int) < (scanHeight boundedWorld [] (newMinerData 1)).1.checkHeight :=
  ⟨(checkChainData_terminates boundedWorld boundedWorld_head boundedWorld_tipsets
      (newMinerData 1) (by decide)).1,
    ((checkChainData_terminates boundedWorld boundedWorld_head boundedWorld_tipsets
      (newMinerData 1) (by decide)).2.1 [] (newMinerData 1) (blockAt 12 12)
      (by decide) (by decide) (by decide) (by decide)).1⟩

/-! ### The keys of the Retrieval Set -/

/-- C22 (the code departs from the claim): a fresh replicator indexes piece 7, the
retrieval scheduler puts it in the Retrieval Set, the content becomes local and the
deal scheduler, finding that the local miner serves it, removes piece 7 from the Piece
Inventory and leaves it in the Retrieval Set; the three calls return `nil`. In the
state reached, the next `retrieveChainData` finds no entry for the key 7 of the
Retrieval Set and fails at run time on the type assertion. -/
theorem retrieveChainData_sweep_misses :
    checkChainData fetchedWorld 5 (newMinerData 1) = some (fetchedIndexed, Result.ok) ∧
      (retrieveChainData fetchedWorld fetchedIndexed).2 = Result.ok ∧
      (dealChainData fetchedWorld fetchedQueried).2 = Result.ok ∧
      Reachable fetchedWorld fetchedServed ∧
      fetchedQueried.retrievals.Keys = [7] ∧ fetchedQueried.dataRefs.Keys = [7] ∧
      fetchedServed.retrievals.Keys = [7] ∧ fetchedServed.dataRefs.Keys = [] ∧
      (retrieveChainData fetchedWorld fetchedServed).2 =
        Result.panic Panic.nilTypeAssertion := by
  have hrun : checkChainData fetchedWorld 5 (newMinerData 1) =
      some (fetchedIndexed, Result.ok) := by decide
  refine ⟨hrun, by decide, by decide, ?_, by decide, by decide, by decide, by decide,
    by decide⟩
  exact Reachable.deal _ (Reachable.retrieve _
    (Reachable.check _ 5 _ Result.ok (Reachable.init 1) hrun))

/-! ### The data references -/

theorem zeroRefs_Add (c : ARCCache PieceData) (pk : Cid) (v : PieceData) (hz : ZeroRefs c)
    (hv : ∀ d ∈ v.dealDatas, d.dataRef = PublishStorageDataRef.zero) :
    ZeroRefs (c.Add pk v) := by
  intro k p d hg hd
  rw [get_Add] at hg
  split at hg
  · cases hg
    exact hv d hd
  · exact hz k p d hg hd

theorem zeroRefs_overwrite (c : ARCCache PieceData) (pk : Cid) (v : PieceData)
    (hz : ZeroRefs c) (hv : ∀ d ∈ v.dealDatas, d.dataRef = PublishStorageDataRef.zero) :
    ZeroRefs (c.overwrite pk v) := by
  intro k p d hg hd
  rw [get_overwrite] at hg
  split at hg
  · cases hc : c.Get pk with
    | none =>
      rw [hc] at hg
      cases hg
    | some p0 =>
      rw [hc] at hg
      cases hg
      exact hv d hd
  · exact hz k p d hg hd

theorem zeroRefs_shrinks (c c1 : ARCCache PieceData) (hz : ZeroRefs c) (hs : Shrinks c c1) :
    ZeroRefs c1 := fun k p d hg hd => hz k p d (hs k p hg) hd

theorem indexDeal_zeroRefs (w : FullNode) (ld : List DealInfo) (ptsk : TipSetKey)
    (m : MinerData) (did : DealID) (hz : ZeroRefs m.dataRefs) :
    ZeroRefs (indexDeal w ld ptsk m did).1.dataRefs := by
  unfold indexDeal
  cases w.StateMarketStorageDeal m.now did ptsk with
  | error e => exact hz
  | ok deal =>
    dsimp only
    split
    · exact hz
    · split
      · exact hz
      · refine zeroRefs_Add m.dataRefs _ _ hz ?_
        intro d hd
        have hd1 : d ∈ (match m.dataRefs.Get deal.Proposal.PieceCID with
            | some d => d
            | none => { pieceID := deal.Proposal.PieceCID, dealDatas := [] }).dealDatas ++
            [{ deal := deal.Proposal, dealID := did, state := deal.State,
               dataRef := PublishStorageDataRef.zero, tryCount := 0 }] := hd
        rcases List.mem_append.mp hd1 with h1 | h1
        · cases hg : m.dataRefs.Get deal.Proposal.PieceCID with
          | none =>
            rw [hg] at h1
            cases h1
          | some p =>
            rw [hg] at h1
            exact hz _ p d hg h1
        · rw [List.mem_singleton.mp h1]

theorem indexDeals_zeroRefs (w : FullNode) (ld : List DealInfo) (ptsk : TipSetKey)
    (dids : List DealID) (m : MinerData) (hz : ZeroRefs m.dataRefs) :
    ZeroRefs (indexDeals w ld ptsk m dids).1.dataRefs := by
  induction dids generalizing m with
  | nil => exact hz
  | cons did rest ih =>
    have h1 := indexDeal_zeroRefs w ld ptsk m did hz
    unfold indexDeals
    rcases hstep : indexDeal w ld ptsk m did with ⟨m1, _ | e⟩
    · rw [hstep] at h1
      exact ih m1 h1
    · rw [hstep] at h1
      exact h1

theorem indexMessage_zeroRefs (w : FullNode) (ld : List DealInfo) (ptsk : TipSetKey)
    (m : MinerData) (msg : Message) (hz : ZeroRefs m.dataRefs) :
    ZeroRefs (indexMessage w ld ptsk m msg).1.dataRefs := by
  unfold indexMessage
  split
  · exact hz
  · cases w.UnmarshalCBOR msg.Params with
    | none => exact hz
    | some params =>
      dsimp only
      cases w.StateSectorPreCommitInfo m.now msg.To params.SectorNumber ptsk with
      | ok pci =>
        exact indexDeals_zeroRefs w ld ptsk pci.Info.DealIDs
          (m.log (Call.StateSectorPreCommitInfo msg.To params.SectorNumber ptsk)) hz
      | error _ =>
        dsimp only
        cases w.StateSectorGetInfo (m.log
            (Call.StateSectorPreCommitInfo msg.To params.SectorNumber ptsk)).now
            msg.To params.SectorNumber ptsk with
        | error e => exact hz
        | ok sci =>
          exact indexDeals_zeroRefs w ld ptsk sci.DealIDs
            ((m.log (Call.StateSectorPreCommitInfo msg.To params.SectorNumber ptsk)).log
              (Call.StateSectorGetInfo msg.To params.SectorNumber ptsk)) hz

theorem indexMessages_zeroRefs (w : FullNode) (ld : List DealInfo) (ptsk : TipSetKey)
    (msgs : List Message) (m : MinerData) (hz : ZeroRefs m.dataRefs) :
    ZeroRefs (indexMessages w ld ptsk m msgs).1.dataRefs := by
  induction msgs generalizing m with
  | nil => exact hz
  | cons msg rest ih =>
    have h1 := indexMessage_zeroRefs w ld ptsk m msg hz
    unfold indexMessages
    rcases hstep : indexMessage w ld ptsk m msg with ⟨m1, _ | e⟩
    · rw [hstep] at h1
      exact ih m1 h1
    · rw [hstep] at h1
      exact h1

theorem scanHeight_zeroRefs (w : FullNode) (ld : List DealInfo) (m : MinerData)
    (hz : ZeroRefs m.dataRefs) : ZeroRefs (scanHeight w ld m).1.dataRefs := by
  rw [scanHeight_unfold]
  split
  · exact hz
  · cases w.ChainGetTipSetByHeight m.now m.checkHeight EmptyTSK with
    | error e => exact hz
    | ok ts =>
      dsimp only
      split
      · exact hz
      · rw [(indexTipset_eq w ld _ ts).1]
        exact indexMessages_zeroRefs w ld ts.Parents _
          ((m.log (Call.ChainGetTipSetByHeight m.checkHeight EmptyTSK)).log
            (Call.ChainGetParentMessages ts.FirstCid)) hz

theorem scanLoop_zeroRefs (w : FullNode) (head : TipSet) (ld : List DealInfo) (fuel : Nat)
    (m m1 : MinerData) (r : Result) (hz : ZeroRefs m.dataRefs)
    (hrun : scanLoop w head ld fuel m = some (m1, r)) : ZeroRefs m1.dataRefs := by
  induction fuel generalizing m with
  | zero =>
    unfold scanLoop at hrun
    split at hrun
    · simp at hrun
    · simp at hrun
      rw [← hrun.1]
      exact hz
  | succ fuel ih =>
    unfold scanLoop at hrun
    split at hrun
    · have hk := scanHeight_zeroRefs w ld m hz
      rcases hstep : scanHeight w ld m with ⟨m2, ctl⟩
      rw [hstep] at hrun hk
      cases ctl with
      | stop =>
        simp at hrun
        rw [← hrun.1]
        exact hk
      | fail e =>
        simp at hrun
        rw [← hrun.1]
        exact hk
      | next => exact ih m2 hk hrun
    · simp at hrun
      rw [← hrun.1]
      exact hz

theorem checkChainData_zeroRefs (w : FullNode) (fuel : Nat) (m m1 : MinerData) (r : Result)
    (hz : ZeroRefs m.dataRefs) (hrun : checkChainData w fuel m = some (m1, r)) :
    ZeroRefs m1.dataRefs := by
  unfold checkChainData at hrun
  dsimp only at hrun
  cases hh : w.ChainHead m.now with
  | error e =>
    rw [hh] at hrun
    simp at hrun
    rw [← hrun.1]
    exact hz
  | ok head =>
    rw [hh] at hrun
    dsimp only at hrun
    cases hl : w.ClientListDeals (m.log Call.ChainHead).now with
    | error e =>
      rw [hl] at hrun
      simp at hrun
      rw [← hrun.1]
      exact hz
    | ok ld =>
      rw [hl] at hrun
      exact scanLoop_zeroRefs w head ld fuel ((m.log Call.ChainHead).log Call.ClientListDeals)
        m1 r hz hrun

theorem rootless_refl (m : MinerData) (hz : ZeroRefs m.dataRefs) : Rootless m m :=
  ⟨hz, [], by simp, by simp⟩

theorem rootless_trans (m m1 m2 : MinerData) (h1 : Rootless m m1) (h2 : Rootless m1 m2) :
    Rootless m m2 := by
  obtain ⟨_, a, hca, hfa⟩ := h1
  obtain ⟨hz2, b, hcb, hfb⟩ := h2
  refine ⟨hz2, a ++ b, by rw [hcb, hca, List.append_assoc], ?_⟩
  intro c hc
  rcases List.mem_append.mp hc with h | h
  · exact hfa c h
  · exact hfb c h

theorem rootless_drop (m m1 : MinerData) (h : Rootless m m1) :
    ∀ c ∈ m1.calls.drop m.calls.length, c.undefRoot := by
  obtain ⟨_, a, hca, hfa⟩ := h
  rw [hca, List.drop_left]
  exact hfa

theorem bumpTry_dataRef (ds : List DealData) (i : Nat) (d1 : DealData)
    (h : d1 ∈ bumpTry i ds) : ∃ d ∈ ds, d1.dataRef = d.dataRef := by
  induction ds generalizing i with
  | nil => simp [bumpTry] at h
  | cons x rest ih =>
    cases i with
    | zero =>
      have h1 : d1 ∈ { x with tryCount := wrap64 (x.tryCount + 1) } :: rest := by
        simpa [bumpTry] using h
      rcases List.mem_cons.mp h1 with h2 | h2
      · exact ⟨x, List.mem_cons_self _ _, by rw [h2]⟩
      · exact ⟨d1, List.mem_cons_of_mem _ h2, rfl⟩
    | succ n =>
      have h1 : d1 ∈ x :: bumpTry n rest := by simpa [bumpTry] using h
      rcases List.mem_cons.mp h1 with h2 | h2
      · exact ⟨x, List.mem_cons_self _ _, by rw [h2]⟩
      · obtain ⟨d, hd, heq⟩ := ih n h2
        exact ⟨d, List.mem_cons_of_mem _ hd, heq⟩

theorem sweepRetrieval_rootless (w : FullNode) (m : MinerData) (rk : Cid)
    (hz : ZeroRefs m.dataRefs) : Rootless m (sweepRetrieval w m rk).1 := by
  unfold sweepRetrieval
  cases hg : m.dataRefs.Get rk with
  | none => exact rootless_refl m hz
  | some data =>
    dsimp only
    cases hd : data.dealDatas with
    | nil => exact rootless_refl m hz
    | cons dealData rest =>
      have hroot : dealData.dataRef.RootCID = CidUndef := by
        rw [hz rk data dealData hg (by rw [hd]; exact List.mem_cons_self _ _)]
        rfl
      have hcalls : ∀ c ∈ [Call.ClientHasLocal dealData.dataRef.RootCID], c.undefRoot := by
        intro c hc
        rw [List.mem_singleton.mp hc]
        exact hroot
      dsimp only
      cases w.ClientHasLocal m.now dealData.dataRef.RootCID with
      | error e => exact ⟨hz, _, rfl, hcalls⟩
      | ok has =>
        dsimp only
        split
        · exact ⟨hz, _, rfl, hcalls⟩
        · exact ⟨hz, _, rfl, hcalls⟩

theorem sweepRetrievals_rootless (w : FullNode) (keys : List Cid) (m : MinerData)
    (hz : ZeroRefs m.dataRefs) : Rootless m (sweepRetrievals w m keys).1 := by
  induction keys generalizing m with
  | nil => exact rootless_refl m hz
  | cons rk rest ih =>
    have h1 := sweepRetrieval_rootless w m rk hz
    unfold sweepRetrievals
    rcases hstep : sweepRetrieval w m rk with ⟨m1, _ | r⟩
    · rw [hstep] at h1
      exact rootless_trans m m1 _ h1 (ih m1 h1.1)
    · rw [hstep] at h1
      exact h1

theorem retrieveCandidate_rootless (w : FullNode) (m : MinerData) (rk : Cid)
    (hz : ZeroRefs m.dataRefs) : Rootless m (retrieveCandidate w m rk).1 := by
  have hout := retrieveCandidate_outcome w m rk
  have hroot : ∀ datas idx dealData, m.dataRefs.Get rk = some datas →
      chosenRecord w m.now datas = some (idx, dealData) →
      dealData.dataRef.RootCID = CidUndef := by
    intro datas idx dealData hg hp
    rw [hz rk datas dealData hg
      (mem_of_get?_some _ _ _ (chosenRecord_get w m.now datas idx dealData hp))]
    rfl
  have hone : ∀ datas idx dealData, m.dataRefs.Get rk = some datas →
      chosenRecord w m.now datas = some (idx, dealData) →
      ∀ c ∈ [Call.ClientHasLocal dealData.dataRef.RootCID], c.undefRoot := by
    intro datas idx dealData hg hp c hc
    rw [List.mem_singleton.mp hc]
    exact hroot datas idx dealData hg hp
  have htwo : ∀ datas idx dealData, m.dataRefs.Get rk = some datas →
      chosenRecord w m.now datas = some (idx, dealData) →
      ∀ c ∈ [Call.ClientHasLocal dealData.dataRef.RootCID,
        Call.ClientQuery dealData.dataRef.RootCID dealData.deal.Provider], c.undefRoot := by
    intro datas idx dealData hg hp c hc
    rcases List.mem_cons.mp hc with h | h
    · rw [h]
      exact hroot datas idx dealData hg hp
    · rw [List.mem_singleton.mp h]
      exact hroot datas idx dealData hg hp
  generalize retrieveCandidate w m rk = res at hout
  cases hout with
  | missing hg => exact rootless_refl m hz
  | noCandidate datas hg hn => exact rootless_refl m hz
  | noPick datas hg hn hp => exact rootless_refl m hz
  | probeFailed datas idx dealData e hg hp hl =>
    exact ⟨hz, _, rfl, hone datas idx dealData hg hp⟩
  | isLocal datas idx dealData hg hp hl =>
    exact ⟨hz, _, rfl, hone datas idx dealData hg hp⟩
  | retrieving datas idx dealData hg hp hl hc =>
    exact ⟨hz, _, rfl, hone datas idx dealData hg hp⟩
  | queryFailed datas idx dealData e hg hp hl hc hq =>
    refine ⟨?_, _, by simp [MinerData.log], htwo datas idx dealData hg hp⟩
    refine zeroRefs_overwrite m.dataRefs rk _ hz ?_
    intro d1 hd1
    obtain ⟨d, hd, heq⟩ := bumpTry_dataRef datas.dealDatas idx d1 hd1
    rw [heq]
    exact hz rk datas d hg hd
  | succeeded datas idx dealData resp hg hp hl hc hq hs =>
    exact ⟨hz, _, by simp [MinerData.log], htwo datas idx dealData hg hp⟩
  | offered datas idx dealData resp hg hp hl hc hq hs =>
    exact ⟨hz, _, by simp [MinerData.log], htwo datas idx dealData hg hp⟩

theorem retrieveCandidates_rootless (w : FullNode) (keys : List Cid) (m : MinerData)
    (hz : ZeroRefs m.dataRefs) : Rootless m (retrieveCandidates w m keys).1 := by
  induction keys generalizing m with
  | nil => exact rootless_refl m hz
  | cons rk rest ih =>
    have h1 := retrieveCandidate_rootless w m rk hz
    unfold retrieveCandidates
    rcases hstep : retrieveCandidate w m rk with ⟨m1, _ | _ | r⟩
    · rw [hstep] at h1
      exact rootless_trans m m1 _ h1 (ih m1 h1.1)
    · rw [hstep] at h1
      exact h1
    · rw [hstep] at h1
      exact h1

theorem retrieveChainData_rootless (w : FullNode) (m : MinerData) (hz : ZeroRefs m.dataRefs) :
    Rootless m (retrieveChainData w m).1 := by
  have h1 := sweepRetrievals_rootless w m.retrievals.Keys m hz
  unfold retrieveChainData
  rcases hstep : sweepRetrievals w m m.retrievals.Keys with ⟨m1, _ | r⟩
  · rw [hstep] at h1
    dsimp only at h1 ⊢
    split
    · exact h1
    · exact rootless_trans m m1 _ h1 (retrieveCandidates_rootless w _ m1 h1.1)
  · rw [hstep] at h1
    exact h1

theorem sweepDeal_rootless (w : FullNode) (m : MinerData) (rk : Cid)
    (hz : ZeroRefs m.dataRefs) : Rootless m (sweepDeal w m rk).1 := by
  have hcalls : ∀ dealID, ∀ c ∈ [Call.ClientGetDealInfo dealID], c.undefRoot := by
    intro dealID c hc
    rw [List.mem_singleton.mp hc]
    exact True.intro
  unfold sweepDeal
  cases m.deals.Get rk with
  | none => exact rootless_refl m hz
  | some dealID =>
    dsimp only
    cases w.ClientGetDealInfo m.now dealID with
    | error e => exact ⟨hz, _, rfl, hcalls dealID⟩
    | ok lDeal =>
      dsimp only
      split
      · exact ⟨zeroRefs_shrinks _ _ hz (shrinks_Remove m.dataRefs rk), _, rfl, hcalls dealID⟩
      · split
        · exact ⟨hz, _, rfl, hcalls dealID⟩
        · exact ⟨hz, _, rfl, hcalls dealID⟩

theorem sweepDeals_rootless (w : FullNode) (keys : List Cid) (m : MinerData)
    (hz : ZeroRefs m.dataRefs) : Rootless m (sweepDeals w m keys).1 := by
  induction keys generalizing m with
  | nil => exact rootless_refl m hz
  | cons rk rest ih =>
    have h1 := sweepDeal_rootless w m rk hz
    unfold sweepDeals
    rcases hstep : sweepDeal w m rk with ⟨m1, _ | r⟩
    · rw [hstep] at h1
      exact rootless_trans m m1 _ h1 (ih m1 h1.1)
    · rw [hstep] at h1
      exact h1

theorem dealCandidate_rootless (w : FullNode) (m : MinerData) (rk : Cid)
    (hz : ZeroRefs m.dataRefs) : Rootless m (dealCandidate w m rk).1 := by
  have hout := dealCandidate_outcome w m rk
  have hzero : ∀ (data : PieceData) (d : DealData) (rest : List DealData),
      m.dataRefs.Get rk = some data → data.dealDatas = d :: rest →
      d.dataRef = PublishStorageDataRef.zero := by
    intro data d rest hg hd
    exact hz rk data d hg (by rw [hd]; exact List.mem_cons_self _ _)
  have hfour : ∀ (data : PieceData) (d : DealData) (rest : List DealData),
      m.dataRefs.Get rk = some data → data.dealDatas = d :: rest →
      ∀ c ∈ [Call.ClientHasLocal d.dataRef.RootCID,
        Call.ClientMinerQueryOffer m.address d.dataRef.RootCID,
        Call.StateMinerInfo m.address EmptyTSK,
        Call.ClientStartDeal (startDealParams m.address d)], c.undefRoot := by
    intro data d rest hg hd c hc
    have h0 := hzero data d rest hg hd
    simp only [List.mem_cons, List.mem_singleton, List.not_mem_nil, or_false] at hc
    rcases hc with h | h | h | h
    · rw [h]
      show d.dataRef.RootCID = CidUndef
      rw [h0]
      rfl
    · rw [h]
      show d.dataRef.RootCID = CidUndef
      rw [h0]
      rfl
    · rw [h]
      exact True.intro
    · rw [h]
      show d.dataRef.RootCID = CidUndef ∧ d.dataRef.Expert = ""
      rw [h0]
      exact ⟨rfl, rfl⟩
  have hthree : ∀ (data : PieceData) (d : DealData) (rest : List DealData),
      m.dataRefs.Get rk = some data → data.dealDatas = d :: rest →
      ∀ c ∈ [Call.ClientHasLocal d.dataRef.RootCID,
        Call.ClientMinerQueryOffer m.address d.dataRef.RootCID,
        Call.StateMinerInfo m.address EmptyTSK], c.undefRoot := by
    intro data d rest hg hd c hc
    refine hfour data d rest hg hd c ?_
    simp only [List.mem_cons, List.mem_singleton, List.not_mem_nil, or_false] at hc ⊢
    rcases hc with h | h | h
    · exact Or.inl h
    · exact Or.inr (Or.inl h)
    · exact Or.inr (Or.inr (Or.inl h))
  have htwo : ∀ (data : PieceData) (d : DealData) (rest : List DealData),
      m.dataRefs.Get rk = some data → data.dealDatas = d :: rest →
      ∀ c ∈ [Call.ClientHasLocal d.dataRef.RootCID,
        Call.ClientMinerQueryOffer m.address d.dataRef.RootCID], c.undefRoot := by
    intro data d rest hg hd c hc
    refine hfour data d rest hg hd c ?_
    simp only [List.mem_cons, List.mem_singleton, List.not_mem_nil, or_false] at hc ⊢
    rcases hc with h | h
    · exact Or.inl h
    · exact Or.inr (Or.inl h)
  have hone : ∀ (data : PieceData) (d : DealData) (rest : List DealData),
      m.dataRefs.Get rk = some data → data.dealDatas = d :: rest →
      ∀ c ∈ [Call.ClientHasLocal d.dataRef.RootCID], c.undefRoot := by
    intro data d rest hg hd c hc
    refine hfour data d rest hg hd c ?_
    simp only [List.mem_cons, List.mem_singleton, List.not_mem_nil, or_false] at hc ⊢
    exact Or.inl hc
  generalize dealCandidate w m rk = res at hout
  cases hout with
  | missing hg => exact rootless_refl m hz
  | noRecord data hg hd => exact rootless_refl m hz
  | probeFailed data d rest e hg hd hl => exact ⟨hz, _, rfl, hone data d rest hg hd⟩
  | notLocal data d rest hg hd hl => exact ⟨hz, _, rfl, hone data d rest hg hd⟩
  | dealing data d rest hg hd hl hc => exact ⟨hz, _, rfl, hone data d rest hg hd⟩
  | offerFailed data d rest e hg hd hl hc ho =>
    exact ⟨hz, _, by simp [MinerData.log], htwo data d rest hg hd⟩
  | served data d rest offer hg hd hl hc ho he =>
    exact ⟨zeroRefs_shrinks _ _ hz (shrinks_Remove m.dataRefs rk), _,
      by simp [MinerData.log], htwo data d rest hg hd⟩
  | infoFailed data d rest offer e hg hd hl hc ho he hi =>
    exact ⟨hz, _, by simp [MinerData.log], hthree data d rest hg hd⟩
  | noPeer data d rest offer mi hg hd hl hc ho he hi hp =>
    exact ⟨hz, _, by simp [MinerData.log], hthree data d rest hg hd⟩
  | uninitialized data d rest offer mi hg hd hl hc ho he hi hp =>
    exact ⟨hz, _, by simp [MinerData.log], hthree data d rest hg hd⟩
  | startFailed data d rest offer mi peerId e hg hd hl hc ho he hi hp hs hr =>
    exact ⟨hz, _, by simp [MinerData.log], hfour data d rest hg hd⟩
  | started data d rest offer mi peerId dealID hg hd hl hc ho he hi hp hs hr =>
    exact ⟨hz, _, by simp [MinerData.log], hfour data d rest hg hd⟩

theorem dealCandidates_rootless (w : FullNode) (keys : List Cid) (m : MinerData)
    (hz : ZeroRefs m.dataRefs) : Rootless m (dealCandidates w m keys).1 := by
  induction keys generalizing m with
  | nil => exact rootless_refl m hz
  | cons rk rest ih =>
    have h1 := dealCandidate_rootless w m rk hz
    rcases hstep : dealCandidate w m rk with ⟨m1, _ | _ | r⟩
    · rw [hstep] at h1
      rw [dealCandidates_cons_next _ _ _ _ _ hstep]
      exact rootless_trans m m1 _ h1 (ih m1 h1.1)
    · rw [hstep] at h1
      rw [dealCandidates_cons_brk _ _ _ _ _ hstep]
      exact h1
    · rw [hstep] at h1
      rw [dealCandidates_cons_ret _ _ _ _ _ _ hstep]
      exact h1

theorem dealChainData_rootless (w : FullNode) (m : MinerData) (hz : ZeroRefs m.dataRefs) :
    Rootless m (dealChainData w m).1 := by
  have h1 := sweepDeals_rootless w m.deals.Keys m hz
  unfold dealChainData
  rcases hstep : sweepDeals w m m.deals.Keys with ⟨m1, _ | r⟩
  · rw [hstep] at h1
    dsimp only at h1 ⊢
    split
    · exact h1
    · exact rootless_trans m m1 _ h1 (dealCandidates_rootless w _ m1 h1.1)
  · rw [hstep] at h1
    exact h1

theorem reachable_zeroRefs (w : FullNode) (m : MinerData) (h : Reachable w m) :
    ZeroRefs m.dataRefs := by
  induction h with
  | init addr =>
    intro k p d hg _
    cases hg
  | check m0 fuel m1 r _ hrun ih => exact checkChainData_zeroRefs w fuel m0 m1 r ih hrun
  | retrieve m0 _ ih => exact (retrieveChainData_rootless w m0 ih).1
  | deal m0 _ ih => exact (dealChainData_rootless w m0 ih).1

/-- C23: in every state of the replicator every record of the Piece Inventory has the
zero-valued data reference (undefined root, empty expert): `checkChainData` stores its
records with it and no call of the three operations changes it. Consequently every
local-store probe, retrieval query and local-offer query that `retrieveChainData` and
`dealChainData` issue carries the undefined root, and every storage deal published
has the undefined root and the empty expert. -/
theorem dataRef_never_assigned (w : FullNode) (m : MinerData) (hm : Reachable w m) :
    (∀ k p d, m.dataRefs.Get k = some p → d ∈ p.dealDatas →
        d.dataRef = { RootCID := CidUndef, Expert := "" }) ∧
      (∀ fuel m1 r, checkChainData w fuel m = some (m1, r) → ZeroRefs m1.dataRefs) ∧
      ZeroRefs (retrieveChainData w m).1.dataRefs ∧
      ZeroRefs (dealChainData w m).1.dataRefs ∧
      (∀ c ∈ (retrieveChainData w m).1.calls.drop m.calls.length, c.undefRoot) ∧
      (∀ c ∈ (dealChainData w m).1.calls.drop m.calls.length, c.undefRoot) := by
  have hz := reachable_zeroRefs w m hm
  exact ⟨hz, fun fuel m1 r hrun => checkChainData_zeroRefs w fuel m m1 r hz hrun,
    (retrieveChainData_rootless w m hz).1, (dealChainData_rootless w m hz).1,
    rootless_drop m _ (retrieveChainData_rootless w m hz),
    rootless_drop m _ (dealChainData_rootless w m hz)⟩

theorem dataRef_never_assigned_witness :
    Reachable fetchedWorld fetchedIndexed ∧
      (fetchedIndexed.dataRefs.Get 7).map (fun p => p.dealDatas.map (fun d => d.dealID)) =
        some [42] ∧
      ∀ c ∈ (retrieveChainData fetchedWorld fetchedIndexed).1.calls.drop
          fetchedIndexed.calls.length, c.undefRoot :=
  ⟨Reachable.check _ 5 _ Result.ok (Reachable.init 1) (by decide), by decide,
    (dataRef_never_assigned fetchedWorld fetchedIndexed
      (Reachable.check _ 5 _ Result.ok (Reachable.init 1) (by decide))).2.2.2.2.1⟩

end Miner
